import Mathlib

/-!
# Packify pack calculator (`pkg/calculator/calculator.go`)

A shallow embedding of the three entry points `CalculatePacks`,
`CalculatePacksOptimized`, `OptimalCalculatePacks` and of the helper
`findMinimumItems`.

Modelling conventions.

* Go `uint64` values are natural numbers below `2 ^ 64`; every `+`, `-`, `*`
  of the source is written with the wrapping operations `add64`, `sub64`,
  `mul64`.
* A slice is a `List Nat`.  Reading or writing an index outside the slice is
  the Go run-time panic "index out of range"; it is the outcome `Run.panic`.
  Integer division by zero is the same outcome.
* A `map[uint64]uint64` is an association list with unique keys.  The two
  totals computed by ranging over the map are wrapping sums, which do not
  depend on Go's iteration order.
* Loops whose trip count is not fixed by their bounds (`for current > 0`,
  `for i := target + 1; ; i++`) take a fuel argument; running out of fuel is
  the outcome `Run.outOfFuel` and is never reported as a result.
* `sort.Slice` with the comparator `a[i] > a[j]` sorts the caller's slice in
  place.  On `uint64` keys the sorted sequence is unique, so it is modelled by
  insertion sort; the sorted slice is part of what a call returns.
* `make` always succeeds: the memory limit of the Go runtime is not modelled.

The file has three parts: the embedding of the source, the lemmas about it
(fuel, the tables of `findMinimumItems` and of the hybrid solver, their
reconstruction walks, maps of pack counts), and the claims `C1`, `C2`, ... in
order.
-/

namespace Packify

/-! ## Machine integers -/

/-- Number of values of a Go `uint64`. -/
def wordSize : Nat := 2 ^ 64

/-- Wrapping `uint64` addition. -/
def add64 (a b : Nat) : Nat := (a + b) % wordSize

/-- Wrapping `uint64` subtraction. -/
def sub64 (a b : Nat) : Nat := (a + (wordSize - b % wordSize)) % wordSize

/-- Wrapping `uint64` multiplication. -/
def mul64 (a b : Nat) : Nat := (a * b) % wordSize

/-! ## Outcomes of a run -/

/-- Outcome of running a piece of Go code: it returns a value, it stops with a
run-time panic, or the model ran out of fuel before the code returned. -/
inductive Run (α : Type) where
  | done (a : α)
  | panic
  | outOfFuel
deriving DecidableEq, Repr

/-- Sequencing of runs: a panic or fuel exhaustion ends the computation. -/
def Run.bind {α β : Type} (r : Run α) (f : α → Run β) : Run β :=
  match r with
  | .done a => f a
  | .panic => .panic
  | .outOfFuel => .outOfFuel

instance : Monad Run where
  pure := Run.done
  bind := Run.bind

instance : LawfulMonad Run :=
  LawfulMonad.mk' Run (fun x => by cases x <;> rfl) (fun _ _ => rfl)
    (fun x _ _ => by cases x <;> rfl)

/-- Slice read `xs[i]`. -/
def readAt (xs : List Nat) (i : Nat) : Run Nat :=
  match xs[i]? with
  | some v => .done v
  | none => .panic

/-- Slice write `xs[i] = v`. -/
def writeAt (xs : List Nat) (i v : Nat) : Run (List Nat) :=
  if i < xs.length then .done (xs.set i v) else .panic

/-! ## Maps from pack size to count -/

/-- A Go `map[uint64]uint64`: association list, each key at most once. -/
abbrev PackMap := List (Nat × Nat)

/-- Map read `m[k]`, zero when the key is absent. -/
def PackMap.get (m : PackMap) (k : Nat) : Nat :=
  match m with
  | [] => 0
  | (k', v) :: rest => if k' = k then v else PackMap.get rest k

/-- Map write `m[k] = v`. -/
def PackMap.put (m : PackMap) (k v : Nat) : PackMap :=
  match m with
  | [] => [(k, v)]
  | (k', v') :: rest => if k' = k then (k, v) :: rest else (k', v') :: PackMap.put rest k v

/-- Map increment `m[k]++`. -/
def PackMap.incr (m : PackMap) (k : Nat) : PackMap :=
  m.put k (add64 (m.get k) 1)

/-- The loop `for size, count := range m { total += size * count }`. -/
def PackMap.totalItems (m : PackMap) : Nat :=
  m.foldl (fun acc kv => add64 acc (mul64 kv.1 kv.2)) 0

/-- The loop `for _, count := range m { total += count }`. -/
def PackMap.totalPacks (m : PackMap) : Nat :=
  m.foldl (fun acc kv => add64 acc kv.2) 0

/-! ## Results -/

/-- The struct `PackResult`. -/
structure PackResult where
  PackCounts : PackMap
  TotalPacks : Nat
  TotalItems : Nat
  ExcessItems : Nat
deriving DecidableEq, Repr

/-- The zero value `PackResult{}` (its map is nil, which reads as empty). -/
def PackResult.zero : PackResult :=
  { PackCounts := [], TotalPacks := 0, TotalItems := 0, ExcessItems := 0 }

/-- The two errors built with `fmt.Errorf`. -/
inductive CalcError where
  | itemsOrderedMustBePositive
  | noPackSizesAvailable
deriving DecidableEq, Repr

/-- The text of an error. -/
def CalcError.message : CalcError → String
  | .itemsOrderedMustBePositive => "items ordered must be positive"
  | .noPackSizesAvailable => "no pack sizes available"

/-- What a call hands back to its caller: the `(PackResult, error)` pair and
the contents of the caller's `availablePackSizes` slice after the call. -/
structure Returned where
  result : PackResult
  err : Option CalcError
  packSizes : List Nat
deriving DecidableEq, Repr

/-! ## Sorting -/

/-- Insert into a descending list, keeping it descending. -/
def insertDesc (x : Nat) : List Nat → List Nat
  | [] => [x]
  | y :: ys => if y < x then x :: y :: ys else y :: insertDesc x ys

/-- The call `sort.Slice(a, func(i, j) bool { return a[i] > a[j] })`. -/
def sortSliceDesc : List Nat → List Nat
  | [] => []
  | x :: xs => insertDesc x (sortSliceDesc xs)

/-! ## `findMinimumItems` -/

/-- The first condition of the inner loop body (line 203), with Go's
short-circuit evaluation:
`size <= i && dp[i-size] != maxPossible && dp[i-size]+size < dp[i]`. -/
def fillFirst (maxPossible i : Nat) (dp : List Nat) (size : Nat) : Run Bool :=
  if size ≤ i then
    readAt dp (i - size) >>= fun a =>
      if a ≠ maxPossible then
        readAt dp i >>= fun b => pure (decide (add64 a size < b))
      else pure false
  else pure false

/-- The second condition of the inner loop body (line 206 and line 135):
`i < size && size < dp[i]`. -/
def fillSecond (i : Nat) (dp : List Nat) (size : Nat) : Run Bool :=
  if i < size then
    readAt dp i >>= fun b => pure (decide (size < b))
  else pure false

/-- The two assignments `dp[i] = v; packUsed[i] = size`. -/
def recordChoice (i v size : Nat) (st : List Nat × List Nat) : Run (List Nat × List Nat) :=
  writeAt st.1 i v >>= fun dp =>
    writeAt st.2 i size >>= fun used => pure (dp, used)

/-- One pass of the inner loop body of `findMinimumItems` (lines 203-211):
the state is the pair `(dp, packUsed)`. -/
def fillCell (maxPossible i : Nat) (st : List Nat × List Nat) (size : Nat) :
    Run (List Nat × List Nat) :=
  fillFirst maxPossible i st.1 size >>= fun first =>
    if first then
      readAt st.1 (i - size) >>= fun a => recordChoice i (add64 a size) size st
    else
      fillSecond i st.1 size >>= fun second =>
        if second then recordChoice i size size st else pure st

/-- The loop `for _, size := range packSizes` for one index `i`. -/
def fillRow (maxPossible : Nat) (packSizes : List Nat) (st : List Nat × List Nat) (i : Nat) :
    Run (List Nat × List Nat) :=
  packSizes.foldlM (fillCell maxPossible i) st

/-- The loop `for i := uint64(1); i <= target; i++` filling both tables. -/
def fillTables (maxPossible target : Nat) (packSizes : List Nat) (st : List Nat × List Nat) :
    Run (List Nat × List Nat) :=
  (List.range' 1 target).foldlM (fillRow maxPossible packSizes) st

/-- Result of the forward scan of lines 221-231: either the index to
reconstruct from, or the early return of one smallest pack. -/
inductive Scan where
  | found (current : Nat)
  | fallback
deriving DecidableEq, Repr

/-- The loop `for i := target + 1; ; i++` (lines 221-231). -/
def scanForward (dp : List Nat) (maxPossible stop : Nat) : Nat → Nat → Run Scan
  | 0, _ => .outOfFuel
  | fuel + 1, i => do
    let v ← readAt dp i
    if v ≠ maxPossible then pure (.found i)
    else if i = stop then pure .fallback
    else scanForward dp maxPossible stop fuel (add64 i 1)

/-- The loop `for i := len(packSizes) - 1; i >= 0; i--` (lines 243-249): the
last element of the slice that is at least `current`. -/
def closingPack (packSizes : List Nat) (current : Nat) : Option Nat :=
  packSizes.reverse.find? (fun p => decide (current ≤ p))

/-- The loop `for current > 0` (lines 235-251). -/
def walkPacks (packUsed packSizes : List Nat) : Nat → Nat → PackMap → Run PackMap
  | 0, _, _ => .outOfFuel
  | fuel + 1, current, packCounts =>
    if current = 0 then .done packCounts
    else do
      let pack ← readAt packUsed current
      let packCounts := packCounts.incr pack
      let current := sub64 current pack
      if current = 0 then walkPacks packUsed packSizes fuel current packCounts
      else do
        let next ← readAt packUsed current
        if next = 0 then
          match closingPack packSizes current with
          | some p => walkPacks packUsed packSizes fuel 0 (packCounts.incr p)
          | none => walkPacks packUsed packSizes fuel current packCounts
        else walkPacks packUsed packSizes fuel current packCounts

/-- Lines 217-232: where the reconstruction starts.  When `dp[target]` is the
sentinel the forward scan runs, otherwise `current` stays `target`. -/
def chooseStart (fuel target smallestPack maxPossible : Nat) (dp : List Nat) : Run Scan :=
  readAt dp target >>= fun atTarget =>
    if atTarget = maxPossible then
      scanForward dp maxPossible (add64 target smallestPack) fuel (add64 target 1)
    else pure (.found target)

/-- Lines 234-259 after the start is known: either the early return of one
smallest pack, or the walk followed by the total over the map. -/
def reconstruct (fuel smallestPack : Nat) (packUsed packSizes : List Nat) (scan : Scan) :
    Run (Nat × PackMap) :=
  match scan with
  | .fallback => pure (smallestPack, PackMap.put [] smallestPack 1)
  | .found current =>
    walkPacks packUsed packSizes fuel current [] >>= fun packCounts =>
      pure (packCounts.totalItems, packCounts)

/-- The tables of `findMinimumItems` after lines 187-213: `dp` starts as the
sentinel everywhere except `dp[0] = 0`, `packUsed` starts as zeros, then both
are filled. -/
def buildTables (target maxPossible : Nat) (packSizes : List Nat) : Run (List Nat × List Nat) :=
  writeAt (List.replicate (add64 target 1) maxPossible) 0 0 >>= fun dp =>
    fillTables maxPossible target packSizes (dp, List.replicate (add64 target 1) 0)

/-- The function `findMinimumItems`. -/
def findMinimumItems (fuel target : Nat) (packSizes : List Nat) : Run (Nat × PackMap) :=
  match packSizes.getLast? with
  | none => .panic
  | some smallestPack =>
    let maxPossible := add64 (add64 target smallestPack) 1
    buildTables target maxPossible packSizes >>= fun tables =>
      chooseStart fuel target smallestPack maxPossible tables.1 >>= fun scan =>
        reconstruct fuel smallestPack tables.2 packSizes scan

/-! ## `CalculatePacks` -/

/-- The function `CalculatePacks`. -/
def CalculatePacks (fuel itemsOrdered : Nat) (availablePackSizes : List Nat) : Run Returned :=
  if itemsOrdered ≤ 0 then
    .done ⟨PackResult.zero, some .itemsOrderedMustBePositive, availablePackSizes⟩
  else if availablePackSizes.length = 0 then
    .done ⟨PackResult.zero, some .noPackSizesAvailable, availablePackSizes⟩
  else
    let sorted := sortSliceDesc availablePackSizes
    findMinimumItems fuel itemsOrdered sorted >>= fun found =>
      pure ⟨{ PackCounts := found.2
              TotalPacks := found.2.totalPacks
              TotalItems := found.1
              ExcessItems := sub64 found.1 itemsOrdered }, none, sorted⟩

/-! ## `CalculatePacksOptimized` -/

/-- One pass of the greedy loop body (lines 110-115): the state is
`(packCounts, remaining)`. -/
def greedyStep (st : PackMap × Nat) (packSize : Nat) : Run (PackMap × Nat) :=
  if packSize = 0 then .panic
  else
    let count := st.2 / packSize
    if 0 < count then pure (st.1.put packSize count, sub64 st.2 (mul64 count packSize))
    else pure st

/-- The loop `for i := 0; i < len(availablePackSizes)-1; i++` (lines 109-116). -/
def greedyPhase (packSizes : List Nat) (st : PackMap × Nat) : Run (PackMap × Nat) :=
  packSizes.dropLast.foldlM greedyStep st

/-- The tables after lines 122-127: `dp[0] = 0`, `dp[i] = i + dpLimit`. -/
def initWindow (dpLimit : Nat) : List Nat :=
  0 :: (List.range' 1 dpLimit).map (fun i => add64 i dpLimit)

/-- The first condition of the bounded table fill (line 132):
`size <= i && dp[i-size]+size < dp[i]`. -/
def windowFirst (i : Nat) (dp : List Nat) (size : Nat) : Run Bool :=
  if size ≤ i then
    readAt dp (i - size) >>= fun a =>
      readAt dp i >>= fun b => pure (decide (add64 a size < b))
  else pure false

/-- One pass of the inner loop body of the bounded table fill (lines 132-138):
the state is the pair `(dp, packChoice)`. -/
def windowCell (i : Nat) (st : List Nat × List Nat) (size : Nat) :
    Run (List Nat × List Nat) :=
  windowFirst i st.1 size >>= fun first =>
    if first then
      readAt st.1 (i - size) >>= fun a => recordChoice i (add64 a size) size st
    else
      fillSecond i st.1 size >>= fun second =>
        if second then recordChoice i size size st else pure st

/-- The loop `for i := uint64(1); i <= dpLimit; i++` of lines 130-140. -/
def fillWindow (dpLimit : Nat) (packSizes : List Nat) (st : List Nat × List Nat) :
    Run (List Nat × List Nat) :=
  (List.range' 1 dpLimit).foldlM (fun st i => packSizes.foldlM (windowCell i) st) st

/-- One pass of the loop body of lines 144-148:
`if dp[i] < dp[bestTarget] || (dp[i] == dp[bestTarget] && i < bestTarget)`. -/
def bestStep (dp : List Nat) (bestTarget i : Nat) : Run Nat :=
  readAt dp i >>= fun a =>
    readAt dp bestTarget >>= fun b =>
      if a < b then pure i
      else if a = b ∧ i < bestTarget then pure i
      else pure bestTarget

/-- The loop `for i := remaining; i <= dpLimit; i++` of lines 143-148. -/
def findBestTarget (dp : List Nat) (remaining dpLimit : Nat) : Run Nat :=
  (List.range' remaining (dpLimit + 1 - remaining)).foldlM (bestStep dp) remaining

/-- The loop `for current > 0` of lines 152-156. -/
def walkChoices (packChoice : List Nat) : Nat → Nat → PackMap → Run PackMap
  | 0, _, _ => .outOfFuel
  | fuel + 1, current, packCounts =>
    if current = 0 then .done packCounts
    else do
      let size ← readAt packChoice current
      walkChoices packChoice fuel (sub64 current size) (packCounts.incr size)

/-- Lines 108-117: the greedy phase runs only when the order exceeds
`dpLimit`; the state is `(packCounts, remaining)`. -/
def greedyOrSkip (dpLimit itemsOrdered : Nat) (packSizes : List Nat) : Run (PackMap × Nat) :=
  if dpLimit < itemsOrdered then greedyPhase packSizes ([], itemsOrdered)
  else pure ([], itemsOrdered)

/-- Lines 120-157: the bounded table, the choice of `bestTarget` and the
reconstruction, run only when something remains. -/
def windowPhase (fuel dpLimit : Nat) (packSizes : List Nat) (st : PackMap × Nat) : Run PackMap :=
  if 0 < st.2 then
    fillWindow dpLimit packSizes (initWindow dpLimit, List.replicate (add64 dpLimit 1) 0)
      >>= fun tables =>
        findBestTarget tables.1 st.2 dpLimit >>= fun bestTarget =>
          walkChoices tables.2 fuel bestTarget st.1
  else pure st.1

/-- The function `CalculatePacksOptimized`. -/
def CalculatePacksOptimized (fuel itemsOrdered : Nat) (availablePackSizes : List Nat) :
    Run Returned :=
  if itemsOrdered ≤ 0 then
    .done ⟨PackResult.zero, some .itemsOrderedMustBePositive, availablePackSizes⟩
  else if availablePackSizes.length = 0 then
    .done ⟨PackResult.zero, some .noPackSizesAvailable, availablePackSizes⟩
  else
    let sorted := sortSliceDesc availablePackSizes
    match sorted.getLast? with
    | none => .panic
    | some smallestPack =>
      let dpLimit := mul64 smallestPack 10
      greedyOrSkip dpLimit itemsOrdered sorted >>= fun st =>
        windowPhase fuel dpLimit sorted st >>= fun packCounts =>
          pure ⟨{ PackCounts := packCounts
                  TotalPacks := packCounts.totalPacks
                  TotalItems := packCounts.totalItems
                  ExcessItems := sub64 packCounts.totalItems itemsOrdered }, none, sorted⟩

/-! ## `OptimalCalculatePacks` -/

/-- The threshold chosen at lines 30-35. -/
def selectorThreshold (availablePackSizes : List Nat) : Nat :=
  if 5 < availablePackSizes.length then 1000 else 2500

/-- The function `OptimalCalculatePacks`. -/
def OptimalCalculatePacks (fuel itemsOrdered : Nat) (availablePackSizes : List Nat) :
    Run Returned :=
  if itemsOrdered ≤ selectorThreshold availablePackSizes then
    CalculatePacks fuel itemsOrdered availablePackSizes
  else
    CalculatePacksOptimized fuel itemsOrdered availablePackSizes

/-! ## Notions used to state properties -/

/-- A fuel-indexed run is settled when more fuel never changes an outcome
other than fuel exhaustion. -/
def Settled {α : Type} (f : Nat → Run α) : Prop :=
  ∀ n, f n ≠ Run.outOfFuel → f (n + 1) = f n

/-- A combination of packs, written as the list of the packs shipped: every
pack has one of the available sizes. -/
def IsCombination (sizes combo : List Nat) : Prop :=
  ∀ p ∈ combo, p ∈ sizes

instance (sizes combo : List Nat) : Decidable (IsCombination sizes combo) := by
  unfold IsCombination; infer_instance

/-- The standard pack sizes of the repository (`models.SetupDatabase`, and the
tests of the calculator). -/
def standardPackSizes : List Nat := [250, 500, 1000, 2000, 5000]

/-- A total `t` is reachable when some combination of the available sizes
sums to exactly `t`. -/
def Reach (sizes : List Nat) (t : Nat) : Prop :=
  ∃ combo, IsCombination sizes combo ∧ combo.sum = t

/-- The candidate that pack size `c` offers for index `i` of the table `dp`
(lines 203-211): `dp[i-c] + c` when `c <= i`, the pack itself otherwise. -/
def cand (dp : List Nat) (i c : Nat) : Nat :=
  if c ≤ i then dp.getD (i - c) 0 + c else c

/-- Effect of one pack size on the pair `(dp[i], packUsed[i])`: a strictly
smaller candidate replaces the pair. -/
def rowStep (dp : List Nat) (i : Nat) (vu : Nat × Nat) (c : Nat) : Nat × Nat :=
  if cand dp i c < vu.1 then (cand dp i c, c) else vu

/-- Effect of a list of pack sizes on the pair `(dp[i], packUsed[i])`. -/
def rowFold (dp : List Nat) (i : Nat) (vu : Nat × Nat) (sizes : List Nat) : Nat × Nat :=
  sizes.foldl (rowStep dp i) vu

/-- State of the two tables of `findMinimumItems` once the rows `1..k` are
filled: every filled `dp[j]` is the least reachable total that is at least
`j`, `packUsed[j]` is the first size of the list whose candidate equals
`dp[j]`, and the rows above `k` still hold the sentinel and 0. -/
structure TableInv (sizes : List Nat) (target maxPossible k : Nat) (dp pu : List Nat) :
    Prop where
  len_dp : dp.length = target + 1
  len_pu : pu.length = target + 1
  val : ∀ j, j ≤ k → ∃ v, dp[j]? = some v ∧ Reach sizes v ∧ j ≤ v ∧
    ∀ t, Reach sizes t → j ≤ t → v ≤ t
  use : ∀ j, 1 ≤ j → j ≤ k → ∃ v u a b, dp[j]? = some v ∧ pu[j]? = some u ∧
    sizes = a ++ u :: b ∧ cand dp j u = v ∧ ∀ c ∈ a, v < cand dp j c
  rest : ∀ j, k < j → j ≤ target → dp[j]? = some maxPossible ∧ pu[j]? = some 0

/-- The sequence of packs the reconstruction takes from an exactly reachable
total `j`: at every step the first size of the list that fits and leaves an
exactly reachable remainder. -/
inductive LargestFirst (sizes : List Nat) : Nat → List Nat → Prop where
  | stop : LargestFirst sizes 0 []
  | pick {j u : Nat} {a b picks : List Nat} :
      1 ≤ j → sizes = a ++ u :: b → u ≤ j →
      (∀ c ∈ a, ¬ (c ≤ j ∧ Reach sizes (j - c))) →
      LargestFirst sizes (j - u) picks → LargestFirst sizes j (u :: picks)

/-- The exact number of items a map of pack counts stands for, without
wrap-around: the sum of size times count. -/
def PackMap.weight (m : PackMap) : Nat :=
  (m.map (fun kv => kv.1 * kv.2)).sum

/-- The exact number of packs a map of pack counts stands for, without
wrap-around: the sum of the counts. -/
def PackMap.packs (m : PackMap) : Nat :=
  (m.map (fun kv => kv.2)).sum

/-- State of the two tables of the bounded fill of `CalculatePacksOptimized`
(lines 122-140) once the rows `1..k` are filled: as in `TableInv`, every
filled `dp[j]` is the least reachable total that is at least `j` and
`packChoice[j]` is the first size of the list whose candidate equals `dp[j]`;
the rows above `k` still hold their initial `j + dpLimit` and 0. -/
structure WindowInv (sizes : List Nat) (dpLimit k : Nat) (dp pc : List Nat) : Prop where
  len_dp : dp.length = dpLimit + 1
  len_pc : pc.length = dpLimit + 1
  val : ∀ j, j ≤ k → ∃ v, dp[j]? = some v ∧ Reach sizes v ∧ j ≤ v ∧
    ∀ t, Reach sizes t → j ≤ t → v ≤ t
  use : ∀ j, 1 ≤ j → j ≤ k → ∃ v u a b, dp[j]? = some v ∧ pc[j]? = some u ∧
    sizes = a ++ u :: b ∧ cand dp j u = v ∧ ∀ c ∈ a, v < cand dp j c
  rest : ∀ j, k < j → j ≤ dpLimit → dp[j]? = some (j + dpLimit) ∧ pc[j]? = some 0

/-! ## Basic facts about runs -/

@[simp] theorem Run.pure_eq {α : Type} (a : α) : (pure a : Run α) = Run.done a := rfl

@[simp] theorem Run.done_bind {α β : Type} (a : α) (f : α → Run β) :
    (Run.done a >>= f) = f a := rfl

@[simp] theorem Run.panic_bind {α β : Type} (f : α → Run β) :
    ((Run.panic : Run α) >>= f) = Run.panic := rfl

@[simp] theorem Run.outOfFuel_bind {α β : Type} (f : α → Run β) :
    ((Run.outOfFuel : Run α) >>= f) = Run.outOfFuel := rfl

theorem Run.bind_eq_done {α β : Type} {x : Run α} {f : α → Run β} {b : β}
    (h : (x >>= f) = Run.done b) : ∃ a, x = Run.done a ∧ f a = Run.done b := by
  cases x with
  | done a => exact ⟨a, rfl, h⟩
  | panic => cases h
  | outOfFuel => cases h

theorem Settled.le {α : Type} {f : Nat → Run α} (hf : Settled f) {n m : Nat} (hnm : n ≤ m)
    (h : f n ≠ Run.outOfFuel) : f m = f n := by
  induction m, hnm using Nat.le_induction with
  | base => rfl
  | succ k _ ih => rw [hf k (by rw [ih]; exact h), ih]

theorem Settled.const {α : Type} (r : Run α) : Settled (fun _ => r) := fun _ _ => rfl

theorem Settled.bind {α β : Type} {g : Nat → Run α} {h : α → Nat → Run β}
    (hg : Settled g) (hh : ∀ a, Settled (h a)) : Settled (fun n => g n >>= fun a => h a n) := by
  intro n hn
  have hgn : g n ≠ Run.outOfFuel := by
    intro e; apply hn; simp [e]
  simp only [hg n hgn]
  cases hx : g n with
  | done a =>
    simp only [hx, Run.done_bind] at hn ⊢
    exact hh a n hn
  | panic => rfl
  | outOfFuel => exact absurd hx hgn

theorem Settled.never_done_of_panic {α : Type} {f : Nat → Run α} (hf : Settled f) {n : Nat}
    (h : f n = Run.panic) (m : Nat) (r : α) : f m ≠ Run.done r := by
  intro hm
  rcases Nat.le_total m n with hmn | hnm
  · have := hf.le hmn (by rw [hm]; simp)
    rw [h, hm] at this; cases this
  · have := hf.le hnm (by rw [h]; simp)
    rw [h, hm] at this; cases this

theorem Settled.panic_of_panic {α : Type} {f : Nat → Run α} (hf : Settled f) {n : Nat}
    (h : f n = Run.panic) {m : Nat} (hnm : n ≤ m) : f m = Run.panic := by
  rw [hf.le hnm (by rw [h]; simp), h]

/-! ## Fuel: more fuel never changes a result -/

theorem scanForward_succ (dp : List Nat) (maxPossible stop : Nat) (n i : Nat)
    (h : scanForward dp maxPossible stop n i ≠ Run.outOfFuel) :
    scanForward dp maxPossible stop (n + 1) i = scanForward dp maxPossible stop n i := by
  induction n generalizing i with
  | zero => exact absurd rfl h
  | succ k ih =>
    simp only [scanForward] at h ⊢
    cases hr : readAt dp i with
    | done v =>
      simp only [hr, Run.done_bind] at h ⊢
      by_cases h1 : v = maxPossible
      · by_cases h2 : i = stop
        · simp only [h1, h2, ne_eq, not_true_eq_false, if_false, if_true]
        · simp only [h1, h2, ne_eq, not_true_eq_false, if_false] at h ⊢
          exact ih _ h
      · simp only [h1, ne_eq, not_false_eq_true, if_true]
    | panic => rfl
    | outOfFuel => rfl

theorem walkPacks_step (packUsed packSizes : List Nat) (fuel current : Nat) (packCounts : PackMap) :
    walkPacks packUsed packSizes (fuel + 1) current packCounts =
      if current = 0 then Run.done packCounts
      else readAt packUsed current >>= fun pack =>
        if sub64 current pack = 0 then
          walkPacks packUsed packSizes fuel (sub64 current pack) (packCounts.incr pack)
        else readAt packUsed (sub64 current pack) >>= fun next =>
          if next = 0 then
            match closingPack packSizes (sub64 current pack) with
            | some p => walkPacks packUsed packSizes fuel 0 ((packCounts.incr pack).incr p)
            | none =>
              walkPacks packUsed packSizes fuel (sub64 current pack) (packCounts.incr pack)
          else walkPacks packUsed packSizes fuel (sub64 current pack) (packCounts.incr pack) :=
  rfl

theorem walkChoices_step (packChoice : List Nat) (fuel current : Nat) (packCounts : PackMap) :
    walkChoices packChoice (fuel + 1) current packCounts =
      if current = 0 then Run.done packCounts
      else readAt packChoice current >>= fun size =>
        walkChoices packChoice fuel (sub64 current size) (packCounts.incr size) :=
  rfl

theorem walkPacks_succ (packUsed packSizes : List Nat) (n current : Nat) (packCounts : PackMap)
    (h : walkPacks packUsed packSizes n current packCounts ≠ Run.outOfFuel) :
    walkPacks packUsed packSizes (n + 1) current packCounts
      = walkPacks packUsed packSizes n current packCounts := by
  induction n generalizing current packCounts with
  | zero => exact absurd rfl h
  | succ k ih =>
    rw [walkPacks_step] at h
    rw [walkPacks_step packUsed packSizes (k + 1), walkPacks_step packUsed packSizes k]
    by_cases h0 : current = 0
    · simp only [h0, if_true]
    · simp only [h0, if_false] at h ⊢
      cases hr : readAt packUsed current with
      | done pack =>
        simp only [hr, Run.done_bind] at h ⊢
        by_cases h1 : sub64 current pack = 0
        · simp only [h1, if_true] at h ⊢
          exact ih _ _ h
        · simp only [h1, if_false] at h ⊢
          cases hn : readAt packUsed (sub64 current pack) with
          | done next =>
            simp only [hn, Run.done_bind] at h ⊢
            by_cases h2 : next = 0
            · simp only [h2, if_true] at h ⊢
              cases hc : closingPack packSizes (sub64 current pack) with
              | some p =>
                simp only [hc] at h ⊢
                exact ih _ _ h
              | none =>
                simp only [hc] at h ⊢
                exact ih _ _ h
            · simp only [h2, if_false] at h ⊢
              exact ih _ _ h
          | panic => rfl
          | outOfFuel => rfl
      | panic => rfl
      | outOfFuel => rfl

theorem walkChoices_succ (packChoice : List Nat) (n current : Nat) (packCounts : PackMap)
    (h : walkChoices packChoice n current packCounts ≠ Run.outOfFuel) :
    walkChoices packChoice (n + 1) current packCounts
      = walkChoices packChoice n current packCounts := by
  induction n generalizing current packCounts with
  | zero => exact absurd rfl h
  | succ k ih =>
    rw [walkChoices_step] at h
    rw [walkChoices_step packChoice (k + 1), walkChoices_step packChoice k]
    by_cases h0 : current = 0
    · simp only [h0, if_true]
    · simp only [h0, if_false] at h ⊢
      cases hr : readAt packChoice current with
      | done size =>
        simp only [hr, Run.done_bind] at h ⊢
        exact ih _ _ h
      | panic => rfl
      | outOfFuel => rfl

theorem scanForward_settled (dp : List Nat) (maxPossible stop i : Nat) :
    Settled (fun fuel => scanForward dp maxPossible stop fuel i) :=
  fun n h => scanForward_succ dp maxPossible stop n i h

theorem walkPacks_settled (packUsed packSizes : List Nat) (current : Nat) (packCounts : PackMap) :
    Settled (fun fuel => walkPacks packUsed packSizes fuel current packCounts) :=
  fun n h => walkPacks_succ packUsed packSizes n current packCounts h

theorem walkChoices_settled (packChoice : List Nat) (current : Nat) (packCounts : PackMap) :
    Settled (fun fuel => walkChoices packChoice fuel current packCounts) :=
  fun n h => walkChoices_succ packChoice n current packCounts h

theorem chooseStart_settled (target smallestPack maxPossible : Nat) (dp : List Nat) :
    Settled (fun fuel => chooseStart fuel target smallestPack maxPossible dp) := by
  unfold chooseStart
  apply Settled.bind (Settled.const _)
  intro atTarget
  by_cases h : atTarget = maxPossible
  · simp only [h, if_true]
    exact scanForward_settled _ _ _ _
  · simp only [h, if_false]
    exact Settled.const _

theorem reconstruct_settled (smallestPack : Nat) (packUsed packSizes : List Nat) (scan : Scan) :
    Settled (fun fuel => reconstruct fuel smallestPack packUsed packSizes scan) := by
  unfold reconstruct
  cases scan with
  | fallback => exact Settled.const _
  | found current =>
    exact Settled.bind (walkPacks_settled _ _ _ _) (fun _ => Settled.const _)

theorem findMinimumItems_settled (target : Nat) (packSizes : List Nat) :
    Settled (fun fuel => findMinimumItems fuel target packSizes) := by
  unfold findMinimumItems
  cases packSizes.getLast? with
  | none => exact Settled.const _
  | some smallestPack =>
    apply Settled.bind (Settled.const _)
    intro tables
    exact Settled.bind (chooseStart_settled _ _ _ _) (fun _ => reconstruct_settled _ _ _ _)

theorem CalculatePacks_settled (itemsOrdered : Nat) (availablePackSizes : List Nat) :
    Settled (fun fuel => CalculatePacks fuel itemsOrdered availablePackSizes) := by
  unfold CalculatePacks
  by_cases h0 : itemsOrdered ≤ 0
  · simp only [h0, if_true]; exact Settled.const _
  · by_cases h1 : availablePackSizes.length = 0
    · simp only [h0, h1, if_false, if_true]; exact Settled.const _
    · simp only [h0, h1, if_false]
      exact Settled.bind (findMinimumItems_settled _ _) (fun _ => Settled.const _)

theorem windowPhase_settled (dpLimit : Nat) (packSizes : List Nat) (st : PackMap × Nat) :
    Settled (fun fuel => windowPhase fuel dpLimit packSizes st) := by
  unfold windowPhase
  by_cases h : 0 < st.2
  · simp only [h, if_true]
    apply Settled.bind (Settled.const _)
    intro tables
    apply Settled.bind (Settled.const _)
    intro bestTarget
    exact walkChoices_settled _ _ _
  · simp only [h, if_false]; exact Settled.const _

theorem CalculatePacksOptimized_settled (itemsOrdered : Nat) (availablePackSizes : List Nat) :
    Settled (fun fuel => CalculatePacksOptimized fuel itemsOrdered availablePackSizes) := by
  unfold CalculatePacksOptimized
  by_cases h0 : itemsOrdered ≤ 0
  · simp only [h0, if_true]; exact Settled.const _
  · by_cases h1 : availablePackSizes.length = 0
    · simp only [h0, h1, if_false, if_true]; exact Settled.const _
    · simp only [h0, h1, if_false]
      cases (sortSliceDesc availablePackSizes).getLast? with
      | none => exact Settled.const _
      | some smallestPack =>
        apply Settled.bind (Settled.const _)
        intro st
        exact Settled.bind (windowPhase_settled _ _ _) (fun _ => Settled.const _)

theorem OptimalCalculatePacks_settled (itemsOrdered : Nat) (availablePackSizes : List Nat) :
    Settled (fun fuel => OptimalCalculatePacks fuel itemsOrdered availablePackSizes) := by
  unfold OptimalCalculatePacks
  by_cases ht : itemsOrdered ≤ selectorThreshold availablePackSizes
  · simp only [ht, if_true]; exact CalculatePacks_settled _ _
  · simp only [ht, if_false]; exact CalculatePacksOptimized_settled _ _

/-! ## Pack sizes are not validated -/

theorem CalculatePacks_err_none {fuel itemsOrdered : Nat} {availablePackSizes : List Nat}
    {r : Returned} (h1 : 1 ≤ itemsOrdered) (h2 : availablePackSizes ≠ [])
    (h : CalculatePacks fuel itemsOrdered availablePackSizes = Run.done r) : r.err = none := by
  have h0 : ¬ itemsOrdered ≤ 0 := by omega
  have hl : ¬ availablePackSizes.length = 0 := by
    simpa [List.length_eq_zero] using h2
  unfold CalculatePacks at h
  simp only [h0, hl, if_false] at h
  obtain ⟨found, -, hf⟩ := Run.bind_eq_done h
  cases hf
  rfl

theorem CalculatePacksOptimized_err_none {fuel itemsOrdered : Nat}
    {availablePackSizes : List Nat} {r : Returned} (h1 : 1 ≤ itemsOrdered)
    (h2 : availablePackSizes ≠ [])
    (h : CalculatePacksOptimized fuel itemsOrdered availablePackSizes = Run.done r) :
    r.err = none := by
  have h0 : ¬ itemsOrdered ≤ 0 := by omega
  have hl : ¬ availablePackSizes.length = 0 := by
    simpa [List.length_eq_zero] using h2
  unfold CalculatePacksOptimized at h
  simp only [h0, hl, if_false] at h
  cases hs : (sortSliceDesc availablePackSizes).getLast? with
  | none => simp only [hs] at h; cases h
  | some smallestPack =>
    simp only [hs] at h
    obtain ⟨st, -, h⟩ := Run.bind_eq_done h
    obtain ⟨packCounts, -, h⟩ := Run.bind_eq_done h
    cases h
    rfl

/-! ## Machine arithmetic without wrap-around -/

theorem add64_of_lt {a b : Nat} (h : a + b < wordSize) : add64 a b = a + b :=
  Nat.mod_eq_of_lt h

theorem sub64_of_le {a b : Nat} (hb : b ≤ a) (ha : a < wordSize) : sub64 a b = a - b := by
  unfold sub64
  have hb' : b % wordSize = b := Nat.mod_eq_of_lt (by omega)
  rw [hb']
  have : a + (wordSize - b) = (a - b) + wordSize := by omega
  rw [this, Nat.add_mod_right]
  exact Nat.mod_eq_of_lt (by omega)

theorem sub64_of_gt {a b : Nat} (hab : a < b) (hb : b < wordSize) :
    sub64 a b = wordSize + a - b := by
  unfold sub64
  have hb' : b % wordSize = b := Nat.mod_eq_of_lt hb
  rw [hb']
  have : a + (wordSize - b) = wordSize + a - b := by omega
  rw [this]
  exact Nat.mod_eq_of_lt (by omega)

/-! ## Slice reads and writes -/

theorem readAt_of_getElem? {xs : List Nat} {i v : Nat} (h : xs[i]? = some v) :
    readAt xs i = Run.done v := by
  unfold readAt; rw [h]

theorem readAt_of_length_le {xs : List Nat} {i : Nat} (h : xs.length ≤ i) :
    readAt xs i = Run.panic := by
  unfold readAt; rw [List.getElem?_eq_none h]

theorem writeAt_of_lt {xs : List Nat} {i : Nat} (v : Nat) (h : i < xs.length) :
    writeAt xs i v = Run.done (xs.set i v) := by
  unfold writeAt; rw [if_pos h]

theorem set_self_of_getElem? {xs : List Nat} {i v : Nat} (h : xs[i]? = some v) :
    xs.set i v = xs := by
  apply List.ext_getElem?
  intro j
  rw [List.getElem?_set]
  by_cases hij : i = j
  · subst hij
    obtain ⟨hlt, -⟩ := List.getElem?_eq_some_iff.mp h
    simp [hlt, h]
  · simp [hij]

theorem getD_of_getElem? {xs : List Nat} {i v : Nat} (h : xs[i]? = some v) :
    xs.getD i 0 = v := by
  simp [List.getD, h]

theorem lt_length_of_getElem? {xs : List Nat} {i v : Nat} (h : xs[i]? = some v) :
    i < xs.length :=
  (List.getElem?_eq_some_iff.mp h).1

/-! ## One row of the table of `findMinimumItems` -/

/-- One pack size, run on a state whose cell `i` holds `v`: the cell is
replaced exactly when the candidate is strictly smaller. -/
theorem fillCell_eq {maxPossible i c v : Nat} {dp0 dp pu : List Nat}
    (hpu : i < pu.length) (hc : 1 ≤ c)
    (hsame : ∀ j, j ≠ i → dp[j]? = dp0[j]?) (hv : dp[i]? = some v)
    (hprev : c ≤ i → ∃ w, dp0[i - c]? = some w ∧ w ≠ maxPossible ∧ w + c < wordSize) :
    fillCell maxPossible i (dp, pu) c =
      Run.done (if cand dp0 i c < v then (dp.set i (cand dp0 i c), pu.set i c)
        else (dp, pu)) := by
  have hdp : i < dp.length := lt_length_of_getElem? hv
  unfold fillCell fillFirst fillSecond recordChoice
  by_cases hci : c ≤ i
  · obtain ⟨w, hw, hwM, hwc⟩ := hprev hci
    have hw' : dp[i - c]? = some w := by rw [hsame (i - c) (by omega)]; exact hw
    have hcand : cand dp0 i c = w + c := by
      unfold cand; rw [if_pos hci, getD_of_getElem? hw]
    have hnot : ¬ i < c := by omega
    simp only [hci, if_true, readAt_of_getElem? hw', Run.done_bind, ne_eq, hwM,
      not_false_eq_true, readAt_of_getElem? hv, Run.pure_eq, add64_of_lt hwc, hcand,
      hnot, if_false]
    by_cases hlt : w + c < v
    · simp only [hlt, decide_True, if_true, writeAt_of_lt _ hdp, writeAt_of_lt _ hpu,
        Run.done_bind]
    · simp only [hlt, decide_False, if_false, Bool.false_eq_true]
  · have hic : i < c := by omega
    have hcand : cand dp0 i c = c := by
      unfold cand; rw [if_neg hci]
    simp only [hci, if_false, Run.pure_eq, Run.done_bind, Bool.false_eq_true, hic, if_true,
      readAt_of_getElem? hv, hcand]
    by_cases hlt : c < v
    · simp only [hlt, decide_True, if_true, writeAt_of_lt _ hdp, writeAt_of_lt _ hpu,
        Run.done_bind]
    · simp only [hlt, decide_False, if_false, Bool.false_eq_true]

/-- A whole row: the cell `i` of both tables ends as `rowFold` says, every
other cell is untouched. -/
theorem fillRow_eq {maxPossible i : Nat} {dp0 : List Nat} (sizes : List Nat) :
    ∀ {dp pu : List Nat} {v u : Nat},
    (∀ c ∈ sizes, 1 ≤ c ∧
      (c ≤ i → ∃ w, dp0[i - c]? = some w ∧ w ≠ maxPossible ∧ w + c < wordSize)) →
    (∀ j, j ≠ i → dp[j]? = dp0[j]?) → dp[i]? = some v → pu[i]? = some u →
    fillRow maxPossible sizes (dp, pu) i =
      Run.done (dp.set i (rowFold dp0 i (v, u) sizes).1,
        pu.set i (rowFold dp0 i (v, u) sizes).2) := by
  induction sizes with
  | nil =>
    intro dp pu v u _ _ hv hu
    simp only [fillRow, List.foldlM_nil, rowFold, List.foldl_nil, Run.pure_eq,
      set_self_of_getElem? hv, set_self_of_getElem? hu]
  | cons c rest ih =>
    intro dp pu v u hs hsame hv hu
    have hc := hs c (List.mem_cons_self _ _)
    have hrest : ∀ c' ∈ rest, 1 ≤ c' ∧
        (c' ≤ i → ∃ w, dp0[i - c']? = some w ∧ w ≠ maxPossible ∧ w + c' < wordSize) :=
      fun c' h' => hs c' (List.mem_cons_of_mem _ h')
    have hdp : i < dp.length := lt_length_of_getElem? hv
    have hpu : i < pu.length := lt_length_of_getElem? hu
    unfold fillRow at ih ⊢
    rw [List.foldlM_cons, fillCell_eq hpu hc.1 hsame hv hc.2, Run.done_bind]
    simp only [rowFold, List.foldl_cons, rowStep]
    by_cases hlt : cand dp0 i c < v
    · simp only [hlt, if_true]
      have h1 : ∀ j, j ≠ i → (dp.set i (cand dp0 i c))[j]? = dp0[j]? := by
        intro j hj
        rw [List.getElem?_set_ne (Ne.symm hj)]; exact hsame j hj
      have h2 : (dp.set i (cand dp0 i c))[i]? = some (cand dp0 i c) := by
        rw [List.getElem?_set]; simp [hdp]
      have h3 : (pu.set i c)[i]? = some c := by
        rw [List.getElem?_set]; simp [hpu]
      rw [ih hrest h1 h2 h3]
      simp only [rowFold, List.set_set]
    · simp only [hlt, if_false]
      rw [ih hrest hsame hv hu]
      simp only [rowFold]

theorem rowFold_cons (dp : List Nat) (i : Nat) (vu : Nat × Nat) (c : Nat) (rest : List Nat) :
    rowFold dp i vu (c :: rest) = rowFold dp i (rowStep dp i vu c) rest := rfl

theorem rowStep_fst_le (dp : List Nat) (i : Nat) (vu : Nat × Nat) (c : Nat) :
    (rowStep dp i vu c).1 ≤ vu.1 ∧ (rowStep dp i vu c).1 ≤ cand dp i c := by
  unfold rowStep
  by_cases h : cand dp i c < vu.1
  · simp only [h, if_true]; omega
  · simp only [h, if_false]; omega

/-- What a row computes: the value never grows, it is below every candidate,
and when it changed it is the candidate of the first size of the list that
attains it. -/
theorem rowFold_spec (dp : List Nat) (i : Nat) (sizes : List Nat) :
    ∀ vu : Nat × Nat,
    (rowFold dp i vu sizes).1 ≤ vu.1 ∧
    (∀ c ∈ sizes, (rowFold dp i vu sizes).1 ≤ cand dp i c) ∧
    (rowFold dp i vu sizes = vu ∨
      ((rowFold dp i vu sizes).1 < vu.1 ∧
        ∃ a b, sizes = a ++ (rowFold dp i vu sizes).2 :: b ∧
          cand dp i (rowFold dp i vu sizes).2 = (rowFold dp i vu sizes).1 ∧
          ∀ c ∈ a, (rowFold dp i vu sizes).1 < cand dp i c)) := by
  induction sizes with
  | nil => intro vu; exact ⟨le_refl _, fun c hc => absurd hc (List.not_mem_nil c), Or.inl rfl⟩
  | cons c rest ih =>
    intro vu
    rw [rowFold_cons]
    obtain ⟨h1, h2, h3⟩ := ih (rowStep dp i vu c)
    have hs := rowStep_fst_le dp i vu c
    refine ⟨le_trans h1 hs.1, ?_, ?_⟩
    · intro c' hc'
      rcases List.mem_cons.mp hc' with rfl | hin
      · exact le_trans h1 hs.2
      · exact h2 c' hin
    · rcases h3 with heq | ⟨hlt, a, b, hab, hcand, hfirst⟩
      · rw [heq]
        by_cases h : cand dp i c < vu.1
        · have hstep : rowStep dp i vu c = (cand dp i c, c) := by
            unfold rowStep; rw [if_pos h]
          rw [hstep]
          exact Or.inr ⟨h, [], rest, rfl, rfl, fun c' hc' => absurd hc' (List.not_mem_nil c')⟩
        · have hstep : rowStep dp i vu c = vu := by
            unfold rowStep; rw [if_neg h]
          rw [hstep]
          exact Or.inl rfl
      · right
        refine ⟨lt_of_lt_of_le hlt hs.1, c :: a, b, ?_, hcand, ?_⟩
        · rw [List.cons_append, ← hab]
        · intro c' hc'
          rcases List.mem_cons.mp hc' with rfl | hin
          · exact lt_of_lt_of_le hlt hs.2
          · exact hfirst c' hin

/-! ## Reachable totals -/

theorem Reach.zero (sizes : List Nat) : Reach sizes 0 :=
  ⟨[], fun _ h => absurd h (List.not_mem_nil _), rfl⟩

theorem Reach.add {sizes : List Nat} {t c : Nat} (h : Reach sizes t) (hc : c ∈ sizes) :
    Reach sizes (t + c) := by
  obtain ⟨combo, hcombo, hsum⟩ := h
  refine ⟨c :: combo, ?_, ?_⟩
  · intro p hp
    rcases List.mem_cons.mp hp with rfl | hin
    · exact hc
    · exact hcombo p hin
  · rw [List.sum_cons, hsum, Nat.add_comm]

theorem Reach.single {sizes : List Nat} {c : Nat} (hc : c ∈ sizes) : Reach sizes c := by
  have := (Reach.zero sizes).add hc
  rwa [Nat.zero_add] at this

/-- A positive reachable total ends with some pack: taking it away leaves a
reachable total. -/
theorem Reach.split {sizes : List Nat} {t : Nat} (h : Reach sizes t) (ht : 1 ≤ t) :
    ∃ c, c ∈ sizes ∧ c ≤ t ∧ Reach sizes (t - c) := by
  obtain ⟨combo, hcombo, hsum⟩ := h
  cases combo with
  | nil => simp at hsum; omega
  | cons c rest =>
    rw [List.sum_cons] at hsum
    refine ⟨c, hcombo c (List.mem_cons_self _ _), by omega, rest, ?_, by omega⟩
    intro p hp
    exact hcombo p (List.mem_cons_of_mem _ hp)

/-- Some reachable total lies in the window `[j, j + s)` for any available
size `s`: ship packs of `s` only. -/
theorem Reach.window {sizes : List Nat} {s : Nat} (hs : s ∈ sizes) (hpos : 1 ≤ s) (j : Nat) :
    ∃ t, Reach sizes t ∧ j ≤ t ∧ t < j + s := by
  induction j with
  | zero => exact ⟨0, Reach.zero sizes, le_refl _, by omega⟩
  | succ j ih =>
    obtain ⟨t, ht, hjt, hts⟩ := ih
    by_cases h : j + 1 ≤ t
    · exact ⟨t, ht, h, by omega⟩
    · exact ⟨t + s, ht.add hs, by omega, by omega⟩

theorem cand_congr {dp dp' : List Nat} {j c : Nat} (hc : 1 ≤ c)
    (h : ∀ i, i < j → dp[i]? = dp'[i]?) : cand dp j c = cand dp' j c := by
  unfold cand
  by_cases hcj : c ≤ j
  · simp only [hcj, if_true, List.getD_eq_getElem?_getD, h (j - c) (by omega)]
  · simp only [hcj, if_false]

/-! ## The table invariant is kept by every row -/

theorem cand_of_le {dp : List Nat} {i c w : Nat} (hci : c ≤ i) (hw : dp[i - c]? = some w) :
    cand dp i c = w + c := by
  unfold cand; rw [if_pos hci, getD_of_getElem? hw]

theorem cand_of_gt {dp : List Nat} {i c : Nat} (hci : i < c) : cand dp i c = c := by
  unfold cand; rw [if_neg (by omega)]

/-- Under the invariant a filled cell lies in the window `[j, j + s)`. -/
theorem TableInv.val_lt {sizes : List Nat} {target maxPossible k : Nat} {dp pu : List Nat}
    (inv : TableInv sizes target maxPossible k dp pu) {s : Nat} (hs : s ∈ sizes)
    (hpos : 1 ≤ s) {j : Nat} (hj : j ≤ k) :
    ∃ v, dp[j]? = some v ∧ Reach sizes v ∧ j ≤ v ∧ v < j + s ∧
      ∀ t, Reach sizes t → j ≤ t → v ≤ t := by
  obtain ⟨v, hv, hr, hjv, hmin⟩ := inv.val j hj
  obtain ⟨t, ht, hjt, hts⟩ := Reach.window hs hpos j
  exact ⟨v, hv, hr, hjv, lt_of_le_of_lt (hmin t ht hjt) hts, hmin⟩

/-- Under the invariant the candidate of a size for row `i = k + 1` is a
reachable total that is at least `i`, and it is at most any reachable total
that is at least `i` and ends with that size. -/
theorem TableInv.cand_spec {sizes : List Nat} {target maxPossible k : Nat} {dp pu : List Nat}
    (inv : TableInv sizes target maxPossible k dp pu) {c : Nat} (hc : c ∈ sizes)
    (hpos : 1 ≤ c) :
    Reach sizes (cand dp (k + 1) c) ∧ k + 1 ≤ cand dp (k + 1) c ∧
    ∀ t, c ≤ t → Reach sizes (t - c) → k + 1 ≤ t → cand dp (k + 1) c ≤ t := by
  by_cases hci : c ≤ k + 1
  · obtain ⟨w, hw, hr, hjw, hmin⟩ := inv.val (k + 1 - c) (by omega)
    rw [cand_of_le hci hw]
    refine ⟨hr.add hc, by omega, ?_⟩
    intro t hct hrt hkt
    have := hmin (t - c) hrt (by omega)
    omega
  · rw [cand_of_gt (by omega)]
    exact ⟨Reach.single hc, by omega, fun t hct _ _ => hct⟩

/-- One more row: `fillRow` returns, and the invariant holds one row further. -/
theorem TableInv.step {sizes : List Nat} {target maxPossible k s : Nat} {dp pu : List Nat}
    (inv : TableInv sizes target maxPossible k dp pu)
    (hpos : ∀ c ∈ sizes, 1 ≤ c) (hs : s ∈ sizes)
    (hM : maxPossible = target + s + 1) (hfit : target + s + 1 < wordSize)
    (hk : k < target) :
    ∃ dp' pu', fillRow maxPossible sizes (dp, pu) (k + 1) = Run.done (dp', pu') ∧
      TableInv sizes target maxPossible (k + 1) dp' pu' := by
  obtain ⟨hv, hu⟩ := inv.rest (k + 1) (by omega) (by omega)
  have hidp : k + 1 < dp.length := lt_length_of_getElem? hv
  have hipu : k + 1 < pu.length := lt_length_of_getElem? hu
  have hpre : ∀ c ∈ sizes, 1 ≤ c ∧ (c ≤ k + 1 →
      ∃ w, dp[k + 1 - c]? = some w ∧ w ≠ maxPossible ∧ w + c < wordSize) := by
    intro c hc
    refine ⟨hpos c hc, fun hci => ?_⟩
    have hc1 := hpos c hc
    obtain ⟨w, hw, -, -, hlt, -⟩ := inv.val_lt hs (hpos s hs) (j := k + 1 - c) (by omega)
    exact ⟨w, hw, by omega, by omega⟩
  have hrow := @fillRow_eq maxPossible (k + 1) dp sizes dp pu maxPossible 0
    hpre (fun j _ => rfl) hv hu
  obtain ⟨-, hle, hbranch⟩ := rowFold_spec dp (k + 1) sizes (maxPossible, 0)
  generalize hf : rowFold dp (k + 1) (maxPossible, 0) sizes = f at hrow hle hbranch
  have hfs : f.1 ≤ cand dp (k + 1) s := hle s hs
  have hsmall : cand dp (k + 1) s < k + 1 + s := by
    have hs1 := hpos s hs
    by_cases hsk : s ≤ k + 1
    · obtain ⟨w, hw, -, -, hlt, -⟩ := inv.val_lt hs (hpos s hs) (j := k + 1 - s) (by omega)
      rw [cand_of_le hsk hw]; omega
    · rw [cand_of_gt (by omega)]; omega
  have hfM : f.1 < maxPossible := by omega
  obtain ⟨a, b, hab, hcand, hfirst⟩ : ∃ a b, sizes = a ++ f.2 :: b ∧
      cand dp (k + 1) f.2 = f.1 ∧ ∀ c ∈ a, f.1 < cand dp (k + 1) c := by
    rcases hbranch with heq | ⟨-, h⟩
    · rw [heq] at hfM; exact absurd hfM (lt_irrefl _)
    · exact h
  have hf2 : f.2 ∈ sizes := by rw [hab]; simp
  have hspec := inv.cand_spec hf2 (hpos _ hf2)
  rw [hcand] at hspec
  have hget : ∀ j, j ≠ k + 1 → (dp.set (k + 1) f.1)[j]? = dp[j]? :=
    fun j hj => List.getElem?_set_ne (Ne.symm hj)
  have hgetu : ∀ j, j ≠ k + 1 → (pu.set (k + 1) f.2)[j]? = pu[j]? :=
    fun j hj => List.getElem?_set_ne (Ne.symm hj)
  have hnew : (dp.set (k + 1) f.1)[k + 1]? = some f.1 := by
    rw [List.getElem?_set]; simp [hidp]
  have hnewu : (pu.set (k + 1) f.2)[k + 1]? = some f.2 := by
    rw [List.getElem?_set]; simp [hipu]
  have hcong : ∀ j c, j ≤ k + 1 → 1 ≤ c →
      cand (dp.set (k + 1) f.1) j c = cand dp j c :=
    fun j c hj hc => cand_congr hc (fun i hi => hget i (by omega))
  refine ⟨_, _, hrow, ?_⟩
  refine ⟨by rw [List.length_set]; exact inv.len_dp,
    by rw [List.length_set]; exact inv.len_pu, ?_, ?_, ?_⟩
  · intro j hj
    by_cases hjk : j = k + 1
    · subst hjk
      refine ⟨f.1, hnew, hspec.1, hspec.2.1, ?_⟩
      intro t ht hkt
      obtain ⟨c, hc, hct, hrc⟩ := ht.split (by omega)
      exact le_trans (hle c hc) ((inv.cand_spec hc (hpos c hc)).2.2 t hct hrc hkt)
    · rw [hget j hjk]
      exact inv.val j (by omega)
  · intro j hj1 hj
    by_cases hjk : j = k + 1
    · subst hjk
      refine ⟨f.1, f.2, a, b, hnew, hnewu, hab, ?_, ?_⟩
      · rw [hcong _ _ (le_refl _) (hpos _ hf2)]; exact hcand
      · intro c hc
        have hcs : c ∈ sizes := by rw [hab]; simp [hc]
        rw [hcong _ _ (le_refl _) (hpos _ hcs)]; exact hfirst c hc
    · obtain ⟨v, u, a', b', h1, h2, h3, h4, h5⟩ := inv.use j hj1 (by omega)
      have hu' : u ∈ sizes := by rw [h3]; simp
      refine ⟨v, u, a', b', by rw [hget j hjk]; exact h1, by rw [hgetu j hjk]; exact h2,
        h3, ?_, ?_⟩
      · rw [hcong _ _ hj (hpos _ hu')]; exact h4
      · intro c hc
        have hcs : c ∈ sizes := by rw [h3]; simp [hc]
        rw [hcong _ _ hj (hpos _ hcs)]; exact h5 c hc
  · intro j hkj hjt
    rw [hget j (by omega), hgetu j (by omega)]
    exact inv.rest j (by omega) hjt

theorem TableInv.rows {sizes : List Nat} {target maxPossible s : Nat} {dp pu : List Nat}
    (inv : TableInv sizes target maxPossible 0 dp pu)
    (hpos : ∀ c ∈ sizes, 1 ≤ c) (hs : s ∈ sizes)
    (hM : maxPossible = target + s + 1) (hfit : target + s + 1 < wordSize) :
    ∀ k, k ≤ target →
    ∃ dp' pu', (List.range' 1 k).foldlM (fillRow maxPossible sizes) (dp, pu)
        = Run.done (dp', pu') ∧
      TableInv sizes target maxPossible k dp' pu' := by
  intro k
  induction k with
  | zero => intro _; exact ⟨dp, pu, rfl, inv⟩
  | succ k ih =>
    intro hk
    obtain ⟨dp1, pu1, hrun, inv1⟩ := ih (by omega)
    obtain ⟨dp2, pu2, hrow, inv2⟩ := inv1.step hpos hs hM hfit (by omega)
    refine ⟨dp2, pu2, ?_, inv2⟩
    rw [List.range'_concat, List.foldlM_append, hrun]
    have hidx : 1 + 1 * k = k + 1 := by omega
    simp only [Run.done_bind, List.foldlM_cons, List.foldlM_nil, hidx, hrow, Run.pure_eq]

/-- The tables of `findMinimumItems` are built without a panic and satisfy
the invariant on every row. -/
theorem buildTables_inv {sizes : List Nat} {target s : Nat}
    (hpos : ∀ c ∈ sizes, 1 ≤ c) (hs : s ∈ sizes) (hfit : target + s + 1 < wordSize) :
    ∃ dp pu, buildTables target (add64 (add64 target s) 1) sizes = Run.done (dp, pu) ∧
      TableInv sizes target (target + s + 1) target dp pu := by
  have hM : add64 (add64 target s) 1 = target + s + 1 := by
    rw [add64_of_lt (a := target) (b := s) (by omega), add64_of_lt (by omega)]
  have hlen : add64 target 1 = target + 1 := add64_of_lt (by omega)
  rw [hM]
  unfold buildTables
  rw [hlen, writeAt_of_lt _ (by simp), Run.done_bind]
  have inv0 : TableInv sizes target (target + s + 1) 0
      ((List.replicate (target + 1) (target + s + 1)).set 0 0)
      (List.replicate (target + 1) 0) := by
    refine ⟨by simp, by simp, ?_, ?_, ?_⟩
    · intro j hj
      have hj0 : j = 0 := by omega
      subst hj0
      refine ⟨0, by simp [List.getElem?_set], Reach.zero sizes, le_refl _, fun t _ _ => ?_⟩
      omega
    · intro j h1 h0; omega
    · intro j h0 hjt
      constructor
      · rw [List.getElem?_set_ne (by omega), List.getElem?_replicate, if_pos (by omega)]
      · rw [List.getElem?_replicate, if_pos (by omega)]
  obtain ⟨dp, pu, hrun, inv⟩ := inv0.rows hpos hs rfl hfit target (le_refl _)
  exact ⟨dp, pu, hrun, inv⟩

/-! ## What the filled tables say about the reconstruction -/

/-- The recorded pack of a filled row is an available size. -/
theorem TableInv.used_mem {sizes : List Nat} {target maxPossible k : Nat} {dp pu : List Nat}
    (inv : TableInv sizes target maxPossible k dp pu) {j : Nat} (h1 : 1 ≤ j) (hj : j ≤ k) :
    ∃ u, pu[j]? = some u ∧ u ∈ sizes := by
  obtain ⟨v, u, a, b, -, hu, hab, -, -⟩ := inv.use j h1 hj
  exact ⟨u, hu, by rw [hab]; simp⟩

/-- The filled value of a row equals the row index exactly when the index is
reachable. -/
theorem TableInv.exact_iff {sizes : List Nat} {target maxPossible k : Nat} {dp pu : List Nat}
    (inv : TableInv sizes target maxPossible k dp pu) {j : Nat} (hj : j ≤ k) :
    ∃ v, dp[j]? = some v ∧ j ≤ v ∧ (v = j ↔ Reach sizes j) := by
  obtain ⟨v, hv, hr, hjv, hmin⟩ := inv.val j hj
  refine ⟨v, hv, hjv, fun h => h ▸ hr, fun h => ?_⟩
  have := hmin j h (le_refl _)
  omega

/-- On a reachable row the recorded pack fits, leaves a reachable remainder,
and no earlier size of the list does. -/
theorem TableInv.pick_exact {sizes : List Nat} {target maxPossible k : Nat} {dp pu : List Nat}
    (inv : TableInv sizes target maxPossible k dp pu) (hpos : ∀ c ∈ sizes, 1 ≤ c)
    {j : Nat} (h1 : 1 ≤ j) (hj : j ≤ k) (hr : Reach sizes j) :
    ∃ u a b, pu[j]? = some u ∧ sizes = a ++ u :: b ∧ u ≤ j ∧ Reach sizes (j - u) ∧
      ∀ c ∈ a, ¬ (c ≤ j ∧ Reach sizes (j - c)) := by
  obtain ⟨v, u, a, b, hv, hu, hab, hcand, hfirst⟩ := inv.use j h1 hj
  obtain ⟨v', hv', -, hiff⟩ := inv.exact_iff hj
  have hvv : v = v' := by rw [hv] at hv'; exact Option.some.inj hv'
  have hvj : v = j := by rw [hvv]; exact hiff.mpr hr
  have key : ∀ c, 1 ≤ c → (cand dp j c = j ↔ c ≤ j ∧ Reach sizes (j - c)) := by
    intro c hc
    by_cases hcj : c ≤ j
    · obtain ⟨w, hw, hjw, hwiff⟩ := inv.exact_iff (j := j - c) (by omega)
      rw [cand_of_le hcj hw]
      constructor
      · intro h; exact ⟨hcj, hwiff.mp (by omega)⟩
      · intro h; have := hwiff.mpr h.2; omega
    · rw [cand_of_gt (by omega)]
      constructor
      · intro h; omega
      · intro h; exact absurd h.1 hcj
  have hus : u ∈ sizes := by rw [hab]; simp
  have hu2 := (key u (hpos u hus)).mp (by rw [hcand, hvj])
  refine ⟨u, a, b, hu, hab, hu2.1, hu2.2, ?_⟩
  intro c hc hcon
  have hcs : c ∈ sizes := by rw [hab]; simp [hc]
  have := (key c (hpos c hcs)).mpr hcon
  have := hfirst c hc
  omega

/-! ## The reconstruction walk of `findMinimumItems` -/

theorem foldl_incr_cons (pc : PackMap) (u : Nat) (picks : List Nat) :
    (u :: picks).foldl PackMap.incr pc = picks.foldl PackMap.incr (pc.incr u) := rfl

/-- From an exactly reachable total the walk returns, given fuel for one
test per pack and the final test; the packs it counts are the largest-first
sequence. -/
theorem walkPacks_exact {sizes : List Nat} {target maxPossible : Nat} {dp pu : List Nat}
    (inv : TableInv sizes target maxPossible target dp pu) (hpos : ∀ c ∈ sizes, 1 ≤ c)
    (hW : target < wordSize) :
    ∀ fuel j pc, j ≤ target → Reach sizes j → j < fuel →
    ∃ picks, walkPacks pu sizes fuel j pc = Run.done (picks.foldl PackMap.incr pc) ∧
      LargestFirst sizes j picks := by
  intro fuel
  induction fuel with
  | zero => intro j pc _ _ h; omega
  | succ fuel ih =>
    intro j pc hj hr hfuel
    rw [walkPacks_step]
    by_cases h0 : j = 0
    · subst h0
      exact ⟨[], by simp, LargestFirst.stop⟩
    · obtain ⟨u, a, b, hu, hab, huj, hrem, hfirst⟩ :=
        inv.pick_exact hpos (by omega) hj hr
      have hus : u ∈ sizes := by rw [hab]; simp
      have hu1 := hpos u hus
      have hsub : sub64 j u = j - u := sub64_of_le huj (by omega)
      obtain ⟨picks, hwalk, hlf⟩ := ih (j - u) (pc.incr u) (by omega) hrem (by omega)
      refine ⟨u :: picks, ?_, LargestFirst.pick (by omega) hab huj hfirst hlf⟩
      rw [if_neg h0, readAt_of_getElem? hu, Run.done_bind, hsub, foldl_incr_cons]
      by_cases hz : j - u = 0
      · rw [if_pos hz]; exact hwalk
      · obtain ⟨u', hu', hus'⟩ := inv.used_mem (j := j - u) (by omega) (by omega)
        have hne : u' ≠ 0 := by have := hpos u' hus'; omega
        rw [if_neg hz, readAt_of_getElem? hu', Run.done_bind, if_neg hne]
        exact hwalk

/-- From a total that no combination meets exactly the walk never returns:
it ends in the panic of an index outside the table, or runs out of fuel. -/
theorem walkPacks_inexact {sizes : List Nat} {target maxPossible : Nat} {dp pu : List Nat}
    (inv : TableInv sizes target maxPossible target dp pu) (hpos : ∀ c ∈ sizes, 1 ≤ c)
    (hfit : ∀ c ∈ sizes, target + c + 1 < wordSize) :
    ∀ fuel j pc, 1 ≤ j → j ≤ target → ¬ Reach sizes j →
    ∀ r, walkPacks pu sizes fuel j pc ≠ Run.done r := by
  intro fuel
  induction fuel with
  | zero => intro j pc _ _ _ r h; cases h
  | succ fuel ih =>
    intro j pc h1 hj hr r
    rw [walkPacks_step]
    obtain ⟨u, hu, hus⟩ := inv.used_mem h1 hj
    have hu1 := hpos u hus
    have hfu := hfit u hus
    rw [if_neg (by omega), readAt_of_getElem? hu, Run.done_bind]
    by_cases huj : u ≤ j
    · have hsub : sub64 j u = j - u := sub64_of_le huj (by omega)
      have hrem : ¬ Reach sizes (j - u) := by
        intro h
        apply hr
        have := h.add hus
        rwa [Nat.sub_add_cancel huj] at this
      have hz : j - u ≠ 0 := by
        intro h; apply hrem; rw [h]; exact Reach.zero sizes
      obtain ⟨u', hu', hus'⟩ := inv.used_mem (j := j - u) (by omega) (by omega)
      have hne : u' ≠ 0 := by have := hpos u' hus'; omega
      rw [hsub, if_neg hz, readAt_of_getElem? hu', Run.done_bind, if_neg hne]
      exact ih (j - u) _ (by omega) (by omega) hrem r
    · have hsub : sub64 j u = wordSize + j - u := sub64_of_gt (by omega) (by omega)
      have hz : wordSize + j - u ≠ 0 := by omega
      have hout : pu.length ≤ wordSize + j - u := by rw [inv.len_pu]; omega
      rw [hsub, if_neg hz, readAt_of_length_le hout, Run.panic_bind]
      intro h; cases h

theorem Settled.done_unique {α : Type} {f : Nat → Run α} (hf : Settled f) {n m : Nat} {a b : α}
    (hn : f n = Run.done a) (hm : f m = Run.done b) : a = b := by
  rcases Nat.le_total n m with h | h
  · have := hf.le h (by rw [hn]; simp)
    rw [hn, hm] at this
    exact (Run.done.inj this).symm
  · have := hf.le h (by rw [hm]; simp)
    rw [hn, hm] at this
    exact Run.done.inj this

/-- When `findMinimumItems` returns on valid input, the target is exactly
reachable and the returned map counts the largest-first packs. -/
theorem findMinimumItems_returns {sizes : List Nat} {s target fuel total : Nat} {pc : PackMap}
    (hlast : sizes.getLast? = some s) (hpos : ∀ c ∈ sizes, 1 ≤ c)
    (hfit : ∀ c ∈ sizes, target + c + 1 < wordSize) (h1 : 1 ≤ target)
    (h : findMinimumItems fuel target sizes = Run.done (total, pc)) :
    Reach sizes target ∧ ∃ picks, LargestFirst sizes target picks ∧
      pc = picks.foldl PackMap.incr [] ∧ total = pc.totalItems := by
  have hs : s ∈ sizes := by
    obtain ⟨ys, hys⟩ := List.getLast?_eq_some_iff.mp hlast
    rw [hys]; simp
  have hfs := hfit s hs
  obtain ⟨dp, pu, hbuild, inv⟩ := @buildTables_inv sizes target s hpos hs hfs
  have hM : add64 (add64 target s) 1 = target + s + 1 := by
    rw [add64_of_lt (a := target) (b := s) (by omega), add64_of_lt (by omega)]
  unfold findMinimumItems at h
  rw [hlast] at h
  simp only [hbuild, Run.done_bind] at h
  obtain ⟨v, hv, -, -, hvlt, -⟩ := inv.val_lt hs (hpos s hs) (j := target) (le_refl _)
  have hne : v ≠ add64 (add64 target s) 1 := by rw [hM]; omega
  unfold chooseStart at h
  rw [readAt_of_getElem? hv, Run.done_bind, if_neg hne, Run.pure_eq, Run.done_bind] at h
  unfold reconstruct at h
  simp only at h
  obtain ⟨pc', hwalk, hret⟩ := Run.bind_eq_done h
  have hpc : pc' = pc ∧ total = pc'.totalItems := by
    have hh := Run.done.inj hret
    simp only [Prod.mk.injEq] at hh
    exact ⟨hh.2, hh.1.symm⟩
  obtain ⟨rfl, htot⟩ := hpc
  by_cases hr : Reach sizes target
  · obtain ⟨picks, hex, hlf⟩ :=
      walkPacks_exact inv hpos (by omega) (target + 1) target [] (le_refl _) hr (by omega)
    have := (walkPacks_settled pu sizes target []).done_unique hwalk hex
    exact ⟨hr, picks, hlf, this, htot⟩
  · exact absurd hwalk (walkPacks_inexact inv hpos hfit fuel target [] h1 (le_refl _) hr pc')

/-! ## Maps of pack counts -/

theorem PackMap.get_put (m : PackMap) (k v k' : Nat) :
    (m.put k v).get k' = if k = k' then v else m.get k' := by
  induction m with
  | nil =>
    by_cases h : k = k' <;> simp [PackMap.put, PackMap.get, h]
  | cons kv rest ih =>
    obtain ⟨k0, v0⟩ := kv
    unfold PackMap.put
    by_cases h0 : k0 = k
    · subst h0
      by_cases h : k0 = k' <;> simp [PackMap.get, h]
    · rw [if_neg h0]
      by_cases h : k0 = k'
      · subst h
        have hk : ¬ k = k0 := fun e => h0 e.symm
        simp [PackMap.get, hk]
      · simp only [PackMap.get, h, if_false]
        exact ih

theorem PackMap.get_incr (m : PackMap) (k k' : Nat) :
    (m.incr k).get k' = if k = k' then add64 (m.get k) 1 else m.get k' := by
  unfold PackMap.incr; rw [PackMap.get_put]

/-- After counting a sequence of packs, the count of a size is its old count
plus its number of occurrences, as long as that does not wrap. -/
theorem PackMap.get_foldl_incr (picks : List Nat) (k : Nat) :
    ∀ pc : PackMap, pc.get k + picks.count k < wordSize →
    (picks.foldl PackMap.incr pc).get k = pc.get k + picks.count k := by
  induction picks with
  | nil => intro pc _; simp
  | cons p rest ih =>
    intro pc h
    rw [foldl_incr_cons]
    by_cases hp : p = k
    · subst hp
      rw [List.count_cons_self] at h ⊢
      have hget : (pc.incr p).get p = pc.get p + 1 := by
        rw [PackMap.get_incr, if_pos rfl, add64_of_lt (by omega)]
      rw [ih (pc.incr p) (by rw [hget]; omega), hget]
      omega
    · rw [List.count_cons_of_ne (Ne.symm hp)] at h ⊢
      have hget : (pc.incr p).get k = pc.get k := by
        rw [PackMap.get_incr, if_neg hp]
      rw [ih (pc.incr p) (by rw [hget]; exact h), hget]

theorem PackMap.foldl_items (m : PackMap) :
    ∀ a, a < wordSize →
    m.foldl (fun acc kv => add64 acc (mul64 kv.1 kv.2)) a = (a + m.weight) % wordSize := by
  induction m with
  | nil => intro a ha; simp [PackMap.weight, Nat.mod_eq_of_lt ha]
  | cons kv rest ih =>
    intro a _
    have hW : 0 < wordSize := by unfold wordSize; decide
    rw [List.foldl_cons, ih (add64 a (mul64 kv.1 kv.2)) (Nat.mod_lt _ hW)]
    have hw : PackMap.weight (kv :: rest) = kv.1 * kv.2 + PackMap.weight rest := by
      unfold PackMap.weight; rw [List.map_cons, List.sum_cons]
    rw [hw, ← Nat.add_assoc]
    have h1 : (a + kv.1 * kv.2 % wordSize) % wordSize ≡ a + kv.1 * kv.2 [MOD wordSize] :=
      (Nat.mod_modEq _ _).trans (Nat.ModEq.add_left a (Nat.mod_modEq _ _))
    exact Nat.ModEq.add_right _ h1

/-- The wrapping total of a map is its exact weight modulo `2 ^ 64`. -/
theorem PackMap.totalItems_eq (m : PackMap) : m.totalItems = m.weight % wordSize := by
  unfold PackMap.totalItems
  rw [PackMap.foldl_items m 0 (by unfold wordSize; decide), Nat.zero_add]

theorem PackMap.weight_put (m : PackMap) (k v : Nat) :
    (m.put k v).weight + k * m.get k = m.weight + k * v := by
  induction m with
  | nil => simp [PackMap.put, PackMap.get, PackMap.weight]
  | cons kv rest ih =>
    obtain ⟨k0, v0⟩ := kv
    unfold PackMap.put PackMap.get
    by_cases h0 : k0 = k
    · subst h0
      simp only [if_true, PackMap.weight, List.map_cons, List.sum_cons]
      omega
    · simp only [h0, if_false, PackMap.weight, List.map_cons, List.sum_cons] at ih ⊢
      omega

/-- Counting one more pack adds its size to the wrapping total. -/
theorem PackMap.totalItems_incr (m : PackMap) (k : Nat) :
    (m.incr k).totalItems = (m.totalItems + k) % wordSize := by
  rw [PackMap.totalItems_eq, PackMap.totalItems_eq, Nat.mod_add_mod]
  have h := PackMap.weight_put m k (add64 (m.get k) 1)
  have h1 : k * add64 (m.get k) 1 ≡ k * (m.get k + 1) [MOD wordSize] :=
    Nat.ModEq.mul_left k (Nat.mod_modEq _ _)
  have h2 : (m.incr k).weight + k * m.get k ≡ m.weight + k + k * m.get k [MOD wordSize] := by
    unfold PackMap.incr
    rw [h]
    have : m.weight + k + k * m.get k = m.weight + k * (m.get k + 1) := by ring
    rw [this]
    exact Nat.ModEq.add_left _ h1
  exact Nat.ModEq.add_right_cancel' _ h2

/-- Counting a sequence of packs adds their sum to the wrapping total. -/
theorem PackMap.totalItems_foldl_incr (picks : List Nat) :
    ∀ pc : PackMap,
    (picks.foldl PackMap.incr pc).totalItems = (pc.totalItems + picks.sum) % wordSize := by
  induction picks with
  | nil =>
    intro pc
    rw [List.foldl_nil, List.sum_nil, Nat.add_zero, PackMap.totalItems_eq, Nat.mod_mod]
  | cons p rest ih =>
    intro pc
    rw [foldl_incr_cons, ih, PackMap.totalItems_incr, Nat.mod_add_mod, List.sum_cons,
      Nat.add_assoc]

/-! ## Sorting -/

theorem mem_insertDesc {x y : Nat} {l : List Nat} : y ∈ insertDesc x l ↔ y = x ∨ y ∈ l := by
  induction l with
  | nil => simp [insertDesc]
  | cons z zs ih =>
    unfold insertDesc
    by_cases h : z < x
    · simp [h]
    · simp only [h, if_false, List.mem_cons, ih]
      tauto

theorem mem_sortSliceDesc {y : Nat} {l : List Nat} : y ∈ sortSliceDesc l ↔ y ∈ l := by
  induction l with
  | nil => simp [sortSliceDesc]
  | cons x xs ih => simp [sortSliceDesc, mem_insertDesc, ih]

theorem insertDesc_sorted {x : Nat} {l : List Nat} (h : l.Pairwise (fun a b => b ≤ a)) :
    (insertDesc x l).Pairwise (fun a b => b ≤ a) := by
  induction l with
  | nil => simp [insertDesc]
  | cons z zs ih =>
    unfold insertDesc
    rw [List.pairwise_cons] at h
    by_cases hz : z < x
    · rw [if_pos hz, List.pairwise_cons, List.pairwise_cons]
      refine ⟨?_, h⟩
      intro b hb
      rcases List.mem_cons.mp hb with rfl | hin
      · omega
      · have := h.1 b hin; omega
    · rw [if_neg hz, List.pairwise_cons]
      refine ⟨?_, ih h.2⟩
      intro b hb
      rcases mem_insertDesc.mp hb with rfl | hin
      · omega
      · exact h.1 b hin

/-- The sorted slice is in descending order. -/
theorem sortSliceDesc_sorted (l : List Nat) :
    (sortSliceDesc l).Pairwise (fun a b => b ≤ a) := by
  induction l with
  | nil => simp [sortSliceDesc]
  | cons x xs ih => exact insertDesc_sorted ih

/-- The first element of the sorted slice is the largest pack size. -/
theorem sortSliceDesc_head_max {l tl : List Nat} {h : Nat} (hl : sortSliceDesc l = h :: tl) :
    h ∈ l ∧ ∀ x ∈ l, x ≤ h := by
  have hs := sortSliceDesc_sorted l
  rw [hl, List.pairwise_cons] at hs
  refine ⟨mem_sortSliceDesc.mp (by rw [hl]; simp), ?_⟩
  intro x hx
  have hx' : x ∈ h :: tl := by rw [← hl]; exact mem_sortSliceDesc.mpr hx
  rcases List.mem_cons.mp hx' with rfl | hin
  · exact le_refl _
  · exact hs.1 x hin

/-! ## The largest-first sequence of packs -/

theorem LargestFirst.sum_eq {sizes : List Nat} {j : Nat} {picks : List Nat}
    (h : LargestFirst sizes j picks) : picks.sum = j := by
  induction h with
  | stop => rfl
  | pick _ _ huj _ _ ih => rw [List.sum_cons, ih]; omega

theorem LargestFirst.mem {sizes : List Nat} {j : Nat} {picks : List Nat}
    (h : LargestFirst sizes j picks) : IsCombination sizes picks := by
  induction h with
  | stop => intro p hp; exact absurd hp (List.not_mem_nil p)
  | pick _ hab _ _ _ ih =>
    intro p hp
    rcases List.mem_cons.mp hp with rfl | hin
    · rw [hab]; simp
    · exact ih p hin

theorem LargestFirst.length_le {sizes : List Nat} (hpos : ∀ c ∈ sizes, 1 ≤ c) {j : Nat}
    {picks : List Nat} (h : LargestFirst sizes j picks) : picks.length ≤ j := by
  induction h with
  | stop => simp
  | @pick j u a b picks _ hab huj _ _ ih =>
    have : 1 ≤ u := hpos u (by rw [hab]; simp)
    rw [List.length_cons]; omega

theorem IsCombination.erase {sizes combo : List Nat} (h : IsCombination sizes combo) (m : Nat) :
    IsCombination sizes (combo.erase m) :=
  fun p hp => h p (List.mem_of_mem_erase hp)

theorem IsCombination.sum_zero {sizes combo : List Nat} (h : IsCombination sizes combo)
    (hpos : ∀ c ∈ sizes, 1 ≤ c) (hsum : combo.sum = 0) : combo = [] := by
  cases combo with
  | nil => rfl
  | cons c rest =>
    have := hpos c (h c (List.mem_cons_self _ _))
    rw [List.sum_cons] at hsum
    omega

theorem mem_before_of_sorted {a b : List Nat} {u c : Nat}
    (hsorted : (a ++ u :: b).Pairwise (fun x y => y ≤ x)) (hc : c ∈ a ++ u :: b)
    (huc : u < c) : c ∈ a := by
  rw [List.pairwise_append] at hsorted
  obtain ⟨-, hub, -⟩ := hsorted
  rw [List.pairwise_cons] at hub
  rcases List.mem_append.mp hc with h | h
  · exact h
  · rcases List.mem_cons.mp h with rfl | hb
    · omega
    · have := hub.1 c hb; omega

/-- The largest-first sequence is the greatest one when the counts are
compared from the largest size down: a combination of the same total that
holds as many packs as the sequence of every size above `c` holds at most as
many packs of `c`. -/
theorem LargestFirst.count_lex {sizes : List Nat}
    (hsorted : sizes.Pairwise (fun x y => y ≤ x)) (hpos : ∀ p ∈ sizes, 1 ≤ p)
    {c : Nat} (hc : c ∈ sizes) {j : Nat} {picks : List Nat}
    (h : LargestFirst sizes j picks) :
    ∀ combo, IsCombination sizes combo → combo.sum = j →
      (∀ p ∈ sizes, c < p → combo.count p = picks.count p) →
      combo.count c ≤ picks.count c := by
  induction h with
  | stop =>
    intro combo hcombo hsum _
    rw [hcombo.sum_zero hpos hsum]
  | @pick j u a b picks _ hab huj hfirst _ ih =>
    intro combo hcombo hsum hsame
    have hus : u ∈ sizes := by rw [hab]; simp
    have fits : ∀ x, x ∈ combo → x ≤ j ∧ Reach sizes (j - x) := by
      intro x hx
      have herase : x + (combo.erase x).sum = combo.sum := List.sum_erase hx
      exact ⟨by omega, combo.erase x, hcombo.erase x, by omega⟩
    by_cases hcu : c < u
    · have hcount := hsame u hus hcu
      rw [List.count_cons_self] at hcount
      have hmem : u ∈ combo := List.count_pos_iff.mp (by omega)
      have herase : u + (combo.erase u).sum = combo.sum := List.sum_erase hmem
      have hne : c ≠ u := by omega
      have := ih (combo.erase u) (hcombo.erase u) (by omega) (by
        intro p hp hcp
        by_cases hpu : p = u
        · subst hpu
          rw [List.count_erase_self]; omega
        · have := hsame p hp hcp
          rw [List.count_cons_of_ne hpu] at this
          rw [List.count_erase_of_ne hpu]; exact this)
      rw [List.count_erase_of_ne hne] at this
      rw [List.count_cons_of_ne hne]
      exact this
    · by_cases hmem : c ∈ combo
      · have hfit := fits c hmem
        by_cases huc : u < c
        · have hca : c ∈ a := mem_before_of_sorted (hab ▸ hsorted) (hab ▸ hc) huc
          exact absurd hfit (hfirst c hca)
        · have hceq : c = u := by omega
          subst hceq
          have herase : c + (combo.erase c).sum = combo.sum := List.sum_erase hmem
          have := ih (combo.erase c) (hcombo.erase c) (by omega) (by
            intro p hp hcp
            have hpc : p ≠ c := by omega
            have := hsame p hp hcp
            rw [List.count_cons_of_ne hpc] at this
            rw [List.count_erase_of_ne hpc]; exact this)
          rw [List.count_erase_self] at this
          rw [List.count_cons_self]
          omega
      · rw [List.count_eq_zero_of_not_mem hmem]
        exact Nat.zero_le _

/-! ## What `CalculatePacks` returns on valid input -/

theorem IsCombination.transfer {a b combo : List Nat} (h : ∀ x, x ∈ a ↔ x ∈ b)
    (hc : IsCombination a combo) : IsCombination b combo :=
  fun p hp => (h p).mp (hc p hp)

theorem Reach.congr {a b : List Nat} (h : ∀ x, x ∈ a ↔ x ∈ b) {t : Nat} (hr : Reach a t) :
    Reach b t := by
  obtain ⟨combo, hc, hs⟩ := hr
  exact ⟨combo, hc.transfer h, hs⟩

/-- When `CalculatePacks` returns on valid input, the order is an exact sum of
pack sizes, the returned total is the order itself with no excess, and the
returned map counts the largest-first sequence of packs over the sorted
sizes. -/
theorem CalculatePacks_returns {fuel itemsOrdered : Nat} {availablePackSizes : List Nat}
    {r : Returned} (h1 : 1 ≤ itemsOrdered) (h2 : availablePackSizes ≠ [])
    (hpos : ∀ p ∈ availablePackSizes, 1 ≤ p)
    (hfit : ∀ p ∈ availablePackSizes, itemsOrdered + p + 1 < wordSize)
    (h : CalculatePacks fuel itemsOrdered availablePackSizes = Run.done r) :
    Reach availablePackSizes itemsOrdered ∧
    ∃ picks, LargestFirst (sortSliceDesc availablePackSizes) itemsOrdered picks ∧
      r.result.PackCounts = picks.foldl PackMap.incr [] ∧
      r.result.TotalPacks = r.result.PackCounts.totalPacks ∧
      r.result.TotalItems = itemsOrdered ∧ r.result.ExcessItems = 0 ∧
      r.err = none ∧ r.packSizes = sortSliceDesc availablePackSizes := by
  have h0 : ¬ itemsOrdered ≤ 0 := by omega
  have hl : ¬ availablePackSizes.length = 0 := by
    simpa [List.length_eq_zero] using h2
  have hmem : ∀ x, x ∈ sortSliceDesc availablePackSizes ↔ x ∈ availablePackSizes :=
    fun x => mem_sortSliceDesc
  have hne : sortSliceDesc availablePackSizes ≠ [] := by
    obtain ⟨x, hx⟩ := List.exists_mem_of_ne_nil _ h2
    exact List.ne_nil_of_mem ((hmem x).mpr hx)
  have hlast := List.getLast?_eq_getLast _ hne
  unfold CalculatePacks at h
  simp only [h0, hl, if_false] at h
  obtain ⟨found, hfound, hret⟩ := Run.bind_eq_done h
  obtain ⟨total, pc⟩ := found
  obtain ⟨hreach, picks, hlf, hpc, htot⟩ := findMinimumItems_returns hlast
    (fun c hc => hpos c ((hmem c).mp hc)) (fun c hc => hfit c ((hmem c).mp hc)) h1 hfound
  have hW : itemsOrdered < wordSize := by
    obtain ⟨x, hx⟩ := List.exists_mem_of_ne_nil _ h2
    have := hfit x hx; omega
  have htotal : total = itemsOrdered := by
    rw [htot, hpc, PackMap.totalItems_foldl_incr, hlf.sum_eq]
    simp [PackMap.totalItems, Nat.mod_eq_of_lt hW]
  have hr := Run.done.inj hret
  subst hr
  refine ⟨hreach.congr hmem, picks, hlf, hpc, rfl, htotal, ?_, rfl, rfl⟩
  show sub64 total itemsOrdered = 0
  rw [htotal, sub64_of_le (le_refl _) hW, Nat.sub_self]

/-! ## Orders that no combination meets exactly: the panic -/

/-- From a total that no combination meets exactly the walk ends in a panic
as soon as the fuel covers the steps down to the oversized pack. -/
theorem walkPacks_inexact_panic {sizes : List Nat} {target maxPossible : Nat}
    {dp pu : List Nat}
    (inv : TableInv sizes target maxPossible target dp pu) (hpos : ∀ c ∈ sizes, 1 ≤ c)
    (hfit : ∀ c ∈ sizes, target + c + 1 < wordSize) :
    ∀ fuel j pc, 1 ≤ j → j ≤ target → ¬ Reach sizes j → j ≤ fuel →
    walkPacks pu sizes fuel j pc = Run.panic := by
  intro fuel
  induction fuel with
  | zero => intro j pc h1 _ _ h; omega
  | succ fuel ih =>
    intro j pc h1 hj hr hfuel
    rw [walkPacks_step]
    obtain ⟨u, hu, hus⟩ := inv.used_mem h1 hj
    have hu1 := hpos u hus
    have hfu := hfit u hus
    rw [if_neg (by omega), readAt_of_getElem? hu, Run.done_bind]
    by_cases huj : u ≤ j
    · have hsub : sub64 j u = j - u := sub64_of_le huj (by omega)
      have hrem : ¬ Reach sizes (j - u) := by
        intro h
        apply hr
        have := h.add hus
        rwa [Nat.sub_add_cancel huj] at this
      have hz : j - u ≠ 0 := by
        intro h; apply hrem; rw [h]; exact Reach.zero sizes
      obtain ⟨u', hu', hus'⟩ := inv.used_mem (j := j - u) (by omega) (by omega)
      have hne : u' ≠ 0 := by have := hpos u' hus'; omega
      rw [hsub, if_neg hz, readAt_of_getElem? hu', Run.done_bind, if_neg hne]
      exact ih (j - u) _ (by omega) (by omega) hrem (by omega)
    · have hsub : sub64 j u = wordSize + j - u := sub64_of_gt (by omega) (by omega)
      have hz : wordSize + j - u ≠ 0 := by omega
      have hout : pu.length ≤ wordSize + j - u := by rw [inv.len_pu]; omega
      rw [hsub, if_neg hz, readAt_of_length_le hout, Run.panic_bind]

/-- On valid input whose order no combination meets exactly, `CalculatePacks`
panics once the fuel covers the walk, and never returns. -/
theorem CalculatePacks_inexact {itemsOrdered : Nat} {availablePackSizes : List Nat}
    (h1 : 1 ≤ itemsOrdered) (h2 : availablePackSizes ≠ [])
    (hpos : ∀ p ∈ availablePackSizes, 1 ≤ p)
    (hfit : ∀ p ∈ availablePackSizes, itemsOrdered + p + 1 < wordSize)
    (hno : ¬ Reach availablePackSizes itemsOrdered) (fuel : Nat) :
    (itemsOrdered ≤ fuel → CalculatePacks fuel itemsOrdered availablePackSizes = Run.panic) ∧
    ∀ r, CalculatePacks fuel itemsOrdered availablePackSizes ≠ Run.done r := by
  refine ⟨fun hfuel => ?_, fun r hr => hno (CalculatePacks_returns h1 h2 hpos hfit hr).1⟩
  have h0 : ¬ itemsOrdered ≤ 0 := by omega
  have hl : ¬ availablePackSizes.length = 0 := by
    simpa [List.length_eq_zero] using h2
  have hmem : ∀ x, x ∈ sortSliceDesc availablePackSizes ↔ x ∈ availablePackSizes :=
    fun x => mem_sortSliceDesc
  have hne : sortSliceDesc availablePackSizes ≠ [] := by
    obtain ⟨x, hx⟩ := List.exists_mem_of_ne_nil _ h2
    exact List.ne_nil_of_mem ((hmem x).mpr hx)
  have hposS : ∀ c ∈ sortSliceDesc availablePackSizes, 1 ≤ c :=
    fun c hc => hpos c ((hmem c).mp hc)
  have hfitS : ∀ c ∈ sortSliceDesc availablePackSizes, itemsOrdered + c + 1 < wordSize :=
    fun c hc => hfit c ((hmem c).mp hc)
  have hlast := List.getLast?_eq_getLast _ hne
  have hs : (sortSliceDesc availablePackSizes).getLast hne ∈ sortSliceDesc availablePackSizes :=
    List.getLast_mem hne
  generalize (sortSliceDesc availablePackSizes).getLast hne = s at hlast hs
  have hfs := hfitS s hs
  obtain ⟨dp, pu, hbuild, inv⟩ := @buildTables_inv (sortSliceDesc availablePackSizes) itemsOrdered s hposS hs hfs
  have hM : add64 (add64 itemsOrdered s) 1 = itemsOrdered + s + 1 := by
    rw [add64_of_lt (a := itemsOrdered) (b := s) (by omega), add64_of_lt (by omega)]
  obtain ⟨v, hv, -, -, hvlt, -⟩ := inv.val_lt hs (hposS s hs) (j := itemsOrdered) (le_refl _)
  have hvne : v ≠ add64 (add64 itemsOrdered s) 1 := by rw [hM]; omega
  have hwalk := walkPacks_inexact_panic inv hposS hfitS fuel itemsOrdered [] h1 (le_refl _)
    (fun h => hno (h.congr hmem)) hfuel
  unfold CalculatePacks
  simp only [h0, hl, if_false]
  unfold findMinimumItems
  rw [hlast]
  simp only [hbuild, Run.done_bind]
  unfold chooseStart
  rw [readAt_of_getElem? hv, Run.done_bind, if_neg hvne, Run.pure_eq, Run.done_bind]
  unfold reconstruct
  simp only [hwalk, Run.panic_bind]

/-! ## The scenarios of the tests with the standard pack sizes -/

/-- Every total shipped with the standard pack sizes is a multiple of 250. -/
theorem standard_sum_dvd {combo : List Nat} (h : IsCombination standardPackSizes combo) :
    250 ∣ combo.sum := by
  induction combo with
  | nil => simp
  | cons c rest ih =>
    rw [List.sum_cons]
    have hc := h c (List.mem_cons_self _ _)
    have hrest := ih (fun p hp => h p (List.mem_cons_of_mem _ hp))
    simp only [standardPackSizes, List.mem_cons, List.mem_singleton, List.not_mem_nil,
      or_false] at hc
    rcases hc with rfl | rfl | rfl | rfl | rfl <;> omega

theorem standard_valid (itemsOrdered : Nat) (h : itemsOrdered < 1000000) :
    standardPackSizes ≠ [] ∧ (∀ p ∈ standardPackSizes, 1 ≤ p) ∧
    ∀ p ∈ standardPackSizes, itemsOrdered + p + 1 < wordSize := by
  refine ⟨by decide, by decide, ?_⟩
  intro p hp
  simp only [standardPackSizes, List.mem_cons, List.mem_singleton, List.not_mem_nil,
    or_false] at hp
  unfold wordSize
  rcases hp with rfl | rfl | rfl | rfl | rfl <;> omega

theorem standard_not_reach {t : Nat} (h : ¬ 250 ∣ t) : ¬ Reach standardPackSizes t := by
  rintro ⟨combo, hc, hs⟩
  exact h (hs ▸ standard_sum_dvd hc)

/-- Orders up to 1000 are below either threshold, so the selector calls the
exact solver. -/
theorem OptimalCalculatePacks_of_le_1000 {itemsOrdered : Nat} {availablePackSizes : List Nat}
    (fuel : Nat) (h : itemsOrdered ≤ 1000) :
    OptimalCalculatePacks fuel itemsOrdered availablePackSizes
      = CalculatePacks fuel itemsOrdered availablePackSizes := by
  unfold OptimalCalculatePacks selectorThreshold
  have hth : itemsOrdered ≤ if 5 < availablePackSizes.length then 1000 else 2500 := by
    split <;> omega
  rw [if_pos hth]

/-! ## Orders that some combination meets exactly: the result -/

/-- On valid input whose target some combination meets exactly,
`findMinimumItems` returns once the fuel covers the walk: it counts the
largest-first packs and reports their wrapping total. -/
theorem findMinimumItems_exact {sizes : List Nat} {s target : Nat}
    (hlast : sizes.getLast? = some s) (hpos : ∀ c ∈ sizes, 1 ≤ c)
    (hfit : target + s + 1 < wordSize) (hr : Reach sizes target)
    (fuel : Nat) (hfuel : target < fuel) :
    ∃ picks, LargestFirst sizes target picks ∧
      findMinimumItems fuel target sizes =
        Run.done ((picks.foldl PackMap.incr []).totalItems, picks.foldl PackMap.incr []) := by
  have hs : s ∈ sizes := by
    obtain ⟨ys, hys⟩ := List.getLast?_eq_some_iff.mp hlast
    rw [hys]; simp
  obtain ⟨dp, pu, hbuild, inv⟩ := @buildTables_inv sizes target s hpos hs hfit
  have hM : add64 (add64 target s) 1 = target + s + 1 := by
    rw [add64_of_lt (a := target) (b := s) (by omega), add64_of_lt (by omega)]
  obtain ⟨v, hv, -, -, hvlt, -⟩ := inv.val_lt hs (hpos s hs) (j := target) (le_refl _)
  have hne : v ≠ add64 (add64 target s) 1 := by rw [hM]; omega
  obtain ⟨picks, hex, hlf⟩ :=
    walkPacks_exact inv hpos (by omega) fuel target [] (le_refl _) hr hfuel
  refine ⟨picks, hlf, ?_⟩
  unfold findMinimumItems
  rw [hlast]
  simp only [hbuild, Run.done_bind]
  unfold chooseStart
  rw [readAt_of_getElem? hv, Run.done_bind, if_neg hne, Run.pure_eq, Run.done_bind]
  unfold reconstruct
  simp only [hex, Run.done_bind, Run.pure_eq]

/-- The last element of a descending list is its smallest. -/
theorem getLast?_le_of_sorted {l : List Nat} {s : Nat}
    (hsorted : l.Pairwise (fun a b => b ≤ a)) (hlast : l.getLast? = some s) :
    ∀ x ∈ l, s ≤ x := by
  obtain ⟨ys, hys⟩ := List.getLast?_eq_some_iff.mp hlast
  subst hys
  rw [List.pairwise_append] at hsorted
  intro x hx
  rcases List.mem_append.mp hx with h | h
  · exact hsorted.2.2 x h s (List.mem_singleton_self s)
  · rw [List.mem_singleton.mp h]

/-- The smallest pack size, read at the end of the sorted slice, is an
available size and is below every available size. -/
theorem sortSliceDesc_getLast? {l : List Nat} (h : l ≠ []) :
    ∃ s, (sortSliceDesc l).getLast? = some s ∧ s ∈ l ∧ ∀ p ∈ l, s ≤ p := by
  have hne : sortSliceDesc l ≠ [] := by
    obtain ⟨x, hx⟩ := List.exists_mem_of_ne_nil _ h
    exact List.ne_nil_of_mem (mem_sortSliceDesc.mpr hx)
  have hlast := List.getLast?_eq_getLast _ hne
  refine ⟨_, hlast, mem_sortSliceDesc.mp (List.getLast_mem hne), ?_⟩
  intro p hp
  exact getLast?_le_of_sorted (sortSliceDesc_sorted l) hlast p (mem_sortSliceDesc.mpr hp)

/-- On valid input whose order some combination meets exactly,
`CalculatePacks` returns once the fuel covers the walk; the total is the order
itself, nothing is in excess, and the map counts the largest-first packs over
the sorted sizes.  Only the smallest size has to leave room for the sentinel
`order + smallest + 1`. -/
theorem CalculatePacks_exact {itemsOrdered : Nat} {availablePackSizes : List Nat}
    (h1 : 1 ≤ itemsOrdered) (h2 : availablePackSizes ≠ [])
    (hpos : ∀ p ∈ availablePackSizes, 1 ≤ p)
    (hfit : ∀ s ∈ availablePackSizes, (∀ p ∈ availablePackSizes, s ≤ p) →
      itemsOrdered + s + 1 < wordSize)
    (hr : Reach availablePackSizes itemsOrdered) (fuel : Nat) (hfuel : itemsOrdered < fuel) :
    ∃ picks, LargestFirst (sortSliceDesc availablePackSizes) itemsOrdered picks ∧
      CalculatePacks fuel itemsOrdered availablePackSizes =
        Run.done ⟨{ PackCounts := picks.foldl PackMap.incr []
                    TotalPacks := (picks.foldl PackMap.incr []).totalPacks
                    TotalItems := itemsOrdered
                    ExcessItems := 0 }, none, sortSliceDesc availablePackSizes⟩ := by
  have h0 : ¬ itemsOrdered ≤ 0 := by omega
  have hl : ¬ availablePackSizes.length = 0 := by
    simpa [List.length_eq_zero] using h2
  have hmem : ∀ x, x ∈ sortSliceDesc availablePackSizes ↔ x ∈ availablePackSizes :=
    fun x => mem_sortSliceDesc
  obtain ⟨s, hlast, hs, hmin⟩ := sortSliceDesc_getLast? h2
  have hfs := hfit s hs hmin
  obtain ⟨picks, hlf, hfind⟩ := findMinimumItems_exact hlast
    (fun c hc => hpos c ((hmem c).mp hc)) hfs (hr.congr (fun x => (hmem x).symm))
    fuel hfuel
  have hW : itemsOrdered < wordSize := by omega
  have htotal : (picks.foldl PackMap.incr []).totalItems = itemsOrdered := by
    rw [PackMap.totalItems_foldl_incr, hlf.sum_eq]
    simp [PackMap.totalItems, Nat.mod_eq_of_lt hW]
  refine ⟨picks, hlf, ?_⟩
  unfold CalculatePacks
  simp only [h0, hl, if_false, hfind, Run.done_bind, Run.pure_eq, htotal,
    sub64_of_le (le_refl itemsOrdered) hW, Nat.sub_self]

/-! ## The effect of a call on the caller's slice -/

theorem insertDesc_perm (x : Nat) (l : List Nat) : (insertDesc x l).Perm (x :: l) := by
  induction l with
  | nil => exact List.Perm.refl _
  | cons y ys ih =>
    unfold insertDesc
    by_cases h : y < x
    · rw [if_pos h]
    · rw [if_neg h]
      exact (List.Perm.cons y ih).trans (List.Perm.swap x y ys)

/-- Sorting keeps the elements. -/
theorem sortSliceDesc_perm (l : List Nat) : (sortSliceDesc l).Perm l := by
  induction l with
  | nil => exact List.Perm.refl _
  | cons x xs ih => exact (insertDesc_perm x _).trans (List.Perm.cons x ih)

theorem sortSliceDesc_length (l : List Nat) : (sortSliceDesc l).length = l.length :=
  (sortSliceDesc_perm l).length_eq

theorem insertDesc_of_sorted {x : Nat} {l : List Nat}
    (h : (x :: l).Pairwise (fun a b => b ≤ a)) : insertDesc x l = x :: l := by
  induction l with
  | nil => rfl
  | cons y ys ih =>
    rw [List.pairwise_cons] at h
    have hyx : y ≤ x := h.1 y (List.mem_cons_self _ _)
    unfold insertDesc
    by_cases hlt : y < x
    · rw [if_pos hlt]
    · have hxy : y = x := by omega
      subst hxy
      rw [if_neg hlt, ih]
      rw [List.pairwise_cons]
      exact ⟨fun b hb => h.1 b (List.mem_cons_of_mem _ hb), (List.pairwise_cons.mp h.2).2⟩

/-- A slice already in descending order is left as it is. -/
theorem sortSliceDesc_of_sorted {l : List Nat} (h : l.Pairwise (fun a b => b ≤ a)) :
    sortSliceDesc l = l := by
  induction l with
  | nil => rfl
  | cons x xs ih =>
    have h' := h
    rw [List.pairwise_cons] at h'
    show insertDesc x (sortSliceDesc xs) = x :: xs
    rw [ih h'.2]
    exact insertDesc_of_sorted h

/-- Sorting twice is sorting once. -/
theorem sortSliceDesc_idem (l : List Nat) :
    sortSliceDesc (sortSliceDesc l) = sortSliceDesc l :=
  sortSliceDesc_of_sorted (sortSliceDesc_sorted l)

/-- What `CalculatePacks` leaves in the caller's slice: the slice itself with
an input error, the sorted slice with a result. -/
theorem CalculatePacks_frame {fuel itemsOrdered : Nat} {availablePackSizes : List Nat}
    {r : Returned} (h : CalculatePacks fuel itemsOrdered availablePackSizes = Run.done r) :
    (r.err ≠ none ∧ r.packSizes = availablePackSizes) ∨
    (r.err = none ∧ 1 ≤ itemsOrdered ∧ availablePackSizes ≠ [] ∧
      r.packSizes = sortSliceDesc availablePackSizes) := by
  unfold CalculatePacks at h
  by_cases h0 : itemsOrdered ≤ 0
  · rw [if_pos h0] at h
    have := Run.done.inj h
    subst this
    exact Or.inl ⟨by simp, rfl⟩
  · by_cases hl : availablePackSizes.length = 0
    · rw [if_neg h0, if_pos hl] at h
      have := Run.done.inj h
      subst this
      exact Or.inl ⟨by simp, rfl⟩
    · rw [if_neg h0, if_neg hl] at h
      obtain ⟨found, -, hf⟩ := Run.bind_eq_done h
      have := Run.done.inj hf
      subst this
      exact Or.inr ⟨rfl, by omega, by simpa [List.length_eq_zero] using hl, rfl⟩

/-- What `CalculatePacksOptimized` leaves in the caller's slice. -/
theorem CalculatePacksOptimized_frame {fuel itemsOrdered : Nat}
    {availablePackSizes : List Nat} {r : Returned}
    (h : CalculatePacksOptimized fuel itemsOrdered availablePackSizes = Run.done r) :
    (r.err ≠ none ∧ r.packSizes = availablePackSizes) ∨
    (r.err = none ∧ 1 ≤ itemsOrdered ∧ availablePackSizes ≠ [] ∧
      r.packSizes = sortSliceDesc availablePackSizes) := by
  unfold CalculatePacksOptimized at h
  by_cases h0 : itemsOrdered ≤ 0
  · rw [if_pos h0] at h
    have := Run.done.inj h
    subst this
    exact Or.inl ⟨by simp, rfl⟩
  · by_cases hl : availablePackSizes.length = 0
    · rw [if_neg h0, if_pos hl] at h
      have := Run.done.inj h
      subst this
      exact Or.inl ⟨by simp, rfl⟩
    · rw [if_neg h0, if_neg hl] at h
      cases hs : (sortSliceDesc availablePackSizes).getLast? with
      | none => simp only [hs] at h; cases h
      | some smallestPack =>
        simp only [hs] at h
        obtain ⟨st, -, h⟩ := Run.bind_eq_done h
        obtain ⟨packCounts, -, h⟩ := Run.bind_eq_done h
        have := Run.done.inj h
        subst this
        exact Or.inr ⟨rfl, by omega, by simpa [List.length_eq_zero] using hl, rfl⟩

/-- What `OptimalCalculatePacks` leaves in the caller's slice. -/
theorem OptimalCalculatePacks_frame {fuel itemsOrdered : Nat}
    {availablePackSizes : List Nat} {r : Returned}
    (h : OptimalCalculatePacks fuel itemsOrdered availablePackSizes = Run.done r) :
    (r.err ≠ none ∧ r.packSizes = availablePackSizes) ∨
    (r.err = none ∧ 1 ≤ itemsOrdered ∧ availablePackSizes ≠ [] ∧
      r.packSizes = sortSliceDesc availablePackSizes) := by
  unfold OptimalCalculatePacks at h
  split at h
  · exact CalculatePacks_frame h
  · exact CalculatePacksOptimized_frame h

/-- A call on the sorted slice behaves as the call on the slice itself, once
the two input checks pass. -/
theorem CalculatePacks_sorted_input (fuel : Nat) {itemsOrdered : Nat}
    {availablePackSizes : List Nat} (h1 : 1 ≤ itemsOrdered) (h2 : availablePackSizes ≠ []) :
    CalculatePacks fuel itemsOrdered (sortSliceDesc availablePackSizes)
      = CalculatePacks fuel itemsOrdered availablePackSizes := by
  have h0 : ¬ itemsOrdered ≤ 0 := by omega
  have hl : ¬ availablePackSizes.length = 0 := by
    simpa [List.length_eq_zero] using h2
  unfold CalculatePacks
  simp only [h0, hl, sortSliceDesc_length, sortSliceDesc_idem, if_false]

theorem CalculatePacksOptimized_sorted_input (fuel : Nat) {itemsOrdered : Nat}
    {availablePackSizes : List Nat} (h1 : 1 ≤ itemsOrdered) (h2 : availablePackSizes ≠ []) :
    CalculatePacksOptimized fuel itemsOrdered (sortSliceDesc availablePackSizes)
      = CalculatePacksOptimized fuel itemsOrdered availablePackSizes := by
  have h0 : ¬ itemsOrdered ≤ 0 := by omega
  have hl : ¬ availablePackSizes.length = 0 := by
    simpa [List.length_eq_zero] using h2
  unfold CalculatePacksOptimized
  simp only [h0, hl, sortSliceDesc_length, sortSliceDesc_idem, if_false]

theorem OptimalCalculatePacks_sorted_input (fuel : Nat) {itemsOrdered : Nat}
    {availablePackSizes : List Nat} (h1 : 1 ≤ itemsOrdered) (h2 : availablePackSizes ≠ []) :
    OptimalCalculatePacks fuel itemsOrdered (sortSliceDesc availablePackSizes)
      = OptimalCalculatePacks fuel itemsOrdered availablePackSizes := by
  unfold OptimalCalculatePacks selectorThreshold
  rw [sortSliceDesc_length, CalculatePacks_sorted_input fuel h1 h2,
    CalculatePacksOptimized_sorted_input fuel h1 h2]

/-! ## The totals computed from the map -/

theorem PackMap.foldl_packs (m : PackMap) :
    ∀ a, a < wordSize →
    m.foldl (fun acc kv => add64 acc kv.2) a = (a + m.packs) % wordSize := by
  induction m with
  | nil => intro a ha; simp [PackMap.packs, Nat.mod_eq_of_lt ha]
  | cons kv rest ih =>
    intro a _
    have hW : 0 < wordSize := by unfold wordSize; decide
    rw [List.foldl_cons, ih (add64 a kv.2) (Nat.mod_lt _ hW)]
    have hw : PackMap.packs (kv :: rest) = kv.2 + PackMap.packs rest := by
      unfold PackMap.packs; rw [List.map_cons, List.sum_cons]
    rw [hw, ← Nat.add_assoc]
    exact Nat.ModEq.add_right _ (Nat.mod_modEq _ _)

/-- The wrapping pack total of a map is its exact number of packs modulo
`2 ^ 64`. -/
theorem PackMap.totalPacks_eq (m : PackMap) : m.totalPacks = m.packs % wordSize := by
  unfold PackMap.totalPacks
  rw [PackMap.foldl_packs m 0 (by unfold wordSize; decide), Nat.zero_add]

/-- Whatever `findMinimumItems` returns, the reported total and the wrapping
total of the returned map agree modulo `2 ^ 64`. -/
theorem findMinimumItems_total {fuel target total : Nat} {sizes : List Nat} {pc : PackMap}
    (h : findMinimumItems fuel target sizes = Run.done (total, pc)) :
    total % wordSize = pc.weight % wordSize := by
  unfold findMinimumItems at h
  cases hl : sizes.getLast? with
  | none => rw [hl] at h; cases h
  | some s =>
    rw [hl] at h
    simp only at h
    obtain ⟨tables, -, h⟩ := Run.bind_eq_done h
    obtain ⟨scan, -, h⟩ := Run.bind_eq_done h
    unfold reconstruct at h
    cases scan with
    | fallback =>
      have := Run.done.inj h
      simp only [Prod.mk.injEq] at this
      obtain ⟨rfl, rfl⟩ := this
      simp [PackMap.put, PackMap.weight]
    | found current =>
      simp only at h
      obtain ⟨pc', -, h⟩ := Run.bind_eq_done h
      have := Run.done.inj h
      simp only [Prod.mk.injEq] at this
      obtain ⟨rfl, rfl⟩ := this
      rw [PackMap.totalItems_eq, Nat.mod_mod]

/-- Whenever one of the three functions returns a result, its totals are the
ones of its map, in the arithmetic of `uint64`. -/
theorem OptimalCalculatePacks_totals {fuel itemsOrdered : Nat} {availablePackSizes : List Nat}
    {r : Returned}
    (h : OptimalCalculatePacks fuel itemsOrdered availablePackSizes = Run.done r)
    (herr : r.err = none) :
    r.result.TotalItems % wordSize = r.result.PackCounts.weight % wordSize ∧
    r.result.TotalPacks = r.result.PackCounts.packs % wordSize := by
  unfold OptimalCalculatePacks at h
  split at h
  · unfold CalculatePacks at h
    split at h
    · have := Run.done.inj h; subst this; cases herr
    · split at h
      · have := Run.done.inj h; subst this; cases herr
      · obtain ⟨found, hfound, h⟩ := Run.bind_eq_done h
        have := Run.done.inj h
        subst this
        exact ⟨findMinimumItems_total hfound, PackMap.totalPacks_eq _⟩
  · unfold CalculatePacksOptimized at h
    split at h
    · have := Run.done.inj h; subst this; cases herr
    · split at h
      · have := Run.done.inj h; subst this; cases herr
      · cases hs : (sortSliceDesc availablePackSizes).getLast? with
        | none => simp only [hs] at h; cases h
        | some smallestPack =>
          simp only [hs] at h
          obtain ⟨st, -, h⟩ := Run.bind_eq_done h
          obtain ⟨packCounts, -, h⟩ := Run.bind_eq_done h
          have := Run.done.inj h
          subst this
          exact ⟨by rw [PackMap.totalItems_eq, Nat.mod_mod], PackMap.totalPacks_eq _⟩

/-- Orders up to 2500 with at most five pack sizes are below the threshold,
so the selector calls the exact solver. -/
theorem OptimalCalculatePacks_of_le_2500 {itemsOrdered : Nat} {availablePackSizes : List Nat}
    (fuel : Nat) (h : itemsOrdered ≤ 2500) (hlen : availablePackSizes.length ≤ 5) :
    OptimalCalculatePacks fuel itemsOrdered availablePackSizes
      = CalculatePacks fuel itemsOrdered availablePackSizes := by
  unfold OptimalCalculatePacks selectorThreshold
  have hth : itemsOrdered ≤ if 5 < availablePackSizes.length then 1000 else 2500 := by
    rw [if_neg (by omega)]; exact h
  rw [if_pos hth]

/-! ## The forward scan of `findMinimumItems` -/

/-- A property of the state kept by every pass of a loop body is kept by the
loop. -/
theorem foldlM_keeps {σ β : Type} (P : σ → Prop) (f : σ → β → Run σ)
    (hf : ∀ st b st', P st → f st b = Run.done st' → P st') :
    ∀ (l : List β) (st st' : σ), P st → l.foldlM f st = Run.done st' → P st' := by
  intro l
  induction l with
  | nil =>
    intro st st' hP h
    rw [List.foldlM_nil] at h
    exact (Run.done.inj h) ▸ hP
  | cons b rest ih =>
    intro st st' hP h
    rw [List.foldlM_cons] at h
    obtain ⟨mid, hmid, hrest⟩ := Run.bind_eq_done h
    exact ih mid st' (hf st b mid hP hmid) hrest

/-- The two assignments keep the lengths of both tables. -/
theorem recordChoice_length {i v size : Nat} {st st' : List Nat × List Nat}
    (h : recordChoice i v size st = Run.done st') :
    st'.1.length = st.1.length ∧ st'.2.length = st.2.length := by
  unfold recordChoice at h
  obtain ⟨dp, hdp, h⟩ := Run.bind_eq_done h
  obtain ⟨used, hused, h⟩ := Run.bind_eq_done h
  unfold writeAt at hdp hused
  split at hdp
  · split at hused
    · have h1 := Run.done.inj hdp
      have h2 := Run.done.inj hused
      have h3 := Run.done.inj h
      subst h1 h2 h3
      simp
    · cases hused
  · cases hdp

/-- One pass of the inner loop keeps the lengths of both tables. -/
theorem fillCell_length {maxPossible i size : Nat} {st st' : List Nat × List Nat}
    (h : fillCell maxPossible i st size = Run.done st') :
    st'.1.length = st.1.length ∧ st'.2.length = st.2.length := by
  unfold fillCell at h
  obtain ⟨first, -, h⟩ := Run.bind_eq_done h
  cases first with
  | true =>
    simp only [if_true] at h
    obtain ⟨a, -, h⟩ := Run.bind_eq_done h
    exact recordChoice_length h
  | false =>
    simp only [Bool.false_eq_true, if_false] at h
    obtain ⟨second, -, h⟩ := Run.bind_eq_done h
    cases second with
    | true =>
      simp only [if_true] at h
      exact recordChoice_length h
    | false =>
      simp only [Bool.false_eq_true, if_false] at h
      have := Run.done.inj h
      subst this
      exact ⟨rfl, rfl⟩

/-- Whatever the pack sizes are, the tables that `findMinimumItems` builds
have `target + 1` entries (in machine arithmetic). -/
theorem buildTables_length {target maxPossible : Nat} {packSizes dp pu : List Nat}
    (h : buildTables target maxPossible packSizes = Run.done (dp, pu)) :
    dp.length = add64 target 1 ∧ pu.length = add64 target 1 := by
  unfold buildTables at h
  obtain ⟨dp0, hdp0, h⟩ := Run.bind_eq_done h
  have hlen0 : dp0.length = add64 target 1 := by
    unfold writeAt at hdp0
    split at hdp0
    · have := Run.done.inj hdp0
      subst this
      simp
    · cases hdp0
  unfold fillTables at h
  have hrow : ∀ (st : List Nat × List Nat) (i : Nat) (st' : List Nat × List Nat),
      (st.1.length = add64 target 1 ∧ st.2.length = add64 target 1) →
      fillRow maxPossible packSizes st i = Run.done st' →
      (st'.1.length = add64 target 1 ∧ st'.2.length = add64 target 1) := by
    intro st i st' hP hrun
    unfold fillRow at hrun
    exact foldlM_keeps
      (fun s => s.1.length = add64 target 1 ∧ s.2.length = add64 target 1)
      (fillCell maxPossible i)
      (fun s c s' hs hc => by
        have := fillCell_length hc
        exact ⟨by rw [this.1]; exact hs.1, by rw [this.2]; exact hs.2⟩)
      packSizes st st' hP hrun
  exact foldlM_keeps
    (fun s => s.1.length = add64 target 1 ∧ s.2.length = add64 target 1)
    (fillRow maxPossible packSizes) hrow _ _ _ ⟨hlen0, by simp⟩ h

/-- The forward scan never finds anything: whenever `dp[target]` still holds
the sentinel after the tables are filled, the first read of the scan,
`dp[target + 1]`, is outside the table of `target + 1` entries, and
`findMinimumItems` panics. -/
theorem findMinimumItems_sentinel_panics {target smallestPack : Nat}
    {packSizes dp pu : List Nat}
    (hlast : packSizes.getLast? = some smallestPack)
    (hbuild : buildTables target (add64 (add64 target smallestPack) 1) packSizes
      = Run.done (dp, pu))
    (hsentinel : readAt dp target = Run.done (add64 (add64 target smallestPack) 1))
    (fuel : Nat) :
    findMinimumItems (fuel + 1) target packSizes = Run.panic := by
  have hlen := (buildTables_length hbuild).1
  unfold findMinimumItems
  rw [hlast]
  simp only [hbuild, Run.done_bind]
  unfold chooseStart
  rw [hsentinel, Run.done_bind, if_pos rfl]
  unfold scanForward
  rw [readAt_of_length_le (le_of_eq hlen)]
  rfl

/-! ## Independence of the supplied order of the sizes -/

/-- Two slices with the same elements sort to the same slice. -/
theorem sortSliceDesc_eq_of_perm {a b : List Nat} (h : a.Perm b) :
    sortSliceDesc a = sortSliceDesc b := by
  haveI : IsAntisymm Nat (fun x y => y ≤ x) := ⟨fun _ _ h1 h2 => Nat.le_antisymm h2 h1⟩
  exact List.eq_of_perm_of_sorted
    (((sortSliceDesc_perm a).trans h).trans (sortSliceDesc_perm b).symm)
    (sortSliceDesc_sorted a) (sortSliceDesc_sorted b)

/-! ## The sequence of packs counted by the bounded reconstruction -/

/-- A walk that returns has counted a definite sequence of packs: started from
any other map it counts the same sequence. -/
theorem walkChoices_trace (packChoice : List Nat) :
    ∀ fuel current (pc pc' : PackMap),
    walkChoices packChoice fuel current pc = Run.done pc' →
    ∃ picks : List Nat, pc' = picks.foldl PackMap.incr pc ∧
      ∀ pc2, walkChoices packChoice fuel current pc2 = Run.done (picks.foldl PackMap.incr pc2) := by
  intro fuel
  induction fuel with
  | zero => intro current pc pc' h; cases h
  | succ fuel ih =>
    intro current pc pc' h
    rw [walkChoices_step] at h
    by_cases h0 : current = 0
    · rw [if_pos h0] at h
      refine ⟨[], (Run.done.inj h).symm, fun pc2 => ?_⟩
      rw [walkChoices_step, if_pos h0]; rfl
    · rw [if_neg h0] at h
      obtain ⟨size, hsize, hrest⟩ := Run.bind_eq_done h
      obtain ⟨picks, hpc, hall⟩ := ih _ _ _ hrest
      refine ⟨size :: picks, by rw [foldl_incr_cons]; exact hpc, fun pc2 => ?_⟩
      rw [walkChoices_step, if_neg h0, hsize, Run.done_bind, foldl_incr_cons]
      exact hall _

/-! ## One row of the bounded table of `CalculatePacksOptimized` -/

/-- One pack size, run on a state whose cell `i` holds `v`: as in
`findMinimumItems`, the cell is replaced exactly when the candidate is
strictly smaller. -/
theorem windowCell_eq {i c v : Nat} {dp0 dp pc : List Nat}
    (hpc : i < pc.length) (hc : 1 ≤ c)
    (hsame : ∀ j, j ≠ i → dp[j]? = dp0[j]?) (hv : dp[i]? = some v)
    (hprev : c ≤ i → ∃ w, dp0[i - c]? = some w ∧ w + c < wordSize) :
    windowCell i (dp, pc) c =
      Run.done (if cand dp0 i c < v then (dp.set i (cand dp0 i c), pc.set i c)
        else (dp, pc)) := by
  have hdp : i < dp.length := lt_length_of_getElem? hv
  unfold windowCell windowFirst fillSecond recordChoice
  by_cases hci : c ≤ i
  · obtain ⟨w, hw, hwc⟩ := hprev hci
    have hw' : dp[i - c]? = some w := by rw [hsame (i - c) (by omega)]; exact hw
    have hcand : cand dp0 i c = w + c := by
      unfold cand; rw [if_pos hci, getD_of_getElem? hw]
    have hnot : ¬ i < c := by omega
    simp only [hci, if_true, readAt_of_getElem? hw', Run.done_bind,
      readAt_of_getElem? hv, Run.pure_eq, add64_of_lt hwc, hcand, hnot, if_false]
    by_cases hlt : w + c < v
    · simp only [hlt, decide_True, if_true, writeAt_of_lt _ hdp, writeAt_of_lt _ hpc,
        Run.done_bind]
    · simp only [hlt, decide_False, if_false, Bool.false_eq_true]
  · have hic : i < c := by omega
    have hcand : cand dp0 i c = c := by
      unfold cand; rw [if_neg hci]
    simp only [hci, if_false, Run.pure_eq, Run.done_bind, Bool.false_eq_true, hic, if_true,
      readAt_of_getElem? hv, hcand]
    by_cases hlt : c < v
    · simp only [hlt, decide_True, if_true, writeAt_of_lt _ hdp, writeAt_of_lt _ hpc,
        Run.done_bind]
    · simp only [hlt, decide_False, if_false, Bool.false_eq_true]

/-- A whole row of the bounded table: the cell `i` of both tables ends as
`rowFold` says, every other cell is untouched. -/
theorem windowRow_eq {i : Nat} {dp0 : List Nat} (sizes : List Nat) :
    ∀ {dp pc : List Nat} {v u : Nat},
    (∀ c ∈ sizes, 1 ≤ c ∧ (c ≤ i → ∃ w, dp0[i - c]? = some w ∧ w + c < wordSize)) →
    (∀ j, j ≠ i → dp[j]? = dp0[j]?) → dp[i]? = some v → pc[i]? = some u →
    sizes.foldlM (windowCell i) (dp, pc) =
      Run.done (dp.set i (rowFold dp0 i (v, u) sizes).1,
        pc.set i (rowFold dp0 i (v, u) sizes).2) := by
  induction sizes with
  | nil =>
    intro dp pc v u _ _ hv hu
    simp only [List.foldlM_nil, rowFold, List.foldl_nil, Run.pure_eq,
      set_self_of_getElem? hv, set_self_of_getElem? hu]
  | cons c rest ih =>
    intro dp pc v u hs hsame hv hu
    have hc := hs c (List.mem_cons_self _ _)
    have hrest : ∀ c' ∈ rest, 1 ≤ c' ∧
        (c' ≤ i → ∃ w, dp0[i - c']? = some w ∧ w + c' < wordSize) :=
      fun c' h' => hs c' (List.mem_cons_of_mem _ h')
    have hdp : i < dp.length := lt_length_of_getElem? hv
    have hpc : i < pc.length := lt_length_of_getElem? hu
    rw [List.foldlM_cons, windowCell_eq hpc hc.1 hsame hv hc.2, Run.done_bind]
    simp only [rowFold, List.foldl_cons, rowStep]
    by_cases hlt : cand dp0 i c < v
    · simp only [hlt, if_true]
      have h1 : ∀ j, j ≠ i → (dp.set i (cand dp0 i c))[j]? = dp0[j]? := by
        intro j hj
        rw [List.getElem?_set_ne (Ne.symm hj)]; exact hsame j hj
      have h2 : (dp.set i (cand dp0 i c))[i]? = some (cand dp0 i c) := by
        rw [List.getElem?_set]; simp [hdp]
      have h3 : (pc.set i c)[i]? = some c := by
        rw [List.getElem?_set]; simp [hpc]
      rw [ih hrest h1 h2 h3]
      simp only [rowFold, List.set_set]
    · simp only [hlt, if_false]
      rw [ih hrest hsame hv hu]
      simp only [rowFold]

/-! ## The invariant of the bounded table is kept by every row -/

/-- Under the invariant a filled cell lies in the window `[j, j + s)`. -/
theorem WindowInv.filled_lt {sizes : List Nat} {dpLimit k : Nat} {dp pc : List Nat}
    (inv : WindowInv sizes dpLimit k dp pc) {s : Nat} (hs : s ∈ sizes)
    (hpos : 1 ≤ s) {j : Nat} (hj : j ≤ k) :
    ∃ v, dp[j]? = some v ∧ Reach sizes v ∧ j ≤ v ∧ v < j + s ∧
      ∀ t, Reach sizes t → j ≤ t → v ≤ t := by
  obtain ⟨v, hv, hr, hjv, hmin⟩ := inv.val j hj
  obtain ⟨t, ht, hjt, hts⟩ := Reach.window hs hpos j
  exact ⟨v, hv, hr, hjv, lt_of_le_of_lt (hmin t ht hjt) hts, hmin⟩

/-- Under the invariant the candidate of a size for row `k + 1` is a reachable
total that is at least `k + 1`, and it is at most any reachable total that is
at least `k + 1` and ends with that size. -/
theorem WindowInv.next_cand {sizes : List Nat} {dpLimit k : Nat} {dp pc : List Nat}
    (inv : WindowInv sizes dpLimit k dp pc) {c : Nat} (hc : c ∈ sizes) (hpos : 1 ≤ c) :
    Reach sizes (cand dp (k + 1) c) ∧ k + 1 ≤ cand dp (k + 1) c ∧
    ∀ t, c ≤ t → Reach sizes (t - c) → k + 1 ≤ t → cand dp (k + 1) c ≤ t := by
  by_cases hci : c ≤ k + 1
  · obtain ⟨w, hw, hr, hjw, hmin⟩ := inv.val (k + 1 - c) (by omega)
    rw [cand_of_le hci hw]
    refine ⟨hr.add hc, by omega, ?_⟩
    intro t hct hrt hkt
    have := hmin (t - c) hrt (by omega)
    omega
  · rw [cand_of_gt (by omega)]
    exact ⟨Reach.single hc, by omega, fun t hct _ _ => hct⟩

/-- One more row of the bounded table: the inner loop returns, and the
invariant holds one row further.  The initial value `i + dpLimit` of the row is
above the candidate of the size `s`, so it never survives. -/
theorem WindowInv.next_row {sizes : List Nat} {dpLimit k s : Nat} {dp pc : List Nat}
    (inv : WindowInv sizes dpLimit k dp pc)
    (hpos : ∀ c ∈ sizes, 1 ≤ c) (hs : s ∈ sizes)
    (hsl : s ≤ dpLimit) (hfit : dpLimit + s < wordSize) (hk : k < dpLimit) :
    ∃ dp' pc', sizes.foldlM (windowCell (k + 1)) (dp, pc) = Run.done (dp', pc') ∧
      WindowInv sizes dpLimit (k + 1) dp' pc' := by
  obtain ⟨hv, hu⟩ := inv.rest (k + 1) (by omega) (by omega)
  have hidp : k + 1 < dp.length := lt_length_of_getElem? hv
  have hipc : k + 1 < pc.length := lt_length_of_getElem? hu
  have hpre : ∀ c ∈ sizes, 1 ≤ c ∧ (c ≤ k + 1 →
      ∃ w, dp[k + 1 - c]? = some w ∧ w + c < wordSize) := by
    intro c hc
    refine ⟨hpos c hc, fun hci => ?_⟩
    have hc1 := hpos c hc
    obtain ⟨w, hw, -, -, hlt, -⟩ := inv.filled_lt hs (hpos s hs) (j := k + 1 - c) (by omega)
    exact ⟨w, hw, by omega⟩
  have hrow := @windowRow_eq (k + 1) dp sizes dp pc (k + 1 + dpLimit) 0
    hpre (fun j _ => rfl) hv hu
  obtain ⟨-, hle, hbranch⟩ := rowFold_spec dp (k + 1) sizes (k + 1 + dpLimit, 0)
  generalize hf : rowFold dp (k + 1) (k + 1 + dpLimit, 0) sizes = f at hrow hle hbranch
  have hfs : f.1 ≤ cand dp (k + 1) s := hle s hs
  have hsmall : cand dp (k + 1) s < k + 1 + s := by
    have hs1 := hpos s hs
    by_cases hsk : s ≤ k + 1
    · obtain ⟨w, hw, -, -, hlt, -⟩ := inv.filled_lt hs (hpos s hs) (j := k + 1 - s) (by omega)
      rw [cand_of_le hsk hw]; omega
    · rw [cand_of_gt (by omega)]; omega
  have hfM : f.1 < k + 1 + dpLimit := by omega
  obtain ⟨a, b, hab, hcand, hfirst⟩ : ∃ a b, sizes = a ++ f.2 :: b ∧
      cand dp (k + 1) f.2 = f.1 ∧ ∀ c ∈ a, f.1 < cand dp (k + 1) c := by
    rcases hbranch with heq | ⟨-, h⟩
    · rw [heq] at hfM; exact absurd hfM (lt_irrefl _)
    · exact h
  have hf2 : f.2 ∈ sizes := by rw [hab]; simp
  have hspec := inv.next_cand hf2 (hpos _ hf2)
  rw [hcand] at hspec
  have hget : ∀ j, j ≠ k + 1 → (dp.set (k + 1) f.1)[j]? = dp[j]? :=
    fun j hj => List.getElem?_set_ne (Ne.symm hj)
  have hgetu : ∀ j, j ≠ k + 1 → (pc.set (k + 1) f.2)[j]? = pc[j]? :=
    fun j hj => List.getElem?_set_ne (Ne.symm hj)
  have hnew : (dp.set (k + 1) f.1)[k + 1]? = some f.1 := by
    rw [List.getElem?_set]; simp [hidp]
  have hnewu : (pc.set (k + 1) f.2)[k + 1]? = some f.2 := by
    rw [List.getElem?_set]; simp [hipc]
  have hcong : ∀ j c, j ≤ k + 1 → 1 ≤ c →
      cand (dp.set (k + 1) f.1) j c = cand dp j c :=
    fun j c hj hc => cand_congr hc (fun i hi => hget i (by omega))
  refine ⟨_, _, hrow, ?_⟩
  refine ⟨by rw [List.length_set]; exact inv.len_dp,
    by rw [List.length_set]; exact inv.len_pc, ?_, ?_, ?_⟩
  · intro j hj
    by_cases hjk : j = k + 1
    · subst hjk
      refine ⟨f.1, hnew, hspec.1, hspec.2.1, ?_⟩
      intro t ht hkt
      obtain ⟨c, hc, hct, hrc⟩ := ht.split (by omega)
      exact le_trans (hle c hc) ((inv.next_cand hc (hpos c hc)).2.2 t hct hrc hkt)
    · rw [hget j hjk]
      exact inv.val j (by omega)
  · intro j hj1 hj
    by_cases hjk : j = k + 1
    · subst hjk
      refine ⟨f.1, f.2, a, b, hnew, hnewu, hab, ?_, ?_⟩
      · rw [hcong _ _ (le_refl _) (hpos _ hf2)]; exact hcand
      · intro c hc
        have hcs : c ∈ sizes := by rw [hab]; simp [hc]
        rw [hcong _ _ (le_refl _) (hpos _ hcs)]; exact hfirst c hc
    · obtain ⟨v, u, a', b', h1, h2, h3, h4, h5⟩ := inv.use j hj1 (by omega)
      have hu' : u ∈ sizes := by rw [h3]; simp
      refine ⟨v, u, a', b', by rw [hget j hjk]; exact h1, by rw [hgetu j hjk]; exact h2,
        h3, ?_, ?_⟩
      · rw [hcong _ _ hj (hpos _ hu')]; exact h4
      · intro c hc
        have hcs : c ∈ sizes := by rw [h3]; simp [hc]
        rw [hcong _ _ hj (hpos _ hcs)]; exact h5 c hc
  · intro j hkj hjt
    rw [hget j (by omega), hgetu j (by omega)]
    exact inv.rest j (by omega) hjt

theorem WindowInv.all_rows {sizes : List Nat} {dpLimit s : Nat} {dp pc : List Nat}
    (inv : WindowInv sizes dpLimit 0 dp pc)
    (hpos : ∀ c ∈ sizes, 1 ≤ c) (hs : s ∈ sizes)
    (hsl : s ≤ dpLimit) (hfit : dpLimit + s < wordSize) :
    ∀ k, k ≤ dpLimit →
    ∃ dp' pc', (List.range' 1 k).foldlM (fun st i => sizes.foldlM (windowCell i) st) (dp, pc)
        = Run.done (dp', pc') ∧
      WindowInv sizes dpLimit k dp' pc' := by
  intro k
  induction k with
  | zero => intro _; exact ⟨dp, pc, rfl, inv⟩
  | succ k ih =>
    intro hk
    obtain ⟨dp1, pc1, hrun, inv1⟩ := ih (by omega)
    obtain ⟨dp2, pc2, hrow, inv2⟩ := inv1.next_row hpos hs hsl hfit (by omega)
    refine ⟨dp2, pc2, ?_, inv2⟩
    rw [List.range'_concat, List.foldlM_append, hrun]
    have hidx : 1 + 1 * k = k + 1 := by omega
    simp only [Run.done_bind, List.foldlM_cons, List.foldlM_nil, hidx, hrow, Run.pure_eq]

/-- The bounded tables of `CalculatePacksOptimized` are built without a panic;
once filled they satisfy the invariant of the tables of `findMinimumItems`
for the target `dpLimit` (whatever the sentinel, no row holds it any more). -/
theorem fillWindow_inv {sizes : List Nat} {dpLimit s : Nat} (maxPossible : Nat)
    (hpos : ∀ c ∈ sizes, 1 ≤ c) (hs : s ∈ sizes)
    (hsl : s ≤ dpLimit) (hfit : 2 * dpLimit < wordSize) :
    ∃ dp pc, fillWindow dpLimit sizes (initWindow dpLimit, List.replicate (add64 dpLimit 1) 0)
        = Run.done (dp, pc) ∧
      TableInv sizes dpLimit maxPossible dpLimit dp pc := by
  have hlen : add64 dpLimit 1 = dpLimit + 1 := add64_of_lt (by have := hpos s hs; omega)
  rw [hlen]
  have inv0 : WindowInv sizes dpLimit 0 (initWindow dpLimit)
      (List.replicate (dpLimit + 1) 0) := by
    refine ⟨by simp [initWindow], by simp, ?_, ?_, ?_⟩
    · intro j hj
      have hj0 : j = 0 := by omega
      subst hj0
      refine ⟨0, by simp [initWindow], Reach.zero sizes, le_refl _, fun t _ _ => ?_⟩
      omega
    · intro j h1 h0; omega
    · intro j h0 hjt
      constructor
      · obtain ⟨i, rfl⟩ : ∃ i, j = i + 1 := ⟨j - 1, by omega⟩
        have hadd : add64 (i + 1) dpLimit = i + 1 + dpLimit := add64_of_lt (by omega)
        simp only [initWindow, List.getElem?_cons_succ, List.getElem?_map]
        rw [List.getElem?_range' _ _ (by omega)]
        simp only [Option.map_some']
        rw [show 1 + 1 * i = i + 1 by omega, hadd]
      · rw [List.getElem?_replicate, if_pos (by omega)]
  obtain ⟨dp, pc, hrun, inv⟩ := inv0.all_rows hpos hs hsl (by omega) dpLimit (le_refl _)
  refine ⟨dp, pc, hrun, ⟨inv.len_dp, inv.len_pc, inv.val, inv.use, ?_⟩⟩
  intro j hkj hjt
  omega

/-! ## The choice of `bestTarget` and the bounded reconstruction -/

/-- The filled values never decrease along the table, so the loop of lines
144-148 keeps `bestTarget = remaining`. -/
theorem findBestTarget_eq {sizes : List Nat} {target maxPossible : Nat} {dp pu : List Nat}
    (inv : TableInv sizes target maxPossible target dp pu) {remaining : Nat}
    (hrem : remaining ≤ target) :
    findBestTarget dp remaining target = Run.done remaining := by
  have key : ∀ l : List Nat, (∀ i ∈ l, remaining ≤ i ∧ i ≤ target) →
      l.foldlM (bestStep dp) remaining = Run.done remaining := by
    intro l
    induction l with
    | nil => intro _; rfl
    | cons i rest ih =>
      intro h
      obtain ⟨hri, hit⟩ := h i (List.mem_cons_self _ _)
      obtain ⟨a, ha, hra, hia, -⟩ := inv.val i hit
      obtain ⟨b, hb, -, -, hmin⟩ := inv.val remaining hrem
      have hba : b ≤ a := hmin a hra (by omega)
      have hstep : bestStep dp remaining i = Run.done remaining := by
        unfold bestStep
        rw [readAt_of_getElem? ha, Run.done_bind, readAt_of_getElem? hb, Run.done_bind,
          if_neg (by omega), if_neg (by omega)]
        rfl
      rw [List.foldlM_cons, hstep, Run.done_bind]
      exact ih (fun j hj => h j (List.mem_cons_of_mem _ hj))
  unfold findBestTarget
  apply key
  intro i hi
  rw [List.mem_range'_1] at hi
  omega

/-- From an exactly reachable total the bounded reconstruction returns, given
fuel for one test per pack and the final test; the packs it counts are the
largest-first sequence. -/
theorem walkChoices_exact {sizes : List Nat} {target maxPossible : Nat} {dp pu : List Nat}
    (inv : TableInv sizes target maxPossible target dp pu) (hpos : ∀ c ∈ sizes, 1 ≤ c)
    (hW : target < wordSize) :
    ∀ fuel j pc, j ≤ target → Reach sizes j → j < fuel →
    ∃ picks, walkChoices pu fuel j pc = Run.done (picks.foldl PackMap.incr pc) ∧
      LargestFirst sizes j picks := by
  intro fuel
  induction fuel with
  | zero => intro j pc _ _ h; omega
  | succ fuel ih =>
    intro j pc hj hr hfuel
    rw [walkChoices_step]
    by_cases h0 : j = 0
    · subst h0
      exact ⟨[], by simp, LargestFirst.stop⟩
    · obtain ⟨u, a, b, hu, hab, huj, hrem, hfirst⟩ :=
        inv.pick_exact hpos (by omega) hj hr
      have hus : u ∈ sizes := by rw [hab]; simp
      have hu1 := hpos u hus
      have hsub : sub64 j u = j - u := sub64_of_le huj (by omega)
      obtain ⟨picks, hwalk, hlf⟩ := ih (j - u) (pc.incr u) (by omega) hrem (by omega)
      refine ⟨u :: picks, ?_, LargestFirst.pick (by omega) hab huj hfirst hlf⟩
      rw [if_neg h0, readAt_of_getElem? hu, Run.done_bind, hsub, foldl_incr_cons]
      exact hwalk

/-- On a row that no combination meets exactly, a recorded pack larger than
the row is the filled value itself, so it exceeds the row by less than the
size `s`. -/
theorem TableInv.oversized_lt {sizes : List Nat} {target maxPossible k : Nat} {dp pu : List Nat}
    (inv : TableInv sizes target maxPossible k dp pu) {s : Nat} (hs : s ∈ sizes)
    (hpos : 1 ≤ s) {j u : Nat} (h1 : 1 ≤ j) (hj : j ≤ k) (hu : pu[j]? = some u)
    (huj : j < u) : u < j + s := by
  obtain ⟨v, u', a, b, hv, hu', -, hcand, -⟩ := inv.use j h1 hj
  obtain ⟨v', hv', -, -, hlt, -⟩ := inv.val_lt hs hpos hj
  have huu : u' = u := by rw [hu] at hu'; exact (Option.some.inj hu').symm
  have hvv : v' = v := by rw [hv] at hv'; exact (Option.some.inj hv').symm
  subst huu hvv
  rw [cand_of_gt huj] at hcand
  omega

/-- From a total that no combination meets exactly the bounded reconstruction
ends in a panic once the fuel covers the steps down to the oversized pack and
the read after it. -/
theorem walkChoices_inexact_panic {sizes : List Nat} {target maxPossible s : Nat}
    {dp pu : List Nat}
    (inv : TableInv sizes target maxPossible target dp pu) (hpos : ∀ c ∈ sizes, 1 ≤ c)
    (hs : s ∈ sizes) (hfit : target + s + 1 < wordSize) :
    ∀ fuel j pc, 1 ≤ j → j ≤ target → ¬ Reach sizes j → j < fuel →
    walkChoices pu fuel j pc = Run.panic := by
  intro fuel
  induction fuel with
  | zero => intro j pc h1 _ _ h; omega
  | succ fuel ih =>
    intro j pc h1 hj hr hfuel
    rw [walkChoices_step]
    obtain ⟨u, hu, hus⟩ := inv.used_mem h1 hj
    have hu1 := hpos u hus
    rw [if_neg (by omega), readAt_of_getElem? hu, Run.done_bind]
    by_cases huj : u ≤ j
    · have hsub : sub64 j u = j - u := sub64_of_le huj (by omega)
      have hrem : ¬ Reach sizes (j - u) := by
        intro h
        apply hr
        have := h.add hus
        rwa [Nat.sub_add_cancel huj] at this
      have hz : j - u ≠ 0 := by
        intro h; apply hrem; rw [h]; exact Reach.zero sizes
      rw [hsub]
      exact ih (j - u) _ (by omega) (by omega) hrem (by omega)
    · have hlt := inv.oversized_lt hs (hpos s hs) h1 hj hu (by omega)
      have hsub : sub64 j u = wordSize + j - u := sub64_of_gt (by omega) (by omega)
      obtain ⟨fuel', rfl⟩ : ∃ fuel', fuel = fuel' + 1 := ⟨fuel - 1, by omega⟩
      have hz : wordSize + j - u ≠ 0 := by omega
      have hout : pu.length ≤ wordSize + j - u := by rw [inv.len_pu]; omega
      rw [hsub, walkChoices_step, if_neg hz, readAt_of_length_le hout, Run.panic_bind]

/-- The walk of `findMinimumItems` from a total that no combination meets
exactly ends in a panic; only the smallest size has to leave room for the
sentinel. -/
theorem walkPacks_inexact_wraps {sizes : List Nat} {target maxPossible s : Nat}
    {dp pu : List Nat}
    (inv : TableInv sizes target maxPossible target dp pu) (hpos : ∀ c ∈ sizes, 1 ≤ c)
    (hs : s ∈ sizes) (hfit : target + s + 1 < wordSize) :
    ∀ fuel j pc, 1 ≤ j → j ≤ target → ¬ Reach sizes j → j ≤ fuel →
    walkPacks pu sizes fuel j pc = Run.panic := by
  intro fuel
  induction fuel with
  | zero => intro j pc h1 _ _ h; omega
  | succ fuel ih =>
    intro j pc h1 hj hr hfuel
    rw [walkPacks_step]
    obtain ⟨u, hu, hus⟩ := inv.used_mem h1 hj
    have hu1 := hpos u hus
    rw [if_neg (by omega), readAt_of_getElem? hu, Run.done_bind]
    by_cases huj : u ≤ j
    · have hsub : sub64 j u = j - u := sub64_of_le huj (by omega)
      have hrem : ¬ Reach sizes (j - u) := by
        intro h
        apply hr
        have := h.add hus
        rwa [Nat.sub_add_cancel huj] at this
      have hz : j - u ≠ 0 := by
        intro h; apply hrem; rw [h]; exact Reach.zero sizes
      obtain ⟨u', hu', hus'⟩ := inv.used_mem (j := j - u) (by omega) (by omega)
      have hne : u' ≠ 0 := by have := hpos u' hus'; omega
      rw [hsub, if_neg hz, readAt_of_getElem? hu', Run.done_bind, if_neg hne]
      exact ih (j - u) _ (by omega) (by omega) hrem (by omega)
    · have hlt := inv.oversized_lt hs (hpos s hs) h1 hj hu (by omega)
      have hsub : sub64 j u = wordSize + j - u := sub64_of_gt (by omega) (by omega)
      have hz : wordSize + j - u ≠ 0 := by omega
      have hout : pu.length ≤ wordSize + j - u := by rw [inv.len_pu]; omega
      rw [hsub, if_neg hz, readAt_of_length_le hout, Run.panic_bind]

/-- The largest-first sequence of a total is unique. -/
theorem LargestFirst.unique {sizes : List Nat} {j : Nat} {p q : List Nat}
    (hp : LargestFirst sizes j p) : LargestFirst sizes j q → p = q := by
  induction hp generalizing q with
  | stop =>
    intro hq
    cases hq with
    | stop => rfl
    | pick h1 _ _ _ _ => omega
  | @pick j u a b picks h1 hab huj hfirst hrest ih =>
    intro hq
    cases hq with
    | stop => omega
    | @pick _ u' a' b' picks' h1' hab' huj' hfirst' hrest' =>
      have hP : u ≤ j ∧ Reach sizes (j - u) := ⟨huj, ⟨picks, hrest.mem, hrest.sum_eq⟩⟩
      have hP' : u' ≤ j ∧ Reach sizes (j - u') := ⟨huj', ⟨picks', hrest'.mem, hrest'.sum_eq⟩⟩
      have huu : u = u' := by
        have heq : a ++ u :: b = a' ++ u' :: b' := by rw [← hab, ← hab']
        rcases List.append_eq_append_iff.mp heq with ⟨m, hm, hmb⟩ | ⟨m, hm, hmb⟩
        · cases m with
          | nil => simp at hmb; exact hmb.1
          | cons x rest =>
            simp at hmb
            have : u ∈ a' := by rw [hm, hmb.1]; simp
            exact absurd hP (hfirst' u this)
        · cases m with
          | nil => simp at hmb; exact hmb.1.symm
          | cons x rest =>
            simp at hmb
            have : u' ∈ a := by rw [hm, hmb.1]; simp
            exact absurd hP' (hfirst u' this)
      subst huu
      rw [ih hrest']

/-! ## Orders inside the bounded table: the hybrid solver -/

/-- On valid input whose order no combination meets exactly, `CalculatePacks`
panics once the fuel covers the walk; only the smallest size has to leave room
for the sentinel `order + smallest + 1`. -/
theorem CalculatePacks_inexact_panic {itemsOrdered : Nat} {availablePackSizes : List Nat}
    (h1 : 1 ≤ itemsOrdered) (h2 : availablePackSizes ≠ [])
    (hpos : ∀ p ∈ availablePackSizes, 1 ≤ p)
    (hfit : ∀ s ∈ availablePackSizes, (∀ p ∈ availablePackSizes, s ≤ p) →
      itemsOrdered + s + 1 < wordSize)
    (hno : ¬ Reach availablePackSizes itemsOrdered) (fuel : Nat) (hfuel : itemsOrdered ≤ fuel) :
    CalculatePacks fuel itemsOrdered availablePackSizes = Run.panic := by
  have h0 : ¬ itemsOrdered ≤ 0 := by omega
  have hl : ¬ availablePackSizes.length = 0 := by
    simpa [List.length_eq_zero] using h2
  have hmem : ∀ x, x ∈ sortSliceDesc availablePackSizes ↔ x ∈ availablePackSizes :=
    fun x => mem_sortSliceDesc
  have hposS : ∀ c ∈ sortSliceDesc availablePackSizes, 1 ≤ c :=
    fun c hc => hpos c ((hmem c).mp hc)
  obtain ⟨s, hlast, hs, hmin⟩ := sortSliceDesc_getLast? h2
  have hfs := hfit s hs hmin
  have hsS : s ∈ sortSliceDesc availablePackSizes := (hmem s).mpr hs
  obtain ⟨dp, pu, hbuild, inv⟩ :=
    @buildTables_inv (sortSliceDesc availablePackSizes) itemsOrdered s hposS hsS hfs
  have hM : add64 (add64 itemsOrdered s) 1 = itemsOrdered + s + 1 := by
    rw [add64_of_lt (a := itemsOrdered) (b := s) (by omega), add64_of_lt (by omega)]
  obtain ⟨v, hv, -, -, hvlt, -⟩ := inv.val_lt hsS (hposS s hsS) (j := itemsOrdered) (le_refl _)
  have hvne : v ≠ add64 (add64 itemsOrdered s) 1 := by rw [hM]; omega
  have hwalk := walkPacks_inexact_wraps inv hposS hsS hfs fuel itemsOrdered [] h1 (le_refl _)
    (fun h => hno (h.congr hmem)) hfuel
  unfold CalculatePacks
  simp only [h0, hl, if_false]
  unfold findMinimumItems
  rw [hlast]
  simp only [hbuild, Run.done_bind]
  unfold chooseStart
  rw [readAt_of_getElem? hv, Run.done_bind, if_neg hvne, Run.pure_eq, Run.done_bind]
  unfold reconstruct
  simp only [hwalk, Run.panic_bind]

/-- What `CalculatePacksOptimized` does with an order inside its bounded table
(order at most 10 x smallest size, with 20 x smallest below 2^64): the greedy
phase is skipped and the state handed to the second phase is the empty map
with the whole order; the second phase fills its tables, keeps
`bestTarget = order`, and walks from the order. -/
theorem CalculatePacksOptimized_window {itemsOrdered s : Nat} {availablePackSizes : List Nat}
    (h1 : 1 ≤ itemsOrdered) (hs : s ∈ availablePackSizes)
    (hmin : ∀ p ∈ availablePackSizes, s ≤ p) (hpos : 1 ≤ s)
    (hle : itemsOrdered ≤ 10 * s) (hfit : 20 * s < wordSize) (fuel : Nat) :
    ∃ dp pc, TableInv (sortSliceDesc availablePackSizes) (10 * s) (10 * s + s + 1) (10 * s) dp pc ∧
      CalculatePacksOptimized fuel itemsOrdered availablePackSizes =
        (walkChoices pc fuel itemsOrdered [] >>= fun packCounts =>
          pure ⟨{ PackCounts := packCounts
                  TotalPacks := packCounts.totalPacks
                  TotalItems := packCounts.totalItems
                  ExcessItems := sub64 packCounts.totalItems itemsOrdered }, none,
                sortSliceDesc availablePackSizes⟩) := by
  have h2 : availablePackSizes ≠ [] := List.ne_nil_of_mem hs
  have h0 : ¬ itemsOrdered ≤ 0 := by omega
  have hl : ¬ availablePackSizes.length = 0 := by
    simpa [List.length_eq_zero] using h2
  have hmem : ∀ x, x ∈ sortSliceDesc availablePackSizes ↔ x ∈ availablePackSizes :=
    fun x => mem_sortSliceDesc
  have hposS : ∀ c ∈ sortSliceDesc availablePackSizes, 1 ≤ c :=
    fun c hc => le_trans hpos (hmin c ((hmem c).mp hc))
  obtain ⟨s', hlast, hs', hmin'⟩ := sortSliceDesc_getLast? h2
  have hss : s' = s := Nat.le_antisymm (hmin' s hs) (hmin s' hs')
  subst hss
  have hsS : s' ∈ sortSliceDesc availablePackSizes := (hmem s').mpr hs
  have hlim : mul64 s' 10 = 10 * s' := by
    unfold mul64; rw [Nat.mod_eq_of_lt (by omega)]; omega
  obtain ⟨dp, pc, hfill, inv⟩ := @fillWindow_inv (sortSliceDesc availablePackSizes) (10 * s') s'
    (10 * s' + s' + 1) hposS hsS (by omega) (by omega)
  refine ⟨dp, pc, inv, ?_⟩
  unfold CalculatePacksOptimized
  simp only [h0, hl, if_false]
  rw [hlast]
  simp only [hlim]
  unfold greedyOrSkip
  rw [if_neg (by omega), Run.pure_eq, Run.done_bind]
  unfold windowPhase
  simp only [show 0 < itemsOrdered by omega, if_true, hfill, Run.done_bind,
    findBestTarget_eq inv hle]

/-- An exactly reachable order inside the bounded table: `CalculatePacksOptimized`
returns the largest-first packs, the order as total and no excess. -/
theorem CalculatePacksOptimized_window_exact {itemsOrdered s : Nat}
    {availablePackSizes : List Nat}
    (h1 : 1 ≤ itemsOrdered) (hs : s ∈ availablePackSizes)
    (hmin : ∀ p ∈ availablePackSizes, s ≤ p) (hpos : 1 ≤ s)
    (hle : itemsOrdered ≤ 10 * s) (hfit : 20 * s < wordSize)
    (hr : Reach availablePackSizes itemsOrdered) (fuel : Nat) (hfuel : itemsOrdered < fuel) :
    ∃ picks, LargestFirst (sortSliceDesc availablePackSizes) itemsOrdered picks ∧
      CalculatePacksOptimized fuel itemsOrdered availablePackSizes =
        Run.done ⟨{ PackCounts := picks.foldl PackMap.incr []
                    TotalPacks := (picks.foldl PackMap.incr []).totalPacks
                    TotalItems := itemsOrdered
                    ExcessItems := 0 }, none, sortSliceDesc availablePackSizes⟩ := by
  have hmem : ∀ x, x ∈ sortSliceDesc availablePackSizes ↔ x ∈ availablePackSizes :=
    fun x => mem_sortSliceDesc
  have hposS : ∀ c ∈ sortSliceDesc availablePackSizes, 1 ≤ c :=
    fun c hc => le_trans hpos (hmin c ((hmem c).mp hc))
  obtain ⟨dp, pc, inv, hrun⟩ := CalculatePacksOptimized_window h1 hs hmin hpos hle hfit fuel
  obtain ⟨picks, hwalk, hlf⟩ := walkChoices_exact inv hposS (by omega) fuel itemsOrdered []
    hle (hr.congr (fun x => (hmem x).symm)) hfuel
  have hW : itemsOrdered < wordSize := by omega
  have htotal : (picks.foldl PackMap.incr []).totalItems = itemsOrdered := by
    rw [PackMap.totalItems_foldl_incr, hlf.sum_eq]
    simp [PackMap.totalItems, Nat.mod_eq_of_lt hW]
  refine ⟨picks, hlf, ?_⟩
  rw [hrun, hwalk]
  simp only [Run.done_bind, Run.pure_eq, htotal, sub64_of_le (le_refl itemsOrdered) hW,
    Nat.sub_self]

/-- An order inside the bounded table that no combination meets exactly:
`CalculatePacksOptimized` panics once the fuel covers the walk. -/
theorem CalculatePacksOptimized_window_inexact {itemsOrdered s : Nat}
    {availablePackSizes : List Nat}
    (h1 : 1 ≤ itemsOrdered) (hs : s ∈ availablePackSizes)
    (hmin : ∀ p ∈ availablePackSizes, s ≤ p) (hpos : 1 ≤ s)
    (hle : itemsOrdered ≤ 10 * s) (hfit : 20 * s < wordSize)
    (hno : ¬ Reach availablePackSizes itemsOrdered) (fuel : Nat) (hfuel : itemsOrdered < fuel) :
    CalculatePacksOptimized fuel itemsOrdered availablePackSizes = Run.panic := by
  have hmem : ∀ x, x ∈ sortSliceDesc availablePackSizes ↔ x ∈ availablePackSizes :=
    fun x => mem_sortSliceDesc
  have hposS : ∀ c ∈ sortSliceDesc availablePackSizes, 1 ≤ c :=
    fun c hc => le_trans hpos (hmin c ((hmem c).mp hc))
  obtain ⟨dp, pc, inv, hrun⟩ := CalculatePacksOptimized_window h1 hs hmin hpos hle hfit fuel
  have hwalk := walkChoices_inexact_panic inv hposS ((hmem s).mpr hs) (by omega) fuel
    itemsOrdered [] h1 hle (fun h => hno (h.congr hmem)) hfuel
  rw [hrun, hwalk, Run.panic_bind]

/-! ## While the sentinel does not wrap -/

/-- With the pack sizes in descending order, all at least 1, and
target + smallest + 1 below 2^64, the tables of `findMinimumItems` are built
without a panic, and for every index `1 <= i <= target` the recorded
`packUsed[i]` is an available size whose candidate equals the final `dp[i]`
and is the largest such size: every size whose candidate (`dp[i-size] + size`
when `size <= i`, the size itself otherwise, which is also what the machine
addition yields) equals `dp[i]` is at most `packUsed[i]`. -/
theorem buildTables_largest_minimiser (target : Nat) (packSizes : List Nat)
    (smallestPack : Nat)
    (hsorted : packSizes.Pairwise (fun a b => b ≤ a))
    (hlast : packSizes.getLast? = some smallestPack)
    (hpos : ∀ c ∈ packSizes, 1 ≤ c)
    (hfit : target + smallestPack + 1 < wordSize) :
    ∃ dp packUsed,
      buildTables target (add64 (add64 target smallestPack) 1) packSizes
        = Run.done (dp, packUsed) ∧
      ∀ i, 1 ≤ i → i ≤ target →
        ∃ v u, dp[i]? = some v ∧ packUsed[i]? = some u ∧ u ∈ packSizes ∧
          cand dp i u = v ∧
          (∀ c ∈ packSizes, cand dp i c = v → c ≤ u) ∧
          (∀ c ∈ packSizes, c ≤ i → ∃ w, dp[i - c]? = some w ∧ cand dp i c = add64 w c) := by
  have hs : smallestPack ∈ packSizes := by
    obtain ⟨ys, hys⟩ := List.getLast?_eq_some_iff.mp hlast
    rw [hys]; simp
  obtain ⟨dp, pu, hbuild, inv⟩ := @buildTables_inv packSizes target smallestPack hpos hs hfit
  refine ⟨dp, pu, hbuild, ?_⟩
  intro i hi1 hit
  obtain ⟨v, u, a, b, hv, hu, hab, hcand, hfirst⟩ := inv.use i hi1 hit
  refine ⟨v, u, hv, hu, by rw [hab]; simp, hcand, ?_, ?_⟩
  · intro c hc hcv
    by_contra hlt
    have hca : c ∈ a := mem_before_of_sorted (hab ▸ hsorted) (hab ▸ hc) (by omega)
    have := hfirst c hca
    omega
  · intro c hc hci
    have hc1 := hpos c hc
    obtain ⟨w, hw, -, -, hlt, -⟩ :=
      inv.val_lt hs (hpos smallestPack hs) (j := i - c) (by omega)
    exact ⟨w, hw, by rw [cand_of_le hci hw, add64_of_lt (by omega)]⟩

/-- With pack sizes all at least 1, the last one being `smallestPack`, and the
sentinel target + smallestPack + 1 below 2^64, the tables of
`findMinimumItems` are built without a panic, and every index
`1 <= i <= target` has `dp[i]` strictly below the sentinel and `packUsed[i]`
equal to an available size.  Then the test `dp[target] == maxPossible` fails
and the reconstruction starts at `target`; no read `packUsed[current]` with
`current > 0` yields 0, so the condition of the guard at line 241 never holds
and the walk is the same whatever the loop inside the guard would search. -/
theorem buildTables_no_sentinel (target : Nat) (packSizes : List Nat) (smallestPack : Nat)
    (hlast : packSizes.getLast? = some smallestPack)
    (hpos : ∀ c ∈ packSizes, 1 ≤ c)
    (hfit : target + smallestPack + 1 < wordSize) :
    ∃ dp packUsed,
      buildTables target (add64 (add64 target smallestPack) 1) packSizes
        = Run.done (dp, packUsed) ∧
      (∀ i, 1 ≤ i → i ≤ target →
        ∃ v u, dp[i]? = some v ∧ v < add64 (add64 target smallestPack) 1 ∧
          packUsed[i]? = some u ∧ u ∈ packSizes) ∧
      (∀ fuel, chooseStart fuel target smallestPack (add64 (add64 target smallestPack) 1) dp
        = Run.done (Scan.found target)) ∧
      (∀ current, 1 ≤ current → readAt packUsed current ≠ Run.done 0) ∧
      (∀ other fuel current packCounts,
        walkPacks packUsed other fuel current packCounts
          = walkPacks packUsed packSizes fuel current packCounts) := by
  have hs : smallestPack ∈ packSizes := by
    obtain ⟨ys, hys⟩ := List.getLast?_eq_some_iff.mp hlast
    rw [hys]; simp
  obtain ⟨dp, pu, hbuild, inv⟩ := @buildTables_inv packSizes target smallestPack hpos hs hfit
  have hM : add64 (add64 target smallestPack) 1 = target + smallestPack + 1 := by
    rw [add64_of_lt (a := target) (b := smallestPack) (by omega), add64_of_lt (by omega)]
  have hread : ∀ current, 1 ≤ current → readAt pu current ≠ Run.done 0 := by
    intro current hc
    by_cases hin : current ≤ target
    · obtain ⟨u, hu, hus⟩ := inv.used_mem hc hin
      have := hpos u hus
      rw [readAt_of_getElem? hu]
      intro h
      have := Run.done.inj h
      omega
    · rw [readAt_of_length_le (by rw [inv.len_pu]; omega)]
      intro h; cases h
  refine ⟨dp, pu, hbuild, ?_, ?_, hread, ?_⟩
  · intro i hi1 hit
    obtain ⟨v, hv, -, -, hlt, -⟩ := inv.val_lt hs (hpos smallestPack hs) (j := i) hit
    obtain ⟨u, hu, hus⟩ := inv.used_mem hi1 hit
    exact ⟨v, u, hv, by rw [hM]; omega, hu, hus⟩
  · intro fuel
    obtain ⟨v, hv, -, -, hlt, -⟩ :=
      inv.val_lt hs (hpos smallestPack hs) (j := target) (le_refl _)
    have hne : v ≠ add64 (add64 target smallestPack) 1 := by rw [hM]; omega
    unfold chooseStart
    rw [readAt_of_getElem? hv, Run.done_bind, if_neg hne, Run.pure_eq]
  · intro other fuel
    induction fuel with
    | zero => intro current packCounts; rfl
    | succ fuel ih =>
      intro current packCounts
      rw [walkPacks_step, walkPacks_step]
      by_cases h0 : current = 0
      · rw [if_pos h0, if_pos h0]
      · rw [if_neg h0, if_neg h0]
        cases hp : readAt pu current with
        | panic => rfl
        | outOfFuel => rfl
        | done pack =>
          simp only [Run.done_bind]
          by_cases hz : sub64 current pack = 0
          · rw [if_pos hz, if_pos hz]; exact ih _ _
          · rw [if_neg hz, if_neg hz]
            cases hn : readAt pu (sub64 current pack) with
            | panic => rfl
            | outOfFuel => rfl
            | done next =>
              have hnz : next ≠ 0 := by
                intro h
                exact hread (sub64 current pack) (Nat.one_le_iff_ne_zero.mpr hz) (by rw [hn, h])
              simp only [Run.done_bind, if_neg hnz]
              exact ih _ _

/-- For pack sizes all at least 1 with smallest size `smallestPack`, an order
with 1 <= order <= 10 x smallestPack, and 20 x smallestPack below 2^64, the
greedy phase of `CalculatePacksOptimized` leaves the map empty and the whole
order to the second phase, and for every amount of fuel above the order
`CalculatePacksOptimized` and `CalculatePacks` have the same outcome: when
some combination meets the order exactly both return the same `PackResult`
(total = order, no excess), otherwise both panic. -/
theorem CalculatePacksOptimized_window_agrees (fuel itemsOrdered smallestPack : Nat)
    (availablePackSizes : List Nat)
    (h1 : 1 ≤ itemsOrdered)
    (hs : smallestPack ∈ availablePackSizes)
    (hmin : ∀ p ∈ availablePackSizes, smallestPack ≤ p)
    (hpos : ∀ p ∈ availablePackSizes, 1 ≤ p)
    (hle : itemsOrdered ≤ 10 * smallestPack) (hfit : 20 * smallestPack < wordSize)
    (hfuel : itemsOrdered < fuel) :
    (sortSliceDesc availablePackSizes).getLast? = some smallestPack ∧
    greedyOrSkip (mul64 smallestPack 10) itemsOrdered (sortSliceDesc availablePackSizes)
      = Run.done ([], itemsOrdered) ∧
    CalculatePacksOptimized fuel itemsOrdered availablePackSizes
      = CalculatePacks fuel itemsOrdered availablePackSizes ∧
    ((∃ combo, IsCombination availablePackSizes combo ∧ combo.sum = itemsOrdered) →
      ∃ r, CalculatePacksOptimized fuel itemsOrdered availablePackSizes = Run.done r ∧
        CalculatePacks fuel itemsOrdered availablePackSizes = Run.done r ∧
        r.err = none ∧ r.result.TotalItems = itemsOrdered ∧ r.result.ExcessItems = 0) ∧
    ((¬ ∃ combo, IsCombination availablePackSizes combo ∧ combo.sum = itemsOrdered) →
      CalculatePacksOptimized fuel itemsOrdered availablePackSizes = Run.panic ∧
      CalculatePacks fuel itemsOrdered availablePackSizes = Run.panic) := by
  have h2 : availablePackSizes ≠ [] := List.ne_nil_of_mem hs
  have hs1 : 1 ≤ smallestPack := hpos _ hs
  have hfitE : ∀ s ∈ availablePackSizes, (∀ p ∈ availablePackSizes, s ≤ p) →
      itemsOrdered + s + 1 < wordSize := by
    intro s _ hsmin
    have := hsmin smallestPack hs
    omega
  have hlast : (sortSliceDesc availablePackSizes).getLast? = some smallestPack := by
    obtain ⟨s', hlast, hs', hmin'⟩ := sortSliceDesc_getLast? h2
    have hss : s' = smallestPack := Nat.le_antisymm (hmin' _ hs) (hmin s' hs')
    rw [hlast, hss]
  have hgreedy : greedyOrSkip (mul64 smallestPack 10) itemsOrdered
      (sortSliceDesc availablePackSizes) = Run.done ([], itemsOrdered) := by
    have hlim : mul64 smallestPack 10 = 10 * smallestPack := by
      unfold mul64; rw [Nat.mod_eq_of_lt (by omega)]; omega
    unfold greedyOrSkip
    rw [hlim, if_neg (by omega)]
    rfl
  have hexact : Reach availablePackSizes itemsOrdered →
      ∃ r, CalculatePacksOptimized fuel itemsOrdered availablePackSizes = Run.done r ∧
        CalculatePacks fuel itemsOrdered availablePackSizes = Run.done r ∧
        r.err = none ∧ r.result.TotalItems = itemsOrdered ∧ r.result.ExcessItems = 0 := by
    intro hr
    obtain ⟨picks, hlf, hrun⟩ := CalculatePacks_exact h1 h2 hpos hfitE hr fuel hfuel
    obtain ⟨picks', hlf', hrun'⟩ :=
      CalculatePacksOptimized_window_exact h1 hs hmin hs1 hle hfit hr fuel hfuel
    have hpp : picks' = picks := hlf'.unique hlf
    subst hpp
    exact ⟨_, hrun', hrun, rfl, rfl, rfl⟩
  have hinexact : ¬ Reach availablePackSizes itemsOrdered →
      CalculatePacksOptimized fuel itemsOrdered availablePackSizes = Run.panic ∧
      CalculatePacks fuel itemsOrdered availablePackSizes = Run.panic :=
    fun hno =>
      ⟨CalculatePacksOptimized_window_inexact h1 hs hmin hs1 hle hfit hno fuel hfuel,
        CalculatePacks_inexact_panic h1 h2 hpos hfitE hno fuel (by omega)⟩
  refine ⟨hlast, hgreedy, ?_, hexact, hinexact⟩
  by_cases hr : Reach availablePackSizes itemsOrdered
  · obtain ⟨r, ho, he, -⟩ := hexact hr
    rw [ho, he]
  · obtain ⟨ho, he⟩ := hinexact hr
    rw [ho, he]

/-! ## A reconstruction that does not advance -/

/-- A walk over a table of zeros never moves: from `current = 3` it reads the
choice 0, subtracts 0 and stays at 3, so it returns for no amount of fuel. -/
theorem walkChoices_zero_table_stalls :
    ∀ (fuel : Nat) (packCounts : PackMap),
    walkChoices [0, 0, 0, 0, 0] fuel 3 packCounts = Run.outOfFuel := by
  intro fuel
  induction fuel with
  | zero => intro packCounts; rfl
  | succ fuel ih =>
    intro packCounts
    rw [walkChoices_step, if_neg (by decide)]
    have hread : readAt [0, 0, 0, 0, 0] 3 = Run.done 0 := by decide
    have hsub : sub64 3 0 = 3 := by decide
    rw [hread, Run.done_bind, hsub]
    exact ih _

/-! ## Claim C1 -/

/-- C1: at order 1 with the standard pack sizes (the test "Order 1 item",
which expects one pack of 250) `OptimalCalculatePacks` stops with a run-time
panic for every positive amount of fuel, and returns for none. -/
theorem C1_order_one_standard_sizes_panics (fuel : Nat) :
    OptimalCalculatePacks (fuel + 1) 1 standardPackSizes = Run.panic ∧
    ∀ r, OptimalCalculatePacks fuel 1 standardPackSizes ≠ Run.done r := by
  have base : OptimalCalculatePacks 1 1 standardPackSizes = Run.panic := by decide
  exact ⟨(OptimalCalculatePacks_settled 1 standardPackSizes).panic_of_panic base (by omega),
    fun r => (OptimalCalculatePacks_settled 1 standardPackSizes).never_done_of_panic base fuel r⟩

/-! ## Claim C2 -/

/-- C2: at order 251 with the standard pack sizes (the test "Order 251
items") the least total that meets the order is 500, one pack of 500, yet
`CalculatePacks` returns no total: it panics once the fuel covers the walk and
returns for no amount of fuel. -/
theorem C2_exact_solver_order_251_panics (fuel : Nat) :
    (IsCombination standardPackSizes [500] ∧ [500].sum = 500 ∧
      ∀ combo, IsCombination standardPackSizes combo → 251 ≤ combo.sum → 500 ≤ combo.sum) ∧
    CalculatePacks (fuel + 251) 251 standardPackSizes = Run.panic ∧
    ∀ r, CalculatePacks fuel 251 standardPackSizes ≠ Run.done r := by
  obtain ⟨hne, hpos, hfit⟩ := standard_valid 251 (by omega)
  have hno : ¬ Reach standardPackSizes 251 := standard_not_reach (by omega)
  refine ⟨⟨by decide, by decide, ?_⟩,
    (CalculatePacks_inexact (by omega) hne hpos hfit hno (fuel + 251)).1 (by omega),
    (CalculatePacks_inexact (by omega) hne hpos hfit hno fuel).2⟩
  intro combo hc hsum
  have := standard_sum_dvd hc
  omega

/-! ## Claim C3 -/

/-- C3: at order 501 with the standard pack sizes (the scenario "order=501",
whose smallest shippable total is 750) `OptimalCalculatePacks` returns no
total: the selector sends the order to `CalculatePacks`, which panics. -/
theorem C3_optimal_order_501_panics (fuel : Nat) :
    (IsCombination standardPackSizes [500, 250] ∧ [500, 250].sum = 750 ∧
      ∀ combo, IsCombination standardPackSizes combo → 501 ≤ combo.sum → 750 ≤ combo.sum) ∧
    OptimalCalculatePacks (fuel + 501) 501 standardPackSizes = Run.panic ∧
    ∀ r, OptimalCalculatePacks fuel 501 standardPackSizes ≠ Run.done r := by
  obtain ⟨hne, hpos, hfit⟩ := standard_valid 501 (by omega)
  have hno : ¬ Reach standardPackSizes 501 := standard_not_reach (by omega)
  have hsel : ∀ n, OptimalCalculatePacks n 501 standardPackSizes
      = CalculatePacks n 501 standardPackSizes :=
    fun n => OptimalCalculatePacks_of_le_1000 n (by omega)
  rw [hsel]
  refine ⟨⟨by decide, by decide, ?_⟩,
    (CalculatePacks_inexact (by omega) hne hpos hfit hno (fuel + 501)).1 (by omega),
    fun r => by rw [hsel]; exact (CalculatePacks_inexact (by omega) hne hpos hfit hno fuel).2 r⟩
  intro combo hc hsum
  have := standard_sum_dvd hc
  omega

/-! ## Claim C4 -/

/-- C4 as stated fails: at order 6 with the sizes 4, 3, 1 `CalculatePacks`
returns 6 items in 3 packs (one of 4, two of 1), while two packs of 3 also
total 6. -/
theorem C4_fewest_packs_fails :
    CalculatePacks 4 6 [4, 3, 1] =
      Run.done ⟨{ PackCounts := [(4, 1), (1, 2)], TotalPacks := 3, TotalItems := 6,
                  ExcessItems := 0 }, none, [4, 3, 1]⟩ ∧
    IsCombination [4, 3, 1] [3, 3] ∧ [3, 3].sum = 6 ∧ [3, 3].length < 3 := by
  decide

/-- C4, amended: ties on total items are broken by preferring larger packs,
not by the fewest packs.  For every order at least 1 and every non-empty list
of pack sizes all at least 1 (with order + size + 1 below 2^64), whenever
`CalculatePacks` returns, its `PackCounts` is the greatest among the
combinations of the same total when counts are compared from the largest size
down: a combination whose total equals the returned `TotalItems` and that
holds as many packs as `PackCounts` of every size above `c` holds at most as
many packs of size `c`. -/
theorem C4_ties_prefer_larger_sizes (fuel itemsOrdered : Nat) (availablePackSizes : List Nat)
    (r : Returned) (combo : List Nat) (c : Nat)
    (h1 : 1 ≤ itemsOrdered) (h2 : availablePackSizes ≠ [])
    (hpos : ∀ p ∈ availablePackSizes, 1 ≤ p)
    (hfit : ∀ p ∈ availablePackSizes, itemsOrdered + p + 1 < wordSize)
    (hret : CalculatePacks fuel itemsOrdered availablePackSizes = Run.done r)
    (hc : c ∈ availablePackSizes)
    (hcombo : IsCombination availablePackSizes combo)
    (hsum : combo.sum = r.result.TotalItems)
    (hsame : ∀ p ∈ availablePackSizes, c < p → combo.count p = r.result.PackCounts.get p) :
    combo.count c ≤ r.result.PackCounts.get c := by
  obtain ⟨-, picks, hlf, hpc, -, htotal, -, -, -⟩ :=
    CalculatePacks_returns h1 h2 hpos hfit hret
  have hiff : ∀ x, x ∈ sortSliceDesc availablePackSizes ↔ x ∈ availablePackSizes :=
    fun x => mem_sortSliceDesc
  have hposS : ∀ p ∈ sortSliceDesc availablePackSizes, 1 ≤ p :=
    fun p hp => hpos p ((hiff p).mp hp)
  have hW : itemsOrdered < wordSize := by
    have := hfit c hc; omega
  have hlen := hlf.length_le hposS
  have hget : ∀ p, r.result.PackCounts.get p = picks.count p := by
    intro p
    have hcl : picks.count p ≤ picks.length := List.count_le_length _ _
    rw [hpc, PackMap.get_foldl_incr picks p [] (by simp [PackMap.get]; omega)]
    simp only [PackMap.get, Nat.zero_add]
  rw [hget c]
  exact hlf.count_lex (sortSliceDesc_sorted availablePackSizes) hposS ((hiff c).mpr hc) combo
    (hcombo.transfer (fun x => (hiff x).symm)) (by rw [hsum, htotal])
    (fun p hp hcp => by rw [← hget p]; exact hsame p ((hiff p).mp hp) hcp)

/-- Witness of the amended C4 at order 6 with the sizes 4, 3, 1 and `c = 1`:
the combination 4 + 1 + 1 agrees with the returned map on the sizes 4 and 3
and holds two packs of 1, as the returned map does. -/
theorem C4_ties_prefer_larger_sizes_witness :
    CalculatePacks 4 6 [4, 3, 1] =
      Run.done ⟨{ PackCounts := [(4, 1), (1, 2)], TotalPacks := 3, TotalItems := 6,
                  ExcessItems := 0 }, none, [4, 3, 1]⟩ ∧
    IsCombination [4, 3, 1] [4, 1, 1] ∧ [4, 1, 1].sum = 6 ∧
    (∀ p ∈ [4, 3, 1], 1 < p → [4, 1, 1].count p = PackMap.get [(4, 1), (1, 2)] p) ∧
    [4, 1, 1].count 1 ≤ PackMap.get [(4, 1), (1, 2)] 1 :=
  ⟨by decide, by decide, by decide, by decide,
    C4_ties_prefer_larger_sizes 4 6 [4, 3, 1]
      ⟨{ PackCounts := [(4, 1), (1, 2)], TotalPacks := 3, TotalItems := 6,
         ExcessItems := 0 }, none, [4, 3, 1]⟩ [4, 1, 1] 1
      (by decide) (by decide) (by decide)
      (by intro p hp; simp only [List.mem_cons, List.mem_singleton, List.not_mem_nil,
            or_false] at hp
          unfold wordSize
          rcases hp with rfl | rfl | rfl <;> decide)
      (by decide) (by decide) (by decide) (by decide) (by decide)⟩

/-! ## Claim C5 -/

/-- C5: at order 11 with the single pack size 1 `CalculatePacks` returns 11
items in 11 packs, while `CalculatePacksOptimized` returns nothing: the greedy
phase skips the only size, 11 exceeds the window of 10, and the read
`packChoice[11]` panics. -/
theorem C5_solvers_disagree_order_eleven (fuel : Nat) :
    CalculatePacks (fuel + 12) 11 [1] =
      Run.done ⟨{ PackCounts := [(1, 11)], TotalPacks := 11, TotalItems := 11,
                  ExcessItems := 0 }, none, [1]⟩ ∧
    CalculatePacksOptimized (fuel + 1) 11 [1] = Run.panic ∧
    ∀ r, CalculatePacksOptimized fuel 11 [1] ≠ Run.done r := by
  have b1 : CalculatePacks 12 11 [1] =
      Run.done ⟨{ PackCounts := [(1, 11)], TotalPacks := 11, TotalItems := 11,
                  ExcessItems := 0 }, none, [1]⟩ := by decide
  have b2 : CalculatePacksOptimized 1 11 [1] = Run.panic := by decide
  refine ⟨?_, (CalculatePacksOptimized_settled 11 [1]).panic_of_panic b2 (by omega),
    fun r => (CalculatePacksOptimized_settled 11 [1]).never_done_of_panic b2 fuel r⟩
  have h := (CalculatePacks_settled 11 [1]).le (Nat.le_add_left 12 fuel) (by rw [b1]; simp)
  rw [h, b1]

/-! ## Claim C6 -/

/-- C6: `CalculatePacksOptimized` stops with a run-time panic at order 12 with
the single size 5 (the walk 12, 7, 2 subtracts 5 from 2) and at order 999 with
the sizes 1000 and 1 (the remainder 999 lies outside the window of 10). -/
theorem C6_hybrid_solver_panics (fuel : Nat) :
    (CalculatePacksOptimized (fuel + 4) 12 [5] = Run.panic ∧
      ∀ r, CalculatePacksOptimized fuel 12 [5] ≠ Run.done r) ∧
    (CalculatePacksOptimized (fuel + 1) 999 [1000, 1] = Run.panic ∧
      ∀ r, CalculatePacksOptimized fuel 999 [1000, 1] ≠ Run.done r) := by
  have b1 : CalculatePacksOptimized 4 12 [5] = Run.panic := by decide
  have b2 : CalculatePacksOptimized 1 999 [1000, 1] = Run.panic := by decide
  exact ⟨⟨(CalculatePacksOptimized_settled 12 [5]).panic_of_panic b1 (by omega),
      fun r => (CalculatePacksOptimized_settled 12 [5]).never_done_of_panic b1 fuel r⟩,
    ⟨(CalculatePacksOptimized_settled 999 [1000, 1]).panic_of_panic b2 (by omega),
      fun r => (CalculatePacksOptimized_settled 999 [1000, 1]).never_done_of_panic b2 fuel r⟩⟩

/-! ## Claim C7 -/

/-- C7: `OptimalCalculatePacks` returns exactly what `CalculatePacks` returns
when the order is at most the threshold and exactly what
`CalculatePacksOptimized` returns otherwise; the threshold is 1000 for more
than 5 pack sizes and 2500 for 5 or fewer. -/
theorem C7_selector_dispatch (fuel itemsOrdered : Nat) (availablePackSizes : List Nat) :
    OptimalCalculatePacks fuel itemsOrdered availablePackSizes =
      if itemsOrdered ≤ (if availablePackSizes.length > 5 then 1000 else 2500) then
        CalculatePacks fuel itemsOrdered availablePackSizes
      else
        CalculatePacksOptimized fuel itemsOrdered availablePackSizes := by
  unfold OptimalCalculatePacks selectorThreshold
  rfl

/-! ## Claim C8 -/

/-- C8: for order 0 and any pack-size list each of the three functions
returns the "items ordered must be positive" error together with the zero
`PackResult`; no table is built and the caller's slice is untouched. -/
theorem C8_zero_order_is_error (fuel : Nat) (availablePackSizes : List Nat) :
    CalculatePacks fuel 0 availablePackSizes
        = Run.done ⟨PackResult.zero, some .itemsOrderedMustBePositive, availablePackSizes⟩ ∧
    CalculatePacksOptimized fuel 0 availablePackSizes
        = Run.done ⟨PackResult.zero, some .itemsOrderedMustBePositive, availablePackSizes⟩ ∧
    OptimalCalculatePacks fuel 0 availablePackSizes
        = Run.done ⟨PackResult.zero, some .itemsOrderedMustBePositive, availablePackSizes⟩ := by
  refine ⟨?_, ?_, ?_⟩
  · simp [CalculatePacks]
  · simp [CalculatePacksOptimized]
  · simp [OptimalCalculatePacks, CalculatePacks]

/-! ## Claim C9 -/

/-- C9: for every order at least 1 and the empty pack-size list each of the
three functions returns the "no pack sizes available" error together with the
zero `PackResult`; no element of the list is read. -/
theorem C9_empty_sizes_is_error (fuel itemsOrdered : Nat) (h : 1 ≤ itemsOrdered) :
    CalculatePacks fuel itemsOrdered []
        = Run.done ⟨PackResult.zero, some .noPackSizesAvailable, []⟩ ∧
    CalculatePacksOptimized fuel itemsOrdered []
        = Run.done ⟨PackResult.zero, some .noPackSizesAvailable, []⟩ ∧
    OptimalCalculatePacks fuel itemsOrdered []
        = Run.done ⟨PackResult.zero, some .noPackSizesAvailable, []⟩ := by
  have h0 : ¬ itemsOrdered ≤ 0 := by omega
  have hc : CalculatePacks fuel itemsOrdered []
      = Run.done ⟨PackResult.zero, some .noPackSizesAvailable, []⟩ := by
    simp [CalculatePacks, h0]
  have ho : CalculatePacksOptimized fuel itemsOrdered []
      = Run.done ⟨PackResult.zero, some .noPackSizesAvailable, []⟩ := by
    simp [CalculatePacksOptimized, h0]
  refine ⟨hc, ho, ?_⟩
  unfold OptimalCalculatePacks
  split
  · exact hc
  · exact ho

/-- Witness of C9 at order 100 (the test "No pack sizes available") and at
order 3000, which the selector sends to the hybrid solver. -/
theorem C9_empty_sizes_is_error_witness :
    (1 ≤ 100 ∧ CalculatePacks 0 100 []
        = Run.done ⟨PackResult.zero, some .noPackSizesAvailable, []⟩) ∧
    OptimalCalculatePacks 0 3000 []
        = Run.done ⟨PackResult.zero, some .noPackSizesAvailable, []⟩ :=
  ⟨⟨by decide, (C9_empty_sizes_is_error 0 100 (by decide)).1⟩,
    (C9_empty_sizes_is_error 0 3000 (by decide)).2.2⟩

/-! ## Claim C10 -/

/-- C10 as stated fails: the list `[5, 0]` contains a 0 entry, and at order 5
`CalculatePacks` reports no error and returns one pack of 5. -/
theorem C10_zero_size_accepted :
    0 ∈ [5, 0] ∧
    CalculatePacks 2 5 [5, 0] =
      Run.done ⟨{ PackCounts := [(5, 1)], TotalPacks := 1, TotalItems := 5,
                  ExcessItems := 0 }, none, [5, 0]⟩ := by
  decide

/-- C10, amended: for every order at least 1 and every non-empty pack-size
list, whether or not it contains a 0 entry, none of the three functions
returns an input error: whenever one of them returns, its error is nil. -/
theorem C10_sizes_are_not_validated (fuel itemsOrdered : Nat) (availablePackSizes : List Nat)
    (r : Returned) (h1 : 1 ≤ itemsOrdered) (h2 : availablePackSizes ≠ []) :
    (CalculatePacks fuel itemsOrdered availablePackSizes = Run.done r → r.err = none) ∧
    (CalculatePacksOptimized fuel itemsOrdered availablePackSizes = Run.done r
      → r.err = none) ∧
    (OptimalCalculatePacks fuel itemsOrdered availablePackSizes = Run.done r
      → r.err = none) := by
  refine ⟨CalculatePacks_err_none h1 h2, CalculatePacksOptimized_err_none h1 h2, ?_⟩
  unfold OptimalCalculatePacks
  split
  · exact CalculatePacks_err_none h1 h2
  · exact CalculatePacksOptimized_err_none h1 h2

/-- Witness of the amended C10 at order 5 with the sizes `[5, 0]`. -/
theorem C10_sizes_are_not_validated_witness :
    1 ≤ 5 ∧ [5, 0] ≠ [] ∧ 0 ∈ [5, 0] ∧
    OptimalCalculatePacks 2 5 [5, 0] =
      Run.done ⟨{ PackCounts := [(5, 1)], TotalPacks := 1, TotalItems := 5,
                  ExcessItems := 0 }, none, [5, 0]⟩ ∧
    (⟨{ PackCounts := [(5, 1)], TotalPacks := 1, TotalItems := 5,
        ExcessItems := 0 }, none, [5, 0]⟩ : Returned).err = none :=
  ⟨by decide, by decide, by decide, by decide,
    (C10_sizes_are_not_validated 2 5 [5, 0] _ (by decide) (by decide)).2.2 (by decide)⟩

/-! ## Claim C11 -/

/-- C11: at order 251 with the standard pack sizes the result the test "Order
251 items" expects, one pack of 500, has `TotalItems = 500 = 500 x 1` and
`TotalPacks = 1`; `OptimalCalculatePacks` returns no result whose totals could
be compared: it panics once the fuel covers the walk and returns for no
amount of fuel. -/
theorem C11_no_result_to_total_at_251 (fuel : Nat) :
    (PackMap.weight [(500, 1)] = 500 ∧ PackMap.packs [(500, 1)] = 1) ∧
    OptimalCalculatePacks (fuel + 251) 251 standardPackSizes = Run.panic ∧
    ∀ r, OptimalCalculatePacks fuel 251 standardPackSizes ≠ Run.done r := by
  obtain ⟨hne, hpos, hfit⟩ := standard_valid 251 (by omega)
  have hno : ¬ Reach standardPackSizes 251 := standard_not_reach (by omega)
  have hsel : ∀ n, OptimalCalculatePacks n 251 standardPackSizes
      = CalculatePacks n 251 standardPackSizes :=
    fun n => OptimalCalculatePacks_of_le_1000 n (by omega)
  rw [hsel]
  exact ⟨by decide,
    (CalculatePacks_inexact (by omega) hne hpos hfit hno (fuel + 251)).1 (by omega),
    fun r => by rw [hsel]; exact (CalculatePacks_inexact (by omega) hne hpos hfit hno fuel).2 r⟩

/-! ## Claim C12 -/

/-- C12: with the standard pack sizes `OptimalCalculatePacks` returns
`TotalItems = 750` for the order 750, but for the order 751, whose smallest
shippable total is 1000, it returns no total at all: it panics. -/
theorem C12_no_total_after_750 (fuel : Nat) :
    (∃ r, OptimalCalculatePacks (fuel + 751) 750 standardPackSizes = Run.done r ∧
      r.err = none ∧ r.result.TotalItems = 750) ∧
    (IsCombination standardPackSizes [1000] ∧ [1000].sum = 1000 ∧
      ∀ combo, IsCombination standardPackSizes combo → 751 ≤ combo.sum → 1000 ≤ combo.sum) ∧
    OptimalCalculatePacks (fuel + 751) 751 standardPackSizes = Run.panic ∧
    ∀ r, OptimalCalculatePacks fuel 751 standardPackSizes ≠ Run.done r := by
  obtain ⟨hne, hpos, hfit⟩ := standard_valid 751 (by omega)
  obtain ⟨-, -, hfit0⟩ := standard_valid 750 (by omega)
  have hno : ¬ Reach standardPackSizes 751 := standard_not_reach (by omega)
  have hyes : Reach standardPackSizes 750 := ⟨[500, 250], by decide, by decide⟩
  have hsel : ∀ n m, m ≤ 1000 → OptimalCalculatePacks n m standardPackSizes
      = CalculatePacks n m standardPackSizes :=
    fun n m hm => OptimalCalculatePacks_of_le_1000 n hm
  rw [hsel _ 750 (by omega), hsel _ 751 (by omega)]
  obtain ⟨picks, -, hrun⟩ := CalculatePacks_exact (by omega) hne hpos
    (fun s hs _ => hfit0 s hs) hyes (fuel + 751) (by omega)
  refine ⟨⟨_, hrun, rfl, rfl⟩, ⟨by decide, by decide, ?_⟩,
    (CalculatePacks_inexact (by omega) hne hpos hfit hno (fuel + 751)).1 (by omega),
    fun r => by
      rw [hsel _ 751 (by omega)]
      exact (CalculatePacks_inexact (by omega) hne hpos hfit hno fuel).2 r⟩
  intro combo hc hsum
  have := standard_sum_dvd hc
  omega

/-! ## Claim C13 -/

/-- C13: with the five sizes 13, 11, 7, 5, 3 the order 1002 = 76 x 13 + 11 + 3
goes to the exact solver, which returns 1002 items.  Adding the size 3 a
second time makes six sizes, so the selector sends the same order to the
hybrid solver: its greedy phase takes 77 packs of 13, leaves 1, and the
reconstruction panics.  The duplicate changes the outcome. -/
theorem C13_duplicate_changes_outcome (fuel : Nat) :
    3 ∈ [13, 11, 7, 5, 3] ∧
    (∃ r, OptimalCalculatePacks (fuel + 1003) 1002 [13, 11, 7, 5, 3] = Run.done r ∧
      r.err = none ∧ r.result.TotalItems = 1002 ∧ r.result.ExcessItems = 0) ∧
    OptimalCalculatePacks (fuel + 2) 1002 [13, 11, 7, 5, 3, 3] = Run.panic ∧
    ∀ r, OptimalCalculatePacks fuel 1002 [13, 11, 7, 5, 3, 3] ≠ Run.done r := by
  have hyes : Reach [13, 11, 7, 5, 3] 1002 :=
    ⟨List.replicate 76 13 ++ [11, 3], by decide, by decide⟩
  have hfit : ∀ s ∈ [13, 11, 7, 5, 3], (∀ p ∈ [13, 11, 7, 5, 3], s ≤ p) →
      1002 + s + 1 < wordSize := by
    intro s hs _
    simp only [List.mem_cons, List.mem_singleton, List.not_mem_nil, or_false] at hs
    unfold wordSize
    rcases hs with rfl | rfl | rfl | rfl | rfl <;> decide
  obtain ⟨picks, -, hrun⟩ := @CalculatePacks_exact 1002 [13, 11, 7, 5, 3] (by omega)
    (by decide) (by decide) hfit hyes (fuel + 1003) (by omega)
  have base : OptimalCalculatePacks 2 1002 [13, 11, 7, 5, 3, 3] = Run.panic := by decide
  rw [OptimalCalculatePacks_of_le_2500 (fuel + 1003) (by omega) (by decide)]
  exact ⟨by decide, ⟨_, hrun, rfl, rfl, rfl⟩,
    (OptimalCalculatePacks_settled 1002 _).panic_of_panic base (by omega),
    fun r => (OptimalCalculatePacks_settled 1002 _).never_done_of_panic base fuel r⟩

/-! ## Claim C14 -/

/-- C14: at order 999 with the standard pack sizes the smallest shippable
total is 1000, one pack of 1000, a map whose only key is an available size
with count 1; `OptimalCalculatePacks` returns no map at all: it panics once
the fuel covers the walk and returns for no amount of fuel. -/
theorem C14_no_map_at_999 (fuel : Nat) :
    (1000 ∈ standardPackSizes ∧
      ∀ combo, IsCombination standardPackSizes combo → 999 ≤ combo.sum → 1000 ≤ combo.sum) ∧
    OptimalCalculatePacks (fuel + 999) 999 standardPackSizes = Run.panic ∧
    ∀ r, OptimalCalculatePacks fuel 999 standardPackSizes ≠ Run.done r := by
  obtain ⟨hne, hpos, hfit⟩ := standard_valid 999 (by omega)
  have hno : ¬ Reach standardPackSizes 999 := standard_not_reach (by omega)
  have hsel : ∀ n, OptimalCalculatePacks n 999 standardPackSizes
      = CalculatePacks n 999 standardPackSizes :=
    fun n => OptimalCalculatePacks_of_le_1000 n (by omega)
  rw [hsel]
  refine ⟨⟨by decide, ?_⟩,
    (CalculatePacks_inexact (by omega) hne hpos hfit hno (fuel + 999)).1 (by omega),
    fun r => by rw [hsel]; exact (CalculatePacks_inexact (by omega) hne hpos hfit hno fuel).2 r⟩
  intro combo hc hsum
  have := standard_sum_dvd hc
  omega

/-! ## Claim C15 -/

/-- C15: for every non-empty list of pack sizes all at least 1 and every order
at least 1 that is exactly the total of some combination of the available
sizes, `CalculatePacks` returns (for every amount of fuel above the order) a
result without error whose `TotalItems` is the order and whose `ExcessItems`
is 0.  The smallest size is assumed to leave room for the sentinel:
order + smallest + 1 is below 2^64. -/
theorem C15_exact_orders_ship_without_excess (fuel itemsOrdered : Nat)
    (availablePackSizes : List Nat)
    (h1 : 1 ≤ itemsOrdered) (h2 : availablePackSizes ≠ [])
    (hpos : ∀ p ∈ availablePackSizes, 1 ≤ p)
    (hfit : ∀ s ∈ availablePackSizes, (∀ p ∈ availablePackSizes, s ≤ p) →
      itemsOrdered + s + 1 < wordSize)
    (hexact : ∃ combo, IsCombination availablePackSizes combo ∧ combo.sum = itemsOrdered)
    (hfuel : itemsOrdered < fuel) :
    ∃ r, CalculatePacks fuel itemsOrdered availablePackSizes = Run.done r ∧
      r.err = none ∧ r.result.TotalItems = itemsOrdered ∧ r.result.ExcessItems = 0 := by
  obtain ⟨picks, -, hrun⟩ := CalculatePacks_exact h1 h2 hpos hfit hexact fuel hfuel
  exact ⟨_, hrun, rfl, rfl, rfl⟩

/-- Witness of C15 at the test "Custom pack sizes": order 800 with the sizes
200, 400, 600, met exactly by 600 + 200. -/
theorem C15_exact_orders_ship_without_excess_witness :
    (IsCombination [200, 400, 600] [600, 200] ∧ [600, 200].sum = 800) ∧
    ∃ r, CalculatePacks 801 800 [200, 400, 600] = Run.done r ∧
      r.err = none ∧ r.result.TotalItems = 800 ∧ r.result.ExcessItems = 0 :=
  ⟨by decide,
    C15_exact_orders_ship_without_excess 801 800 [200, 400, 600]
      (by decide) (by decide) (by decide)
      (by intro s hs _
          simp only [List.mem_cons, List.mem_singleton, List.not_mem_nil, or_false] at hs
          unfold wordSize
          rcases hs with rfl | rfl | rfl <;> decide)
      ⟨[600, 200], by decide, by decide⟩ (by decide)⟩

/-! ## Claim C16 -/

/-- C16 as stated fails: called with the slice `[1, 2]` at order 2,
`CalculatePacks` returns one pack of 2 and leaves the caller's slice as
`[2, 1]`. -/
theorem C16_slice_is_reordered :
    CalculatePacks 3 2 [1, 2] =
      Run.done ⟨{ PackCounts := [(2, 1)], TotalPacks := 1, TotalItems := 2,
                  ExcessItems := 0 }, none, [2, 1]⟩ ∧
    [2, 1] ≠ [1, 2] := by
  decide

/-- C16, amended: `CalculatePacks`, `CalculatePacksOptimized` and
`OptimalCalculatePacks` sort the caller's slice in place.  After a call that
returns, the slice holds the same elements as before; it is untouched when the
call returns an input error, and it is in descending order when the call
returns a result. -/
theorem C16_slice_is_sorted_in_place (fuel itemsOrdered : Nat) (availablePackSizes : List Nat)
    (r : Returned)
    (h : CalculatePacks fuel itemsOrdered availablePackSizes = Run.done r ∨
      CalculatePacksOptimized fuel itemsOrdered availablePackSizes = Run.done r ∨
      OptimalCalculatePacks fuel itemsOrdered availablePackSizes = Run.done r) :
    r.packSizes.Perm availablePackSizes ∧
    (r.err ≠ none → r.packSizes = availablePackSizes) ∧
    (r.err = none → r.packSizes.Pairwise (fun a b => b ≤ a)) := by
  have hframe : (r.err ≠ none ∧ r.packSizes = availablePackSizes) ∨
      (r.err = none ∧ 1 ≤ itemsOrdered ∧ availablePackSizes ≠ [] ∧
        r.packSizes = sortSliceDesc availablePackSizes) := by
    rcases h with h | h | h
    · exact CalculatePacks_frame h
    · exact CalculatePacksOptimized_frame h
    · exact OptimalCalculatePacks_frame h
  rcases hframe with ⟨herr, hsame⟩ | ⟨herr, -, -, hsorted⟩
  · exact ⟨hsame ▸ List.Perm.refl _, fun _ => hsame, fun hn => absurd hn herr⟩
  · refine ⟨hsorted ▸ sortSliceDesc_perm _, fun hn => absurd herr hn, fun _ => ?_⟩
    rw [hsorted]
    exact sortSliceDesc_sorted _

/-- Witness of the amended C16 at order 2 with the slice `[1, 2]`. -/
theorem C16_slice_is_sorted_in_place_witness :
    CalculatePacks 3 2 [1, 2] =
      Run.done ⟨{ PackCounts := [(2, 1)], TotalPacks := 1, TotalItems := 2,
                  ExcessItems := 0 }, none, [2, 1]⟩ ∧
    [2, 1].Perm [1, 2] ∧ [2, 1].Pairwise (fun a b => b ≤ a) :=
  have h := C16_slice_is_sorted_in_place 3 2 [1, 2]
    ⟨{ PackCounts := [(2, 1)], TotalPacks := 1, TotalItems := 2, ExcessItems := 0 },
      none, [2, 1]⟩ (Or.inl (by decide))
  ⟨by decide, h.1, h.2.2 rfl⟩

/-! ## Claim C17 -/

/-- C17: `OptimalCalculatePacks` is a function of the order and the pack
sizes, so two calls with the same arguments yield the same outcome; and a
second call that receives the slice as the first call left it returns exactly
what the first call returned (error and `PackResult` alike).  More generally,
once the two input checks pass, the call on the sorted slice has the outcome
of the call on the slice itself, a panic included. -/
theorem C17_second_call_repeats_first (fuel itemsOrdered : Nat)
    (availablePackSizes : List Nat) :
    (∀ r, OptimalCalculatePacks fuel itemsOrdered availablePackSizes = Run.done r →
      OptimalCalculatePacks fuel itemsOrdered r.packSizes = Run.done r) ∧
    (1 ≤ itemsOrdered → availablePackSizes ≠ [] →
      OptimalCalculatePacks fuel itemsOrdered (sortSliceDesc availablePackSizes)
        = OptimalCalculatePacks fuel itemsOrdered availablePackSizes) := by
  refine ⟨fun r h => ?_, fun h1 h2 => OptimalCalculatePacks_sorted_input fuel h1 h2⟩
  rcases OptimalCalculatePacks_frame h with ⟨-, hsame⟩ | ⟨-, h1, h2, hsorted⟩
  · rw [hsame]; exact h
  · rw [hsorted, OptimalCalculatePacks_sorted_input fuel h1 h2]; exact h

/-- Witness of C17 at order 6 with the slice `[1, 3, 4]`: the first call
leaves `[4, 3, 1]`, and the call on `[4, 3, 1]` returns the same. -/
theorem C17_second_call_repeats_first_witness :
    OptimalCalculatePacks 4 6 [1, 3, 4] =
      Run.done ⟨{ PackCounts := [(4, 1), (1, 2)], TotalPacks := 3, TotalItems := 6,
                  ExcessItems := 0 }, none, [4, 3, 1]⟩ ∧
    OptimalCalculatePacks 4 6 [4, 3, 1] =
      Run.done ⟨{ PackCounts := [(4, 1), (1, 2)], TotalPacks := 3, TotalItems := 6,
                  ExcessItems := 0 }, none, [4, 3, 1]⟩ :=
  ⟨by decide, (C17_second_call_repeats_first 4 6 [1, 3, 4]).1
    ⟨{ PackCounts := [(4, 1), (1, 2)], TotalPacks := 3, TotalItems := 6, ExcessItems := 0 },
      none, [4, 3, 1]⟩ (by decide)⟩

/-! ## Claim C18 -/

/-- C18: at target 1 with the standard pack sizes (the test "Order 1 item")
the tables of `findMinimumItems` record the pack 250 for index 1; the walk
subtracts it from 1, the unsigned subtraction wraps to 2^64 - 249, and the
read of `packUsed` at that index, far outside `[0, 1]`, panics: the walk does
not end with `current = 0` and `findMinimumItems` returns nothing. -/
theorem C18_walk_leaves_the_table (fuel : Nat) :
    buildTables 1 (add64 (add64 1 250) 1) [5000, 2000, 1000, 500, 250]
      = Run.done ([0, 250], [0, 250]) ∧
    sub64 1 250 = 18446744073709551367 ∧
    readAt [0, 250] (sub64 1 250) = Run.panic ∧
    walkPacks [0, 250] [5000, 2000, 1000, 500, 250] (fuel + 1) 1 [] = Run.panic ∧
    findMinimumItems (fuel + 1) 1 [5000, 2000, 1000, 500, 250] = Run.panic ∧
    ∀ r, findMinimumItems fuel 1 [5000, 2000, 1000, 500, 250] ≠ Run.done r := by
  have bw : walkPacks [0, 250] [5000, 2000, 1000, 500, 250] 1 1 [] = Run.panic := by decide
  have bf : findMinimumItems 1 1 [5000, 2000, 1000, 500, 250] = Run.panic := by decide
  exact ⟨by decide, by decide, by decide,
    (walkPacks_settled _ _ 1 []).panic_of_panic bw (by omega),
    (findMinimumItems_settled 1 _).panic_of_panic bf (by omega),
    fun r => (findMinimumItems_settled 1 _).never_done_of_panic bf fuel r⟩

/-! ## Claim C19 -/

/-- C19: at order 50 with the sizes 100 and 1 the window is `dpLimit = 10`;
the greedy phase runs over the size 100 only, takes no pack, and leaves 50,
which exceeds the window.  The scan for `bestTarget` has nothing to scan and
keeps 50, and the read `packChoice[50]` on a table of length 11 panics, so
`CalculatePacksOptimized` returns nothing. -/
theorem C19_residual_exceeds_window (fuel : Nat) :
    mul64 1 10 = 10 ∧
    greedyOrSkip 10 50 [100, 1] = Run.done ([], 50) ∧
    fillWindow 10 [100, 1] (initWindow 10, List.replicate (add64 10 1) 0)
      = Run.done ([0, 1, 2, 3, 4, 5, 6, 7, 8, 9, 10], [0, 1, 1, 1, 1, 1, 1, 1, 1, 1, 1]) ∧
    findBestTarget [0, 1, 2, 3, 4, 5, 6, 7, 8, 9, 10] 50 10 = Run.done 50 ∧
    readAt [0, 1, 1, 1, 1, 1, 1, 1, 1, 1, 1] 50 = Run.panic ∧
    windowPhase (fuel + 1) 10 [100, 1] ([], 50) = Run.panic ∧
    CalculatePacksOptimized (fuel + 1) 50 [100, 1] = Run.panic ∧
    ∀ r, CalculatePacksOptimized fuel 50 [100, 1] ≠ Run.done r := by
  have bw : windowPhase 1 10 [100, 1] ([], 50) = Run.panic := by decide
  have bo : CalculatePacksOptimized 1 50 [100, 1] = Run.panic := by decide
  exact ⟨by decide, by decide, by decide, by decide, by decide,
    (windowPhase_settled 10 [100, 1] ([], 50)).panic_of_panic bw (by omega),
    (CalculatePacksOptimized_settled 50 [100, 1]).panic_of_panic bo (by omega),
    fun r => (CalculatePacksOptimized_settled 50 [100, 1]).never_done_of_panic bo fuel r⟩

/-! ## Claim C20 -/

/-- C20: at target 5 with the single pack size 2^64 - 3 (a descending list)
the sentinel 5 + (2^64 - 3) + 1 wraps to 3, the test `size < dp[i]` of line
206 compares 2^64 - 3 with 3 and fails, and `findMinimumItems` records no pack:
every `dp[i]` stays 3 and every `packUsed[i]` stays 0.  The recorded
`packUsed[i] = 0` is not an available size, and the only size has the
candidate 2^64 - 3, not `dp[i]`: the recorded entry is not the largest size
whose candidate equals the final `dp[i]`. -/
theorem C20_wrapped_sentinel_records_no_pack :
    [18446744073709551613].Pairwise (fun a b => b ≤ a) ∧
    add64 (add64 5 18446744073709551613) 1 = 3 ∧
    buildTables 5 (add64 (add64 5 18446744073709551613) 1) [18446744073709551613]
      = Run.done ([0, 3, 3, 3, 3, 3], [0, 0, 0, 0, 0, 0]) ∧
    (∀ i, 1 ≤ i → i ≤ 5 →
      [0, 3, 3, 3, 3, 3][i]? = some 3 ∧ [0, 0, 0, 0, 0, 0][i]? = some 0 ∧
      0 ∉ [18446744073709551613] ∧
      cand [0, 3, 3, 3, 3, 3] i 18446744073709551613 = 18446744073709551613 ∧
      ∀ c ∈ [18446744073709551613], cand [0, 3, 3, 3, 3, 3] i c ≠ 3) := by
  refine ⟨by decide, by decide, by decide, ?_⟩
  intro i h1 h5
  interval_cases i <;> decide

/-! ## Claim C21 -/

/-- C21: at order 5 with the single pack size 2^64 - 3 (order and size at
least 1) the sentinel 5 + (2^64 - 3) + 1 wraps to 3, below the only shippable
total 2^64 - 3.  After the fill every `dp[i]` with `1 <= i <= 5` equals the
sentinel and every `packUsed[i]` is 0, which is not an available size; the
test `dp[target] == maxPossible` holds, so the reconstruction enters the
forward scan (where it panics) and `findMinimumItems` returns nothing. -/
theorem C21_sentinel_wraps_below_the_answer (fuel : Nat) :
    (1 ≤ 5 ∧ ∀ c ∈ [18446744073709551613], 1 ≤ c) ∧
    add64 (add64 5 18446744073709551613) 1 = 3 ∧
    (IsCombination [18446744073709551613] [18446744073709551613] ∧
      5 ≤ [18446744073709551613].sum ∧ ¬ [18446744073709551613].sum < 3) ∧
    buildTables 5 3 [18446744073709551613]
      = Run.done ([0, 3, 3, 3, 3, 3], [0, 0, 0, 0, 0, 0]) ∧
    (∀ i, 1 ≤ i → i ≤ 5 →
      [0, 3, 3, 3, 3, 3][i]? = some 3 ∧ ¬ 3 < add64 (add64 5 18446744073709551613) 1 ∧
      [0, 0, 0, 0, 0, 0][i]? = some 0 ∧ 0 ∉ [18446744073709551613]) ∧
    chooseStart fuel 5 18446744073709551613 3 [0, 3, 3, 3, 3, 3]
      = scanForward [0, 3, 3, 3, 3, 3] 3 (add64 5 18446744073709551613) fuel (add64 5 1) ∧
    chooseStart fuel 5 18446744073709551613 3 [0, 3, 3, 3, 3, 3]
      ≠ Run.done (Scan.found 5) ∧
    ∀ r, findMinimumItems fuel 5 [18446744073709551613] ≠ Run.done r := by
  have bc : chooseStart 1 5 18446744073709551613 3 [0, 3, 3, 3, 3, 3] = Run.panic := by decide
  have bf : findMinimumItems 1 5 [18446744073709551613] = Run.panic := by decide
  refine ⟨by decide, by decide, by decide, by decide, ?_, rfl,
    (chooseStart_settled 5 _ 3 _).never_done_of_panic bc fuel _,
    fun r => (findMinimumItems_settled 5 _).never_done_of_panic bf fuel r⟩
  intro i h1 h5
  interval_cases i <;> decide

/-! ## Claim C22 -/

/-- C22: the forward scan of `findMinimumItems` cannot produce a result.  At
target 5 with the single pack size 2^64 - 3 the sentinel 5 + (2^64 - 3) + 1
wraps to 3, no row of the table is improved, and `dp[5]` still holds the
sentinel; the scan then reads `dp[6]` in a table of 6 entries and panics, so
neither a reachable index nor the fallback of one smallest pack is ever
returned.  The same happens at target 1 with the single pack size 0 (sentinel
2, table `[0, 2]`, read of `dp[2]`). -/
theorem C22_forward_scan_panics (fuel : Nat) :
    add64 (add64 5 18446744073709551613) 1 = 3 ∧
    buildTables 5 3 [18446744073709551613]
      = Run.done ([0, 3, 3, 3, 3, 3], [0, 0, 0, 0, 0, 0]) ∧
    readAt [0, 3, 3, 3, 3, 3] 5 = Run.done 3 ∧
    readAt [0, 3, 3, 3, 3, 3] (add64 5 1) = Run.panic ∧
    chooseStart (fuel + 1) 5 18446744073709551613 3 [0, 3, 3, 3, 3, 3] = Run.panic ∧
    findMinimumItems (fuel + 1) 5 [18446744073709551613] = Run.panic ∧
    (∀ r, findMinimumItems fuel 5 [18446744073709551613] ≠ Run.done r) ∧
    CalculatePacks (fuel + 1) 5 [18446744073709551613] = Run.panic ∧
    buildTables 1 (add64 (add64 1 0) 1) [0] = Run.done ([0, 2], [0, 0]) ∧
    findMinimumItems (fuel + 1) 1 [0] = Run.panic ∧
    ∀ r, findMinimumItems fuel 1 [0] ≠ Run.done r := by
  have bc : chooseStart 1 5 18446744073709551613 3 [0, 3, 3, 3, 3, 3] = Run.panic := by decide
  have bf : findMinimumItems 1 5 [18446744073709551613] = Run.panic := by decide
  have bp : CalculatePacks 1 5 [18446744073709551613] = Run.panic := by decide
  have bz : findMinimumItems 1 1 [0] = Run.panic := by decide
  exact ⟨by decide, by decide, by decide, by decide,
    (chooseStart_settled 5 _ 3 _).panic_of_panic bc (by omega),
    (findMinimumItems_settled 5 _).panic_of_panic bf (by omega),
    fun r => (findMinimumItems_settled 5 _).never_done_of_panic bf fuel r,
    (CalculatePacks_settled 5 _).panic_of_panic bp (by omega),
    by decide,
    (findMinimumItems_settled 1 _).panic_of_panic bz (by omega),
    fun r => (findMinimumItems_settled 1 _).never_done_of_panic bz fuel r⟩

/-! ## Claim C23 -/

/-- C23: when `CalculatePacksOptimized` returns a result, the returned map is
the map of the greedy phase with one increment for every pack chosen by the
bounded reconstruction, in the order the reconstruction chose them (`picks`
is that sequence: started from any map, the second phase increments the
counters of `picks` one after the other).  So for every size `s` the final
count is the greedy count plus the number of times `s` was chosen, as long as
that sum fits in a `uint64`. -/
theorem C23_phases_accumulate (fuel itemsOrdered : Nat) (availablePackSizes : List Nat)
    (r : Returned)
    (h : CalculatePacksOptimized fuel itemsOrdered availablePackSizes = Run.done r)
    (herr : r.err = none) :
    ∃ (smallestPack : Nat) (greedyCounts : PackMap) (remaining : Nat) (picks : List Nat),
      (sortSliceDesc availablePackSizes).getLast? = some smallestPack ∧
      greedyOrSkip (mul64 smallestPack 10) itemsOrdered (sortSliceDesc availablePackSizes)
        = Run.done (greedyCounts, remaining) ∧
      (∀ start, windowPhase fuel (mul64 smallestPack 10) (sortSliceDesc availablePackSizes)
        (start, remaining) = Run.done (picks.foldl PackMap.incr start)) ∧
      r.result.PackCounts = picks.foldl PackMap.incr greedyCounts ∧
      ∀ s, greedyCounts.get s + picks.count s < wordSize →
        r.result.PackCounts.get s = greedyCounts.get s + picks.count s := by
  unfold CalculatePacksOptimized at h
  by_cases h0 : itemsOrdered ≤ 0
  · rw [if_pos h0] at h
    have := Run.done.inj h
    subst this
    cases herr
  rw [if_neg h0] at h
  by_cases hl : availablePackSizes.length = 0
  · rw [if_pos hl] at h
    have := Run.done.inj h
    subst this
    cases herr
  rw [if_neg hl] at h
  simp only at h
  cases hlast : (sortSliceDesc availablePackSizes).getLast? with
  | none => rw [hlast] at h; cases h
  | some smallestPack =>
    rw [hlast] at h
    simp only at h
    obtain ⟨st, hgreedy, h⟩ := Run.bind_eq_done h
    obtain ⟨packCounts, hwindow, h⟩ := Run.bind_eq_done h
    have hr := Run.done.inj h
    subst hr
    obtain ⟨greedyCounts, remaining⟩ := st
    have key : ∃ picks : List Nat, packCounts = picks.foldl PackMap.incr greedyCounts ∧
        ∀ start, windowPhase fuel (mul64 smallestPack 10) (sortSliceDesc availablePackSizes)
          (start, remaining) = Run.done (picks.foldl PackMap.incr start) := by
      unfold windowPhase at hwindow ⊢
      by_cases hrem : 0 < remaining
      · simp only [hrem, if_true] at hwindow ⊢
        obtain ⟨tables, htables, hwindow⟩ := Run.bind_eq_done hwindow
        obtain ⟨bestTarget, hbest, hwalk⟩ := Run.bind_eq_done hwindow
        obtain ⟨picks, hpc, hall⟩ := walkChoices_trace _ _ _ _ _ hwalk
        refine ⟨picks, hpc, fun start => ?_⟩
        rw [htables, Run.done_bind, hbest, Run.done_bind]
        exact hall start
      · simp only [hrem, if_false, Run.pure_eq] at hwindow ⊢
        exact ⟨[], (Run.done.inj hwindow).symm, fun start => rfl⟩
    obtain ⟨picks, hpc, hall⟩ := key
    refine ⟨smallestPack, greedyCounts, remaining, picks, rfl, hgreedy, hall, hpc, ?_⟩
    intro s hs
    show packCounts.get s = _
    rw [hpc]
    exact PackMap.get_foldl_incr picks s greedyCounts hs

/-- Witness of C23 at order 23 with the sizes 10 and 1: the greedy phase
assigns two packs of 10, the reconstruction counts three packs of 1. -/
theorem C23_phases_accumulate_witness :
    CalculatePacksOptimized 4 23 [10, 1] =
      Run.done ⟨{ PackCounts := [(10, 2), (1, 3)], TotalPacks := 5, TotalItems := 23,
                  ExcessItems := 0 }, none, [10, 1]⟩ ∧
    ∃ (smallestPack : Nat) (greedyCounts : PackMap) (remaining : Nat) (picks : List Nat),
      (sortSliceDesc [10, 1]).getLast? = some smallestPack ∧
      greedyOrSkip (mul64 smallestPack 10) 23 (sortSliceDesc [10, 1])
        = Run.done (greedyCounts, remaining) ∧
      (∀ start, windowPhase 4 (mul64 smallestPack 10) (sortSliceDesc [10, 1])
        (start, remaining) = Run.done (picks.foldl PackMap.incr start)) ∧
      [(10, 2), (1, 3)] = picks.foldl PackMap.incr greedyCounts ∧
      ∀ s, greedyCounts.get s + picks.count s < wordSize →
        PackMap.get [(10, 2), (1, 3)] s = greedyCounts.get s + picks.count s :=
  ⟨by decide,
    C23_phases_accumulate 4 23 [10, 1]
      ⟨{ PackCounts := [(10, 2), (1, 3)], TotalPacks := 5, TotalItems := 23,
         ExcessItems := 0 }, none, [10, 1]⟩ (by decide) rfl⟩

/-! ## Claim C24 -/

/-- C24: at order 12001 with the standard pack sizes (the test "Order 12001
items") the smallest size is 250 and the smallest shippable total is 12250 =
2 x 5000 + 2000 + 250, an excess of 249, below 250; `CalculatePacks` returns
no `ExcessItems` at all: it panics once the fuel covers the walk and returns
for no amount of fuel. -/
theorem C24_no_excess_at_12001 (fuel : Nat) :
    (250 ∈ standardPackSizes ∧ ∀ p ∈ standardPackSizes, 250 ≤ p) ∧
    (IsCombination standardPackSizes [5000, 5000, 2000, 250] ∧
      [5000, 5000, 2000, 250].sum = 12250 ∧ 12250 - 12001 < 250) ∧
    (∀ combo, IsCombination standardPackSizes combo → 12001 ≤ combo.sum →
      12250 ≤ combo.sum) ∧
    CalculatePacks (fuel + 12001) 12001 standardPackSizes = Run.panic ∧
    ∀ r, CalculatePacks fuel 12001 standardPackSizes ≠ Run.done r := by
  obtain ⟨hne, hpos, hfit⟩ := standard_valid 12001 (by omega)
  have hno : ¬ Reach standardPackSizes 12001 := standard_not_reach (by omega)
  refine ⟨by decide, by decide, ?_,
    (CalculatePacks_inexact (by omega) hne hpos hfit hno (fuel + 12001)).1 (by omega),
    (CalculatePacks_inexact (by omega) hne hpos hfit hno fuel).2⟩
  intro combo hc hsum
  have := standard_sum_dvd hc
  omega

/-! ## Claim C25 -/

/-- C25: for every order and any two pack-size lists that are permutations of
each other, each of `CalculatePacks`, `CalculatePacksOptimized` and
`OptimalCalculatePacks` has the same outcome on both lists as far as the
returned pair goes: the same `PackResult` with the same error, or a panic on
both. -/
theorem C25_supply_order_is_irrelevant (fuel itemsOrdered : Nat) (first second : List Nat)
    (hperm : first.Perm second) :
    ((fun r => (r.result, r.err)) <$> CalculatePacks fuel itemsOrdered first)
      = ((fun r => (r.result, r.err)) <$> CalculatePacks fuel itemsOrdered second) ∧
    ((fun r => (r.result, r.err)) <$> CalculatePacksOptimized fuel itemsOrdered first)
      = ((fun r => (r.result, r.err)) <$> CalculatePacksOptimized fuel itemsOrdered second) ∧
    ((fun r => (r.result, r.err)) <$> OptimalCalculatePacks fuel itemsOrdered first)
      = ((fun r => (r.result, r.err)) <$> OptimalCalculatePacks fuel itemsOrdered second) := by
  have hsort := sortSliceDesc_eq_of_perm hperm
  have hlen := hperm.length_eq
  have hexact : ((fun r => (r.result, r.err)) <$> CalculatePacks fuel itemsOrdered first)
      = ((fun r => (r.result, r.err)) <$> CalculatePacks fuel itemsOrdered second) := by
    unfold CalculatePacks
    by_cases h0 : itemsOrdered ≤ 0
    · simp only [h0, if_true]; rfl
    · by_cases hl : second.length = 0
      · simp only [h0, if_false, hl, hlen, if_true]; rfl
      · simp only [h0, if_false, hl, hlen, hsort]
  have hhybrid : ((fun r => (r.result, r.err)) <$> CalculatePacksOptimized fuel itemsOrdered first)
      = ((fun r => (r.result, r.err)) <$> CalculatePacksOptimized fuel itemsOrdered second) := by
    unfold CalculatePacksOptimized
    by_cases h0 : itemsOrdered ≤ 0
    · simp only [h0, if_true]; rfl
    · by_cases hl : second.length = 0
      · simp only [h0, if_false, hl, hlen, if_true]; rfl
      · simp only [h0, if_false, hl, hlen, hsort]
  refine ⟨hexact, hhybrid, ?_⟩
  unfold OptimalCalculatePacks selectorThreshold
  rw [hlen]
  by_cases hth : itemsOrdered ≤ if 5 < second.length then 1000 else 2500
  · rw [if_pos hth, if_pos hth]; exact hexact
  · rw [if_neg hth, if_neg hth]; exact hhybrid

/-- Witness of C25 at order 6 with the sizes 1, 3, 4 supplied in two orders. -/
theorem C25_supply_order_is_irrelevant_witness :
    [1, 3, 4].Perm [3, 4, 1] ∧
    CalculatePacks 4 6 [1, 3, 4] =
      Run.done ⟨{ PackCounts := [(4, 1), (1, 2)], TotalPacks := 3, TotalItems := 6,
                  ExcessItems := 0 }, none, [4, 3, 1]⟩ ∧
    ((fun r => (r.result, r.err)) <$> CalculatePacks 4 6 [1, 3, 4])
      = ((fun r => (r.result, r.err)) <$> CalculatePacks 4 6 [3, 4, 1]) :=
  ⟨by decide, by decide, (C25_supply_order_is_irrelevant 4 6 [1, 3, 4] [3, 4, 1] (by decide)).1⟩

/-! ## Claim C26 -/

/-- C26: order 1 with the standard pack sizes lies in the window (1 <= 10 x
250) and the greedy phase contributes nothing, but neither solver returns a
`PackResult`: the smallest shippable total is 250, and both
`CalculatePacksOptimized` and `CalculatePacks` panic in their reconstruction
and return for no amount of fuel.  At order 3 with the single size
1844674407370955162 (3 <= 10 x that size) the product `smallestPack * 10`
wraps to 4, the bounded table records no pack, and the two solvers do not
even fail alike: the walk of `CalculatePacksOptimized` reads the choice 0 and
never advances, so it returns for no amount of fuel and does not panic, while
`CalculatePacks` panics. -/
theorem C26_window_order_without_result (fuel : Nat) :
    ((250 ∈ standardPackSizes ∧ ∀ p ∈ standardPackSizes, 250 ≤ p) ∧ 1 ≤ 1 ∧ 1 ≤ 10 * 250) ∧
    (∀ combo, IsCombination standardPackSizes combo → 1 ≤ combo.sum → 250 ≤ combo.sum) ∧
    greedyOrSkip (mul64 250 10) 1 (sortSliceDesc standardPackSizes) = Run.done ([], 1) ∧
    CalculatePacksOptimized (fuel + 2) 1 standardPackSizes = Run.panic ∧
    (∀ r, CalculatePacksOptimized fuel 1 standardPackSizes ≠ Run.done r) ∧
    CalculatePacks (fuel + 1) 1 standardPackSizes = Run.panic ∧
    (∀ r, CalculatePacks fuel 1 standardPackSizes ≠ Run.done r) ∧
    (3 ≤ 10 * 1844674407370955162 ∧ mul64 1844674407370955162 10 = 4) ∧
    fillWindow 4 [1844674407370955162] (initWindow 4, List.replicate (add64 4 1) 0)
      = Run.done ([0, 5, 6, 7, 8], [0, 0, 0, 0, 0]) ∧
    CalculatePacksOptimized fuel 3 [1844674407370955162] = Run.outOfFuel ∧
    CalculatePacks (fuel + 1) 3 [1844674407370955162] = Run.panic := by
  obtain ⟨hne, hpos, hfit⟩ := standard_valid 1 (by omega)
  have hno : ¬ Reach standardPackSizes 1 := standard_not_reach (by omega)
  have hopt : ∀ n, 1 < n → CalculatePacksOptimized n 1 standardPackSizes = Run.panic :=
    fun n hn => CalculatePacksOptimized_window_inexact (s := 250) (le_refl 1) (by decide)
      (by decide) (by decide) (by decide) (by unfold wordSize; decide) hno n hn
  have bp : CalculatePacks 1 3 [1844674407370955162] = Run.panic := by decide
  have hloop : CalculatePacksOptimized fuel 3 [1844674407370955162] = Run.outOfFuel := by
    have hshape : CalculatePacksOptimized fuel 3 [1844674407370955162] =
        (walkChoices [0, 0, 0, 0, 0] fuel 3 [] >>= fun packCounts =>
          pure ⟨{ PackCounts := packCounts
                  TotalPacks := packCounts.totalPacks
                  TotalItems := packCounts.totalItems
                  ExcessItems := sub64 packCounts.totalItems 3 }, none,
                [1844674407370955162]⟩) := rfl
    rw [hshape, walkChoices_zero_table_stalls fuel []]
    rfl
  refine ⟨by decide, ?_, by decide, hopt (fuel + 2) (by omega),
    fun r => (CalculatePacksOptimized_settled 1 _).never_done_of_panic (hopt 2 (by omega)) fuel r,
    (CalculatePacks_inexact (le_refl 1) hne hpos hfit hno (fuel + 1)).1 (by omega),
    (CalculatePacks_inexact (le_refl 1) hne hpos hfit hno fuel).2,
    by decide, by decide, hloop,
    (CalculatePacks_settled 3 _).panic_of_panic bp (by omega)⟩
  intro combo hc hsum
  have := standard_sum_dvd hc
  omega

end Packify
